import Mathlib

/-!
Flames: a verification development.

Shallow embedding of the fractal-flame engine (`Colors.h`, `Histogram.h`, `MathUtil.h`,
`FlameFunctions.h`, `FlameFunctions.cpp`, `FlameCalculator.cpp`).

Conventions of the embedding.

* A `float` is a binary32 value, `FloatVal`: a rational, an infinity or a NaN.  Every `float`
  operation of the source yields the exact result rounded to the nearest binary32 number, ties
  to even (`roundF32`), with overflow to an infinity and with the subnormal numbers; each
  operation is rounded by itself (no fused multiply-add, no wider intermediate precision).
  The sign of a zero is not tracked: the zero divisors the source can meet are `+0` (a sum
  that starts from `0.f`, a sum of squares, `log2f( 1 )`, and a coordinate `… + c` whose
  coefficient `c` is not `-0`).
* Stored inputs that the engine never computes (coefficients, weights, the draws of the random
  generator) are finite floats, held as rationals.
* Where the source narrows a float to an unsigned integer (`static_cast<uint8_t>`), the model
  truncates toward zero and reduces modulo `2^bits`.  In `BlendWith`, for the only ratio the
  engine uses, `0.5f`, and 8-bit channels, every intermediate value is a dyadic rational that
  a `float` holds exactly.
* The step from a point to its histogram cell is taken in exact arithmetic on the finite
  coordinates (its rounding can only move a point that lies within one unit in the last place
  of a cell border).
* Unsigned machine integers are naturals, reduced `% 2^w` where the source arithmetic can wrap.
* `std::vector` is `List`; an access outside the vector (undefined behaviour in the source)
  makes the modelled operation return `none`.
* A C++ `throw` is an `Outcome.thrown`, returned together with the state reached so far.
-/

namespace flame

/-! ## The binary32 `float` -/

/-- A `float` value: a rational (every finite binary32 number is one), or one of the IEEE
special values.  The sign of a zero is not tracked. -/
inductive FloatVal where
  | finite (q : ℚ) : FloatVal
  | posInf : FloatVal
  | negInf : FloatVal
  | nan : FloatVal
  deriving DecidableEq

/-- The number of binary digits of `n`, by repeated halving; `fuel` bounds the number of
halvings. -/
def bitLength : Nat → Nat → Nat
  | 0, _ => 0
  | fuel + 1, n => if n = 0 then 0 else bitLength fuel (n / 2) + 1

/-- The exponent `⌊log2 q⌋` of a positive rational `q` (and 0 for `q ≤ 0`): the difference of
the digit counts of numerator and denominator, or one less. -/
def floorLog2 (q : ℚ) : ℤ :=
  if q ≤ 0 then 0
  else if (2 : ℚ) ^ ((bitLength q.num.natAbs q.num.natAbs : ℤ) - (bitLength q.den q.den : ℤ)) ≤ q
  then (bitLength q.num.natAbs q.num.natAbs : ℤ) - (bitLength q.den q.den : ℤ)
  else (bitLength q.num.natAbs q.num.natAbs : ℤ) - (bitLength q.den q.den : ℤ) - 1

/-- Rounding of a rational to the nearest integer, a tie going to the even neighbour. -/
def roundHalfEven (q : ℚ) : ℤ :=
  if q - ⌊q⌋ < 1 / 2 then ⌊q⌋
  else if 1 / 2 < q - ⌊q⌋ then ⌊q⌋ + 1
  else if ⌊q⌋ % 2 = 0 then ⌊q⌋ else ⌊q⌋ + 1

/-- The exponent of the binary32 binade of `q`: `⌊log2 |q|⌋`, but at least `-126`, the
exponent that the subnormal numbers share with the smallest normal ones. -/
def binadeF32 (q : ℚ) : ℤ := max (floorLog2 |q|) (-126)

/-- The spacing of the binary32 numbers in the binade of `q` (a significand of 24 bits). -/
def ulpF32 (q : ℚ) : ℚ := (2 : ℚ) ^ (binadeF32 q - 23)

/-- The binary32 number nearest to `q` in units of the spacing of its binade, a tie going to
the even significand (the default rounding mode). -/
def nearestF32 (q : ℚ) : ℚ := (roundHalfEven (q / ulpF32 q) : ℚ) * ulpF32 q

/-- The result of a binary32 operation whose exact value is `q`: the nearest binary32 number,
or an infinity when that lies beyond the largest finite one (`2^128 - 2^104`). -/
def roundF32 (q : ℚ) : FloatVal :=
  if (2 : ℚ) ^ (128 : ℕ) ≤ |nearestF32 q| then
    (if 0 < q then FloatVal.posInf else FloatVal.negInf)
  else FloatVal.finite (nearestF32 q)

/-- The conversion of an unsigned integer to `float`. -/
def FloatVal.ofNat (n : Nat) : FloatVal := roundF32 (n : ℚ)

/-- The unary minus of `float`. -/
def FloatVal.neg : FloatVal → FloatVal
  | FloatVal.finite a => FloatVal.finite (-a)
  | FloatVal.posInf => FloatVal.negInf
  | FloatVal.negInf => FloatVal.posInf
  | FloatVal.nan => FloatVal.nan

/-- The addition of `float`. -/
def FloatVal.add : FloatVal → FloatVal → FloatVal
  | FloatVal.nan, _ => FloatVal.nan
  | _, FloatVal.nan => FloatVal.nan
  | FloatVal.finite a, FloatVal.finite b => roundF32 (a + b)
  | FloatVal.finite _, FloatVal.posInf => FloatVal.posInf
  | FloatVal.finite _, FloatVal.negInf => FloatVal.negInf
  | FloatVal.posInf, FloatVal.finite _ => FloatVal.posInf
  | FloatVal.negInf, FloatVal.finite _ => FloatVal.negInf
  | FloatVal.posInf, FloatVal.posInf => FloatVal.posInf
  | FloatVal.negInf, FloatVal.negInf => FloatVal.negInf
  | FloatVal.posInf, FloatVal.negInf => FloatVal.nan
  | FloatVal.negInf, FloatVal.posInf => FloatVal.nan

/-- The multiplication of `float`. -/
def FloatVal.mul : FloatVal → FloatVal → FloatVal
  | FloatVal.nan, _ => FloatVal.nan
  | _, FloatVal.nan => FloatVal.nan
  | FloatVal.finite a, FloatVal.finite b => roundF32 (a * b)
  | FloatVal.finite a, FloatVal.posInf =>
    if a = 0 then FloatVal.nan else if 0 < a then FloatVal.posInf else FloatVal.negInf
  | FloatVal.finite a, FloatVal.negInf =>
    if a = 0 then FloatVal.nan else if 0 < a then FloatVal.negInf else FloatVal.posInf
  | FloatVal.posInf, FloatVal.finite b =>
    if b = 0 then FloatVal.nan else if 0 < b then FloatVal.posInf else FloatVal.negInf
  | FloatVal.negInf, FloatVal.finite b =>
    if b = 0 then FloatVal.nan else if 0 < b then FloatVal.negInf else FloatVal.posInf
  | FloatVal.posInf, FloatVal.posInf => FloatVal.posInf
  | FloatVal.posInf, FloatVal.negInf => FloatVal.negInf
  | FloatVal.negInf, FloatVal.posInf => FloatVal.negInf
  | FloatVal.negInf, FloatVal.negInf => FloatVal.posInf

/-- The division of `float` (a zero divisor counts as `+0`). -/
def FloatVal.div : FloatVal → FloatVal → FloatVal
  | FloatVal.nan, _ => FloatVal.nan
  | _, FloatVal.nan => FloatVal.nan
  | FloatVal.finite a, FloatVal.finite b =>
    if b = 0 then
      (if a = 0 then FloatVal.nan else if 0 < a then FloatVal.posInf else FloatVal.negInf)
    else roundF32 (a / b)
  | FloatVal.finite _, FloatVal.posInf => FloatVal.finite 0
  | FloatVal.finite _, FloatVal.negInf => FloatVal.finite 0
  | FloatVal.posInf, FloatVal.finite b => if 0 ≤ b then FloatVal.posInf else FloatVal.negInf
  | FloatVal.negInf, FloatVal.finite b => if 0 ≤ b then FloatVal.negInf else FloatVal.posInf
  | FloatVal.posInf, FloatVal.posInf => FloatVal.nan
  | FloatVal.posInf, FloatVal.negInf => FloatVal.nan
  | FloatVal.negInf, FloatVal.posInf => FloatVal.nan
  | FloatVal.negInf, FloatVal.negInf => FloatVal.nan

/-- The comparison `a < b` of `float`: false as soon as one side is a NaN. -/
def FloatVal.lt : FloatVal → FloatVal → Bool
  | FloatVal.nan, _ => false
  | _, FloatVal.nan => false
  | FloatVal.finite a, FloatVal.finite b => decide (a < b)
  | FloatVal.finite _, FloatVal.posInf => true
  | FloatVal.negInf, FloatVal.finite _ => true
  | FloatVal.negInf, FloatVal.posInf => true
  | _, _ => false

instance (n : Nat) : OfNat FloatVal n := ⟨FloatVal.finite (n : ℚ)⟩

instance : Neg FloatVal := ⟨FloatVal.neg⟩

instance : Add FloatVal := ⟨FloatVal.add⟩

instance : Sub FloatVal := ⟨fun a b => FloatVal.add a (FloatVal.neg b)⟩

instance : Mul FloatVal := ⟨FloatVal.mul⟩

instance : Div FloatVal := ⟨FloatVal.div⟩

/-! ## Colors.h -/

/-- A `Color3<_DataType>` value: the three channels, in the order r, g, b. -/
structure Color3 where
  r : Nat
  g : Nat
  b : Nat
  deriving DecidableEq

/-- The float-to-unsigned narrowing `static_cast<_DataType>(q)` for a `bits`-wide channel:
truncation toward zero, then reduction modulo `2^bits`. -/
def castToUInt (bits : Nat) (q : ℚ) : Nat :=
  ((if 0 ≤ q then ⌊q⌋ else ⌈q⌉) % (2 : Int) ^ bits).toNat

/-- The default constructor `Color3()`: all channels zero. -/
def Color3.zero : Color3 := ⟨0, 0, 0⟩

/-- The method `Color3::BlendWith( other, ratio )` on channels of `bits` bits: per channel
`static_cast<_DataType>( r*( 1.f - ratio ) + other.r*ratio )`. -/
def Color3.BlendWith (bits : Nat) (c other : Color3) (ratio : ℚ) : Color3 :=
  { r := castToUInt bits ((c.r : ℚ) * (1 - ratio) + (other.r : ℚ) * ratio)
    g := castToUInt bits ((c.g : ℚ) * (1 - ratio) + (other.g : ℚ) * ratio)
    b := castToUInt bits ((c.b : ℚ) * (1 - ratio) + (other.b : ℚ) * ratio) }

/-- Every channel of the colour fits in `bits` bits. -/
def Color3.WF (bits : Nat) (c : Color3) : Prop :=
  c.r < 2 ^ bits ∧ c.g < 2 ^ bits ∧ c.b < 2 ^ bits

instance (bits : Nat) (c : Color3) : Decidable (c.WF bits) := by
  unfold Color3.WF; exact inferInstance

/-! ## Histogram.h -/

/-- The struct `HistogramEntry`: `uint32_t count; Color3_8 color; uint8_t unused;`. -/
structure HistogramEntry where
  count : Nat
  color : Color3
  unused : Nat
  deriving DecidableEq

/-- The constant `HistogramEntry::Blank()`, which is `{ 0, Color3_8(), 0 }`. -/
def HistogramEntry.Blank : HistogramEntry := ⟨0, Color3.zero, 0⟩

instance : Inhabited HistogramEntry := ⟨HistogramEntry.Blank⟩

/-- The fields of an entry are in the range of their machine types. -/
def HistogramEntry.WF (e : HistogramEntry) : Prop :=
  e.count < 2 ^ 32 ∧ e.color.WF 8 ∧ e.unused < 2 ^ 8

instance (e : HistogramEntry) : Decidable e.WF := by
  unfold HistogramEntry.WF; exact inferInstance

/-- The class `Histogram<HistogramEntry>`: `_width`, `_height` and the row-major `_entries`. -/
structure Histogram where
  width : Nat
  height : Nat
  entries : List HistogramEntry
  deriving DecidableEq

/-- The constructor `Histogram( width, height )`: `_entries.resize( width * height )`
value-initialises every entry (all fields zero). -/
def Histogram.new (width height : Nat) : Histogram :=
  ⟨width, height, List.replicate (width * height) HistogramEntry.Blank⟩

/-- The class invariant set up by the constructor and kept by every method (`_width` and
`_height` are `const`, `_entries` is never resized): there are `width * height` entries, each
within the range of its machine types. -/
def Histogram.WF (h : Histogram) : Prop :=
  h.entries.length = h.width * h.height ∧ ∀ e ∈ h.entries, e.WF

instance (h : Histogram) : Decidable h.WF := by
  unfold Histogram.WF; exact inferInstance

/-- Outcome of a call that may `throw`. -/
inductive Outcome where
  | ok : Outcome
  | thrown (msg : String) : Outcome
  deriving DecidableEq

/-- The method `Histogram::CopyTo( other )`.  `this` is `const`; the result is the outcome of the
call together with the state of `other` when the call ends.  The size check comes first and
throws before anything is written; otherwise `memcpy` overwrites the first
`_width * _height` entries of `other` with those of `this`. -/
def Histogram.CopyTo (self other : Histogram) : Outcome × Histogram :=
  if self.width ≠ other.width ∨ self.height ≠ other.height then
    (Outcome.thrown "Size mismatch!", other)
  else
    (Outcome.ok,
      { other with
        entries := self.entries.take (self.width * self.height) ++
          other.entries.drop (self.width * self.height) })

/-- Reading the entry `(*this)[idx]` at a flat index inside the vector.  (Outside the vector the
source's access is undefined; `Blank` stands in and the theorems only read inside.) -/
def Histogram.get (h : Histogram) (idx : Nat) : HistogramEntry :=
  h.entries.getD idx HistogramEntry.Blank

/-- One pass of the inner loop body of `MergeHistograms`:
`dst[idx].count += from[idx].count;`
`dst[idx].color = dst[idx].color.BlendWith( from[idx].color, 0.5f );`
The count is a `uint32_t` and wraps. -/
def mergeEntry (d f : HistogramEntry) : HistogramEntry :=
  { d with
    count := (d.count + f.count) % 2 ^ 32
    color := d.color.BlendWith 8 f.color (1 / 2) }

/-- The inner loop body at index `idx`, with the two unchecked vector accesses. -/
def mergeCell (src : Histogram) (dst : Histogram) (idx : Nat) : Option Histogram :=
  match dst.entries[idx]?, src.entries[idx]? with
  | some d, some f => some { dst with entries := dst.entries.set idx (mergeEntry d f) }
  | _, _ => none

/-- The inner loop of `MergeHistograms`:
`for ( idx = 0; idx < from.GetWidth() * from.GetHeight(); idx++ )`. -/
def mergeFrom (dst src : Histogram) : Option Histogram :=
  (List.range (src.width * src.height)).foldlM (mergeCell src) dst

/-- The function `MergeHistograms( histograms )`: `dst = histograms[0]`, then every
`histograms[h]`, `h = 1, 2, …`, is folded into `dst` in order.  The result is the vector after
the call. -/
def MergeHistograms (histograms : List Histogram) : Option (List Histogram) :=
  match histograms with
  | [] => none
  | dst :: rest => (rest.foldlM mergeFrom dst).map (fun d => d :: rest)

/-! ## MathUtil.h -/

/-- The table `b[]` of `FastLog2`: the bit masks tested, indexed by `i`. -/
def FastLog2.b : List Nat := [0x2, 0xC, 0xF0, 0xFF00, 0xFFFF0000]

/-- The table `S[]` of `FastLog2`: the shift amounts, indexed by `i`. -/
def FastLog2.S : List Nat := [1, 2, 4, 8, 16]

/-- The loop body of `FastLog2` on the state `(v, r)`:
`if ( v & b[i] ) { v >>= S[i]; r |= S[i]; }`. -/
def FastLog2.step (st : Nat × Nat) (i : Nat) : Nat × Nat :=
  if st.1 &&& FastLog2.b.getD i 0 ≠ 0 then
    (st.1 >>> FastLog2.S.getD i 0, st.2 ||| FastLog2.S.getD i 0)
  else st

/-- The function `FastLog2( v )` for a `uint32_t` argument (`v < 2^32`): `r = 0`, then the loop
`for ( i = 4; i >= 0; i-- )`, then `return r`. -/
def FastLog2 (v : Nat) : Nat :=
  ([4, 3, 2, 1, 0].foldl FastLog2.step (v, 0)).2

/-! ## FlameFunctions.h -/

/-- The variation functions of `struct Variations` (function pointers in the source). -/
inductive Variation where
  | Linear | Spherical | Sinusoidal | Swirl | Heart
  deriving DecidableEq

/-- The struct `Coefficients`: the six floats `a, b, c, d, e, f`. -/
structure Coefficients where
  a : ℚ
  b : ℚ
  c : ℚ
  d : ℚ
  e : ℚ
  f : ℚ
  deriving DecidableEq

/-- The function `Coefficients::Build( a, b, c, d, e, f )`. -/
def Coefficients.Build (a b c d e f : ℚ) : Coefficients := ⟨a, b, c, d, e, f⟩

/-- The struct `FuncData`: a variation, its coefficients and its weight. -/
structure FuncData where
  func : Variation
  coefficients : Coefficients
  weight : ℚ
  deriving DecidableEq

/-- The class `FlameFunction`: `_variations`, `_color`, `_isColorPreserving`. -/
structure FlameFunction where
  variations : List FuncData
  color : Color3
  isColorPreserving : Bool
  deriving DecidableEq

/-- The three-list constructor of `FlameFunction`: the triples are formed index by index, the
colour is default-constructed and the function is colour-preserving.  The source asserts that
the three lists have the same length. -/
def FlameFunction.new (variations : List Variation) (coefficients : List Coefficients)
    (weights : List ℚ) : FlameFunction :=
  { variations :=
      List.zipWith (fun v cw => (⟨v, cw.1, cw.2⟩ : FuncData)) variations
        (List.zip coefficients weights)
    color := Color3.zero
    isColorPreserving := true }

/-- The four-argument constructor of `FlameFunction`: as above, then `_color = color` and
`_isColorPreserving = false`. -/
def FlameFunction.newColored (variations : List Variation) (coefficients : List Coefficients)
    (weights : List ℚ) (color : Color3) : FlameFunction :=
  { FlameFunction.new variations coefficients weights with
    color := color
    isColorPreserving := false }

/-- The enum `Symmetry`. -/
inductive Symmetry where
  | MirrorX | MirrorY | Rotate180 | Rotate120 | Rotate90 | Rotate72 | Rotate60
  deriving DecidableEq

/-- The library functions `std::cos` and `std::sin`, each followed by the narrowing
`static_cast<float>` of `MakeRotationFunction`.  They are not code of the repository and are
taken as parameters. -/
structure Trig where
  cos : ℚ → ℚ
  sin : ℚ → ℚ

/-! ## FlameFunctions.cpp -/

/-- The constant `Pi = 3.14159265`. -/
def Pi : ℚ := 314159265 / 100000000

/-- The function `MakeSymmetryMirrorX()`. -/
def MakeSymmetryMirrorX : FlameFunction :=
  FlameFunction.new [Variation.Linear] [Coefficients.Build 1 0 0 0 (-1) 0] [1]

/-- The function `MakeSymmetryMirrorY()`. -/
def MakeSymmetryMirrorY : FlameFunction :=
  FlameFunction.new [Variation.Linear] [Coefficients.Build (-1) 0 0 0 1 0] [1]

/-- The function `MakeRotationFunction( angle )`. -/
def MakeRotationFunction (t : Trig) (angle : ℚ) : FlameFunction :=
  let cosAlpha := t.cos angle
  let sinAlpha := t.sin angle
  FlameFunction.new [Variation.Linear]
    [Coefficients.Build cosAlpha (-sinAlpha) 0 sinAlpha cosAlpha 0] [1]

/-- The function `MakeSymmetryFunction( symmetry )`. -/
def MakeSymmetryFunction (t : Trig) : Symmetry → List FlameFunction
  | Symmetry.MirrorX => [MakeSymmetryMirrorX]
  | Symmetry.MirrorY => [MakeSymmetryMirrorY]
  | Symmetry.Rotate180 => [MakeRotationFunction t Pi]
  | Symmetry.Rotate120 =>
    [MakeRotationFunction t (Pi * 2 / 3),
     MakeRotationFunction t (Pi * 4 / 3)]
  | Symmetry.Rotate90 =>
    [MakeRotationFunction t (Pi * (1 / 2)),
     MakeRotationFunction t Pi,
     MakeRotationFunction t (Pi * (3 / 2))]
  | Symmetry.Rotate72 =>
    [MakeRotationFunction t (Pi * 2 / 5),
     MakeRotationFunction t (Pi * 4 / 5),
     MakeRotationFunction t (Pi * 6 / 5),
     MakeRotationFunction t (Pi * 8 / 5)]
  | Symmetry.Rotate60 =>
    [MakeRotationFunction t (Pi * 1 / 3),
     MakeRotationFunction t (Pi * 2 / 3),
     MakeRotationFunction t (Pi * 3 / 3),
     MakeRotationFunction t (Pi * 4 / 3),
     MakeRotationFunction t (Pi * 5 / 3)]

/-! ## FlameFunctions.h: the function set -/

/-- The class `FlameFunctionSet`: the vector `_functions` of (probability, function) pairs. -/
structure FlameFunctionSet where
  functions : List (FloatVal × FlameFunction)
  deriving DecidableEq

/-- The method `FlameFunctionSet::AddFunction( function, probability )`. -/
def FlameFunctionSet.AddFunction (fs : FlameFunctionSet) (function : FlameFunction)
    (probability : FloatVal) : FlameFunctionSet :=
  ⟨fs.functions ++ [(probability, function)]⟩

/-- The method `FlameFunctionSet::NormalizeProbabilities()`: the sum is accumulated from `0.f`
in vector order, `invProbabilities = 1.f / sum`, and every probability is multiplied by it. -/
def FlameFunctionSet.NormalizeProbabilities (fs : FlameFunctionSet) : FlameFunctionSet :=
  let sumOfProbabilities := fs.functions.foldl (fun l r => l + r.1) (0 : FloatVal)
  let invProbabilities := 1 / sumOfProbabilities
  ⟨fs.functions.map (fun pair => (pair.1 * invProbabilities, pair.2))⟩

/-- The lambda that `AddSymmetries` hands to `std::accumulate`. -/
def symmetryStep (base : Nat) (sym : Symmetry) : Nat :=
  match sym with
  | Symmetry.Rotate120 => base + 2
  | Symmetry.Rotate90 => base + 3
  | Symmetry.Rotate72 => base + 4
  | Symmetry.Rotate60 => base + 5
  | _ => base + 1

/-- The method `FlameFunctionSet::AddSymmetries( symmetries )`.  The count is an `int`; where
it would pass `2^31 - 1` the addition overflows, which is undefined (`none`).  In
`1.f / symmetriesCount` and `pair.first /= symmetriesCount` the count is converted to
`float`. -/
def FlameFunctionSet.AddSymmetries (t : Trig) (fs : FlameFunctionSet)
    (symmetries : List Symmetry) : Option FlameFunctionSet :=
  let fs1 := fs.NormalizeProbabilities
  let symmetriesCount := symmetries.foldl symmetryStep 1
  if 2 ^ 31 ≤ symmetriesCount then none
  else
    let symmetryProbability := 1 / FloatVal.ofNat symmetriesCount
    let shrunk := fs1.functions.map (fun pair => (pair.1 / FloatVal.ofNat symmetriesCount, pair.2))
    some ⟨symmetries.foldl
      (fun acc symmetry =>
        (MakeSymmetryFunction t symmetry).foldl
          (fun acc2 symFunc => acc2 ++ [(symmetryProbability, symFunc)]) acc)
      shrunk⟩

/-! ## FlameCalculator.cpp -/

/-- The loop of `FlameCalculator::RandomFunction`: `accum += func.first;`
`if ( uniformRnd < accum ) return func.second;`.  `i` is the position of the element the
walk is at; the result is the position of the returned element. -/
def RandomFunction.loop (uniformRnd : ℚ) :
    List (FloatVal × FlameFunction) → FloatVal → Nat → Option Nat
  | [], _, _ => none
  | func :: rest, accum, i =>
    if (FloatVal.finite uniformRnd).lt (accum + func.1) then some i
    else RandomFunction.loop uniformRnd rest (accum + func.1) (i + 1)

/-- The position in the vector of the function that `FlameCalculator::RandomFunction` returns a
reference to: the one the loop returns, else that of `back()`.  `back()` of an empty vector
is undefined behaviour (`none`). -/
def RandomFunctionIdx (fs : FlameFunctionSet) (uniformRnd : ℚ) : Option Nat :=
  match RandomFunction.loop uniformRnd fs.functions 0 0 with
  | some i => some i
  | none => if fs.functions = [] then none else some (fs.functions.length - 1)

/-- The method `FlameCalculator::RandomFunction( uniformRnd )`: the function referred to. -/
def RandomFunction (fs : FlameFunctionSet) (uniformRnd : ℚ) : Option FlameFunction :=
  (RandomFunctionIdx fs uniformRnd).bind (fun i => (fs.functions[i]?).map Prod.snd)

/-- The `float` sum of a list of probabilities, accumulated from `0.f` in list order. -/
def floatSum (ps : List FloatVal) : FloatVal :=
  ps.foldl (fun accum p => accum + p) 0

/-- The cumulative probability of the first `k` functions of the set, in insertion order, as
a `float` accumulates it from `0.f`. -/
def cumulativeProbability (fs : FlameFunctionSet) (k : Nat) : FloatVal :=
  floatSum ((fs.functions.take k).map Prod.fst)

/-- The exact value of a finite `float` (0 for an infinity or a NaN). -/
def FloatVal.toRat : FloatVal → ℚ
  | FloatVal.finite q => q
  | _ => 0

/-- Whether the `float` is finite. -/
def FloatVal.isFinite : FloatVal → Bool
  | FloatVal.finite _ => true
  | _ => false

/-- The exact sum of the probabilities of a function set (all of them finite). -/
def FlameFunctionSet.totalProbability (fs : FlameFunctionSet) : ℚ :=
  (fs.functions.map (fun pair => pair.1.toRat)).sum

/-- The number `k` of generated functions that the specification gives for each symmetry
kind: mirror and 180° rotation 1, 120° 2, 90° 3, 72° 4, 60° 5. -/
def symmetryCount : Symmetry → Nat
  | Symmetry.MirrorX => 1
  | Symmetry.MirrorY => 1
  | Symmetry.Rotate180 => 1
  | Symmetry.Rotate120 => 2
  | Symmetry.Rotate90 => 3
  | Symmetry.Rotate72 => 4
  | Symmetry.Rotate60 => 5

/-- The order `N` of an `N`-fold rotation kind (`none` for the mirrors). -/
def rotationOrder : Symmetry → Option Nat
  | Symmetry.MirrorX => none
  | Symmetry.MirrorY => none
  | Symmetry.Rotate180 => some 2
  | Symmetry.Rotate120 => some 3
  | Symmetry.Rotate90 => some 4
  | Symmetry.Rotate72 => some 5
  | Symmetry.Rotate60 => some 6

/-- A pure-linear flame function of weight 1: the single variation `Linear` with the given
coefficients and weight 1, no fixed colour. -/
def pureLinear (c : Coefficients) : FlameFunction :=
  { variations := [⟨Variation.Linear, c, 1⟩]
    color := Color3.zero
    isColorPreserving := true }

/-- The coefficients `(cos θ, -sin θ, 0, sin θ, cos θ, 0)` of the rotation by `θ`. -/
def rotationCoefficients (t : Trig) (θ : ℚ) : Coefficients :=
  ⟨t.cos θ, -t.sin θ, 0, t.sin θ, t.cos θ, 0⟩

/-- The angle `2·π·i/N` of the `i`-th rotation of an `N`-fold symmetry, with the source's
constant `Pi` for π. -/
def rotationAngle (N i : Nat) : ℚ := 2 * Pi * (i : ℚ) / (N : ℚ)

/-- A sample pair of functions standing for `cos` and `sin`. -/
def sampleTrig : Trig := ⟨fun x => 1 - x * x / 2, fun x => x⟩

/-- A sample set: two functions of probability 1/2 followed by one of probability 0. -/
def sampleSetZeroTail : FlameFunctionSet :=
  ⟨[(1 / 2, MakeSymmetryMirrorX), (1 / 2, MakeSymmetryMirrorY),
    (0, FlameFunction.newColored [] [] [] ⟨255, 0, 0⟩)]⟩

/-- A sample set: a single function, of probability 0. -/
def sampleSetAllZero : FlameFunctionSet := ⟨[(0, MakeSymmetryMirrorX)]⟩

/-- A sample set: a negative weight followed by a positive one. -/
def sampleSetNegative : FlameFunctionSet :=
  ⟨[(-1, MakeSymmetryMirrorX), (2, MakeSymmetryMirrorY)]⟩

/-- A sample set: probabilities 1/4 and 3/4. -/
def sampleSetQuarter : FlameFunctionSet :=
  ⟨[(1 / 4, MakeSymmetryMirrorX), (3 / 4, MakeSymmetryMirrorY)]⟩

/-- The class `FlameCalculator`: `_functions`, `_histogram`, `_superSampling`, `_isRunning`. -/
structure FlameCalculator where
  functions : FlameFunctionSet
  histogram : Histogram
  superSampling : Nat
  isRunning : Bool

/-- The constructor `FlameCalculator( functions, width, height, superSampling )`. -/
def FlameCalculator.new (functions : FlameFunctionSet) (width height superSampling : Nat) :
    FlameCalculator :=
  { functions := functions
    histogram := Histogram.new (width * superSampling) (height * superSampling)
    superSampling := superSampling
    isRunning := false }

/-- The method `FlameCalculator::TakeSnapshot( otherHistogram )`: with the snapshot mutex held,
`_histogram.CopyTo( otherHistogram )`. -/
def FlameCalculator.TakeSnapshot (self : FlameCalculator) (otherHistogram : Histogram) :
    Outcome × Histogram :=
  self.histogram.CopyTo otherHistogram

/-! ## Colors.h: addition and scaling -/

/-- The free `operator+( l, r )` on colours with channels of `bitsL` and `bitsR` bits.  The
result type is `BiggerType_t`, the wider of the two channel types; each channel is
`static_cast<Bigger_t>( l.r + r.r )`, the sum reduced to that width. -/
def Color3.add (bitsL bitsR : Nat) (l r : Color3) : Color3 :=
  { r := (l.r + r.r) % 2 ^ max bitsL bitsR
    g := (l.g + r.g) % 2 ^ max bitsL bitsR
    b := (l.b + r.b) % 2 ^ max bitsL bitsR }

/-- The method `Color3::operator+=( other )` on a colour with channels of `bits` bits (the
other colour's channels are at most as wide): `r += other.r` in the channel type. -/
def Color3.addAssign (bits : Nat) (c other : Color3) : Color3 :=
  { r := (c.r + other.r) % 2 ^ bits
    g := (c.g + other.g) % 2 ^ bits
    b := (c.b + other.b) % 2 ^ bits }

/-- The narrowing `static_cast<_DataType>( v )` of a float to a `bits`-wide unsigned channel.
For a NaN or an infinity the conversion is undefined behaviour (`none`). -/
def FloatVal.toUInt (bits : Nat) : FloatVal → Option Nat
  | FloatVal.finite q => some (castToUInt bits q)
  | _ => none

/-- The free `operator*( col, ratio )` on a colour with channels of `bits` bits: per channel
`static_cast<_DataType>( col.r * ratio )`. -/
def Color3.mul (bits : Nat) (col : Color3) (ratio : FloatVal) : Option Color3 :=
  match ((FloatVal.finite (col.r : ℚ)).mul ratio).toUInt bits,
      ((FloatVal.finite (col.g : ℚ)).mul ratio).toUInt bits,
      ((FloatVal.finite (col.b : ℚ)).mul ratio).toUInt bits with
  | some r, some g, some b => some ⟨r, g, b⟩
  | _, _, _ => none

/-! ## Histogram.h: Resolve -/

/-- The expression `std::log2f( static_cast<float>( count ) )` for a `uint32_t` count.  The
library function is not code of the repository: `lg` stands for it on counts of 2 and more;
`log2f( 0 )` is `-inf` and `log2f( 1 )` is `+0` (IEEE 754, C Annex F). -/
def log2f (lg : Nat → ℚ) (count : Nat) : FloatVal :=
  if count = 0 then FloatVal.negInf
  else if count = 1 then FloatVal.finite 0
  else FloatVal.finite (lg count)

/-- The count at `*std::max_element( ... )` with the comparator `l.count < r.count`; on an
empty vector the iterator is `end()` and dereferencing it is undefined (`none`). -/
def maxCount : List HistogramEntry → Option Nat
  | [] => none
  | e :: rest => some (rest.foldl (fun m x => if m < x.count then x.count else m) e.count)

/-- The per-cell value `intensity = std::log2f( (float) entry.count ) / maxIntensity` of
`ResolveImpl_SS1` and `ResolveImpl_SSHigh`. -/
def cellIntensity (lg : Nat → ℚ) (maxIntensity : FloatVal) (count : Nat) : FloatVal :=
  (log2f lg count).div maxIntensity

/-- All results of a list of fallible steps, or `none` if one of them is undefined. -/
def collect {α : Type} : List (Option α) → Option (List α)
  | [] => some []
  | none :: _ => none
  | some a :: rest => (collect rest).map (fun l => a :: l)

/-- The function `impl::ResolveImpl_SS1`: one output colour `entry.color * intensity` per
entry, in vector order. -/
def ResolveImpl_SS1 (lg : Nat → ℚ) (histogram : List HistogramEntry)
    (maxIntensity : FloatVal) : Option (List Color3) :=
  collect (histogram.map (fun entry =>
    entry.color.mul 8 (cellIntensity lg maxIntensity entry.count)))

/-- The value `scaleFactor = 1.f / ( 4 * maxIntensity )` of `ResolveImpl_SS2`. -/
def scaleFactorSS2 (maxIntensity : FloatVal) : FloatVal :=
  (FloatVal.finite 1).div ((FloatVal.finite 4).mul maxIntensity)

/-- The per-cell value `static_cast<float>( FastLog2( e.count ) ) * scaleFactor` of
`ResolveImpl_SS2`. -/
def cellIntensitySS2 (scaleFactor : FloatVal) (count : Nat) : FloatVal :=
  (FloatVal.finite (FastLog2 count : ℚ)).mul scaleFactor

/-- The loop body of `ResolveImpl_SS2` for the block at `(x, y)`: the four unchecked reads
and the output colour `e1.color * i1 + e2.color * i2 + e3.color * i3 + e4.color * i4`. -/
def resolveBlockSS2 (histogram : List HistogramEntry) (width : Nat) (scaleFactor : FloatVal)
    (y x : Nat) : Option Color3 :=
  match histogram[y * width + x]?, histogram[y * width + x + 1]?,
      histogram[(y + 1) * width + x]?, histogram[(y + 1) * width + x + 1]? with
  | some e1, some e2, some e3, some e4 =>
    match e1.color.mul 8 (cellIntensitySS2 scaleFactor e1.count),
        e2.color.mul 8 (cellIntensitySS2 scaleFactor e2.count),
        e3.color.mul 8 (cellIntensitySS2 scaleFactor e3.count),
        e4.color.mul 8 (cellIntensitySS2 scaleFactor e4.count) with
    | some c1, some c2, some c3, some c4 =>
      some (Color3.add 8 8 (Color3.add 8 8 (Color3.add 8 8 c1 c2) c3) c4)
    | _, _, _, _ => none
  | _, _, _, _ => none

/-- The values `0, step, 2·step, …` below `bound` that a loop
`for ( v = 0; v < bound; v += step )` visits, for `step > 0`. -/
def loopValues (bound step : Nat) : List Nat :=
  (List.range ((bound + step - 1) / step)).map (fun k => k * step)

/-- The function `impl::ResolveImpl_SS2`: the blocks in row-major order, `y` outer and `x`
inner, both in steps of 2. -/
def ResolveImpl_SS2 (histogram : List HistogramEntry) (width height : Nat)
    (maxIntensity : FloatVal) : Option (List Color3) :=
  collect ((loopValues height 2).flatMap (fun y =>
    (loopValues width 2).map (fun x =>
      resolveBlockSS2 histogram width (scaleFactorSS2 maxIntensity) y x)))

/-- The two inner loops of `ResolveImpl_SSHigh` for the block at `(x, y)`: a `Color3_16`
accumulator, to which `entry.color * intensity` is added for each cell of the block. -/
def accumulateBlockSSHigh (lg : Nat → ℚ) (histogram : List HistogramEntry) (width : Nat)
    (maxIntensity : FloatVal) (ss y x : Nat) : Option Color3 :=
  ((List.range ss).flatMap (fun dy => (List.range ss).map (fun dx => (y + dy, x + dx)))).foldlM
    (fun accumulator cell =>
      match histogram[cell.1 * width + cell.2]? with
      | some entry =>
        (entry.color.mul 8 (cellIntensity lg maxIntensity entry.count)).map
          (fun scaled => accumulator.addAssign 16 scaled)
      | none => none)
    Color3.zero

/-- The function `impl::ResolveImpl_SSHigh` for `ss > 0`: per block the accumulator, then the
output colour with the channels `static_cast<uint8_t>( accumulator.r * invSamples )`,
`invSamples = 1.f / ss` (`ss` converted to `float`).  For `ss = 0` the loops of the source do not advance (`none`). -/
def ResolveImpl_SSHigh (lg : Nat → ℚ) (histogram : List HistogramEntry) (width height : Nat)
    (maxIntensity : FloatVal) (ss : Nat) : Option (List Color3) :=
  if ss = 0 then none
  else
    collect ((loopValues height ss).flatMap (fun y =>
      (loopValues width ss).map (fun x =>
        (accumulateBlockSSHigh lg histogram width maxIntensity ss y x).bind
          (fun accumulator =>
            accumulator.mul 8 ((FloatVal.finite 1).div (FloatVal.ofNat ss))))))

/-- The method `Histogram<HistogramEntry>::Resolve( begin, end, superSampling )` of a release
build: the colours written through `begin`, in order. -/
def Histogram.Resolve (lg : Nat → ℚ) (self : Histogram) (superSampling : Nat) :
    Option (List Color3) :=
  match maxCount self.entries with
  | none => none
  | some m =>
    let logMaxCount := log2f lg m
    match superSampling with
    | 1 => ResolveImpl_SS1 lg self.entries logMaxCount
    | 2 => ResolveImpl_SS2 self.entries self.width self.height logMaxCount
    | _ => ResolveImpl_SSHigh lg self.entries self.width self.height logMaxCount superSampling

/-! ## FlameFunctions.h: applying a flame function -/

/-- A `cv::Point2f`: two `float` coordinates. -/
structure Point2f where
  x : FloatVal
  y : FloatVal
  deriving DecidableEq

/-- The library functions the variations call (`std::sin`, `std::cos`, `std::sqrtf`,
`std::atan` on floats).  They are not code of the repository and are taken as parameters,
on all of `float` (infinities and NaN included). -/
structure VariationMath where
  sin : FloatVal → FloatVal
  cos : FloatVal → FloatVal
  sqrt : FloatVal → FloatVal
  atan : FloatVal → FloatVal

/-- The function `impl::VariationLinear`. -/
def VariationLinear (p : Point2f) : Point2f := p

/-- The function `impl::VariationSpherical`.  At the origin `rSqrInv` is `1.f / 0.f`, an
infinity, and both coordinates are `0 * inf`, a NaN. -/
def VariationSpherical (p : Point2f) : Point2f :=
  let rSqrInv := 1 / (p.x * p.x + p.y * p.y)
  ⟨p.x * rSqrInv, p.y * rSqrInv⟩

/-- The function `impl::VariationSinusoidal`. -/
def VariationSinusoidal (m : VariationMath) (p : Point2f) : Point2f :=
  ⟨m.sin p.x, m.sin p.y⟩

/-- The function `impl::VariationSwirl`. -/
def VariationSwirl (m : VariationMath) (p : Point2f) : Point2f :=
  let rSqr := p.x * p.x + p.y * p.y
  let sinR := m.sin rSqr
  let cosR := m.cos rSqr
  ⟨p.x * sinR - p.y * cosR, p.x * cosR + p.y * sinR⟩

/-- The function `impl::VariationHeart`.  For `p.y = 0` the quotient `p.x / p.y` is an
infinity (a NaN when `p.x = 0` too), which is handed to `std::atan`. -/
def VariationHeart (m : VariationMath) (p : Point2f) : Point2f :=
  let r := m.sqrt (p.x * p.x + p.y * p.y)
  let theta := m.atan (p.x / p.y)
  ⟨r * m.sin (theta * r), -r * m.cos (theta * r)⟩

/-- Calling the function pointer `funcData.func`. -/
def Variation.call (m : VariationMath) : Variation → Point2f → Point2f
  | Variation.Linear => VariationLinear
  | Variation.Spherical => VariationSpherical
  | Variation.Sinusoidal => VariationSinusoidal m
  | Variation.Swirl => VariationSwirl m
  | Variation.Heart => VariationHeart m

/-- The argument handed to the variation in `FlameFunction::operator()`:
`{ point.x * c.a + point.y * c.b + c.c, point.x * c.d + point.y * c.e + c.f }`. -/
def Coefficients.transform (c : Coefficients) (point : Point2f) : Point2f :=
  ⟨point.x * FloatVal.finite c.a + point.y * FloatVal.finite c.b + FloatVal.finite c.c,
    point.x * FloatVal.finite c.d + point.y * FloatVal.finite c.e + FloatVal.finite c.f⟩

/-- The method `FlameFunction::operator()( point )`: `ret` starts as the default point
`(0, 0)`; for every `funcData` in order, `ret += funcData.weight * funcData.func( … )`. -/
def FlameFunction.apply (m : VariationMath) (self : FlameFunction) (point : Point2f) :
    Point2f :=
  self.variations.foldl
    (fun ret funcData =>
      let v := funcData.func.call m (funcData.coefficients.transform point)
      ⟨ret.x + FloatVal.finite funcData.weight * v.x,
        ret.y + FloatVal.finite funcData.weight * v.y⟩)
    ⟨0, 0⟩

/-! ## FlameCalculator.cpp: the chaos game -/

/-- The conversion `static_cast<int>( q )`: truncation toward zero.  (Beyond the range of
`int` the source's conversion is undefined; the value is then outside every histogram, as is
the `INT_MIN` that x86 produces, so the point is discarded either way.) -/
def castToInt (q : ℚ) : Int := if 0 ≤ q then ⌊q⌋ else ⌈q⌉

/-- The conversion `static_cast<int>( ( v + 1 ) * half )` of one coordinate `v`.  For an
infinity or a NaN the product is not finite either and its conversion is undefined in the
source; the model takes the `INT_MIN` that x86 produces, which lies outside every histogram. -/
def cellCoordinate (v : FloatVal) (half : ℚ) : Int :=
  match v with
  | FloatVal.finite q => castToInt ((q + 1) * half)
  | _ => -2147483648

/-- The running state of the loop of `FlameCalculator::Iterate`: `point`, `lastColor` and the
calculator's `_histogram`. -/
structure IterState where
  point : Point2f
  lastColor : Color3
  histogram : Histogram

/-- The constant `IterationGranularity = 2 << 14`. -/
def IterationGranularity : Nat := 2 <<< 14

/-- The cell `(hx, hy)` of a point:
`hx = static_cast<int>( ( point.x + 1 ) * ( _histogram.GetWidth() / 2 ) )`, and `hy` likewise
with the height; the divisions by 2 are integer divisions. -/
def cellOf (histogram : Histogram) (point : Point2f) : Int × Int :=
  (cellCoordinate point.x ((histogram.width / 2 : Nat) : ℚ),
   cellCoordinate point.y ((histogram.height / 2 : Nat) : ℚ))

/-- The test `hx < 0 || hx >= GetWidth() || hy < 0 || hy >= GetHeight()` that makes an
iteration `continue`. -/
def outOfBounds (histogram : Histogram) (cell : Int × Int) : Bool :=
  decide (cell.1 < 0) || decide ((histogram.width : Int) ≤ cell.1) ||
    decide (cell.2 < 0) || decide ((histogram.height : Int) ≤ cell.2)

/-- The body of the `for` loop of `FlameCalculator::Iterate` for the draw `u` of
`zeroOneDistribution( rnd )`. -/
def Iterate.step (m : VariationMath) (fs : FlameFunctionSet) (st : IterState) (u : ℚ) :
    Option IterState :=
  match RandomFunction fs u with
  | none => none
  | some rndFunction =>
    let point := rndFunction.apply m st.point
    let cell := cellOf st.histogram point
    if outOfBounds st.histogram cell then
      some { st with point := point }
    else
      let idx := cell.2.toNat * st.histogram.width + cell.1.toNat
      match st.histogram.entries[idx]? with
      | none => none
      | some histogramEntry =>
        let curColor := if rndFunction.isColorPreserving then st.lastColor else rndFunction.color
        some
          { point := point
            lastColor := curColor
            histogram :=
              { st.histogram with
                entries := st.histogram.entries.set idx
                  { histogramEntry with
                    count := (histogramEntry.count + 1) % 2 ^ 32
                    color := histogramEntry.color.BlendWith 8 curColor (1 / 2) } } }

/-- The method `FlameCalculator::Start()`: throws when `_isRunning` is set; otherwise sets
`_isRunning` and starts the worker thread `_executor`, which is joinable exactly while
`_isRunning` is set. -/
def FlameCalculator.Start (self : FlameCalculator) : Outcome × FlameCalculator :=
  if self.isRunning then
    (Outcome.thrown "Can't start FlameCalculator twice!", self)
  else
    (Outcome.ok, { self with isRunning := true })

/-- The method `FlameCalculator::Stop()`: returns at once when `_isRunning` is not set;
otherwise clears `_isRunning` and joins the worker thread. -/
def FlameCalculator.Stop (self : FlameCalculator) : FlameCalculator :=
  if !self.isRunning then self
  else { self with isRunning := false }

/-- A call of the public lifecycle interface. -/
inductive LifecycleCall where
  | start : LifecycleCall
  | stop : LifecycleCall
  deriving DecidableEq

/-- The calculator after a sequence of `Start()` / `Stop()` calls, each `Start()` that throws
being caught by the caller. -/
def FlameCalculator.after (self : FlameCalculator) : List LifecycleCall → FlameCalculator
  | [] => self
  | LifecycleCall.start :: rest => FlameCalculator.after (self.Start).2 rest
  | LifecycleCall.stop :: rest => FlameCalculator.after self.Stop rest

/-- A sample stand-in for `log2f` on counts: the integer logarithm plus the linear
interpolation of the mantissa, exact on powers of two (for instance 3/2 at 3). -/
def sampleLog2 (n : Nat) : ℚ :=
  (Nat.log 2 n : ℚ) + ((n : ℚ) - (2 ^ Nat.log 2 n : ℚ)) / (2 ^ Nat.log 2 n : ℚ)

/-- Sample stand-ins for the library functions of the variations. -/
def sampleVariationMath : VariationMath :=
  ⟨fun x => x, fun x => 1 - x * x / 2, fun x => x, fun x => x⟩

/-- A sample set: the single linear function with identity coefficients and weight 1, with
probability 1. -/
def sampleSetIdentity : FlameFunctionSet :=
  ⟨[(1, FlameFunction.new [Variation.Linear] [Coefficients.Build 1 0 0 0 1 0] [1])]⟩

/-! ## The specification's formulas, for comparison with the code -/

/-- The cell of a point as the specification words it: `cellX = (point.x+1) * width/2` and
`cellY = (point.y+1) * height/2`, each truncated to an integer. -/
def cellOfSpec (width height : Nat) (point : Point2f) : Int × Int :=
  (cellCoordinate point.x ((width : ℚ) / 2), cellCoordinate point.y ((height : ℚ) / 2))

/-- The factor `floorlog2(count) / (4·logMax)` of the supersampling-2 resolve, with the
integer `FastLog2` for `floorlog2` and `lg maxCount` for `logMax`. -/
def factorSS2 (lg : Nat → ℚ) (maxCount count : Nat) : ℚ :=
  (FastLog2 count : ℚ) / (4 * lg maxCount)

/-- An 8-bit colour scaled by a finite ratio: every channel times the ratio, narrowed to
8 bits. -/
def scaledColor (col : Color3) (q : ℚ) : Color3 :=
  ⟨castToUInt 8 ((col.r : ℚ) * q), castToUInt 8 ((col.g : ℚ) * q), castToUInt 8 ((col.b : ℚ) * q)⟩

/-- The scaled colour of the cell `(x, y)` of a histogram whose maximum count is `m`. -/
def scaledCellSS2 (lg : Nat → ℚ) (H : Histogram) (m x y : Nat) : Color3 :=
  scaledColor (H.get (y * H.width + x)).color (factorSS2 lg m (H.get (y * H.width + x)).count)

/-- The pixel of block `(X, Y)` as the specification words it: the sum over the four cells
`(2X,2Y)`, `(2X+1,2Y)`, `(2X,2Y+1)`, `(2X+1,2Y+1)` of the cell's scaled colour. -/
def pixelSS2 (lg : Nat → ℚ) (H : Histogram) (m X Y : Nat) : Color3 :=
  ⟨(scaledCellSS2 lg H m (2 * X) (2 * Y)).r + (scaledCellSS2 lg H m (2 * X + 1) (2 * Y)).r
      + (scaledCellSS2 lg H m (2 * X) (2 * Y + 1)).r
      + (scaledCellSS2 lg H m (2 * X + 1) (2 * Y + 1)).r,
    (scaledCellSS2 lg H m (2 * X) (2 * Y)).g + (scaledCellSS2 lg H m (2 * X + 1) (2 * Y)).g
      + (scaledCellSS2 lg H m (2 * X) (2 * Y + 1)).g
      + (scaledCellSS2 lg H m (2 * X + 1) (2 * Y + 1)).g,
    (scaledCellSS2 lg H m (2 * X) (2 * Y)).b + (scaledCellSS2 lg H m (2 * X + 1) (2 * Y)).b
      + (scaledCellSS2 lg H m (2 * X) (2 * Y + 1)).b
      + (scaledCellSS2 lg H m (2 * X + 1) (2 * Y + 1)).b⟩

/-- A sample 2×2 histogram with the counts 4, 2, 0, 1 (maximum count 4). -/
def sampleHistogram2x2 : Histogram :=
  ⟨2, 2, [⟨4, ⟨200, 100, 0⟩, 0⟩, ⟨2, ⟨80, 16, 8⟩, 0⟩, ⟨0, ⟨0, 0, 0⟩, 0⟩, ⟨1, ⟨255, 255, 255⟩, 0⟩]⟩

/-- A sample 2×2 histogram whose maximum count is 1. -/
def sampleHistogramMaxOne : Histogram :=
  ⟨2, 2, [⟨1, ⟨10, 20, 30⟩, 0⟩, ⟨0, ⟨0, 0, 0⟩, 0⟩, ⟨0, ⟨0, 0, 0⟩, 0⟩, ⟨0, ⟨0, 0, 0⟩, 0⟩]⟩


/-! ## Predicates on `float` values -/

/-- The value is a binary32 number: rounding leaves it as it is (so do an infinity and a
NaN). -/
def FloatVal.IsF32 : FloatVal → Prop
  | FloatVal.finite q => roundF32 q = FloatVal.finite q
  | _ => True

instance (v : FloatVal) : Decidable v.IsF32 := by
  cases v <;> unfold FloatVal.IsF32 <;> exact inferInstance

/-- The comparison `0 ≤ v` holds (so `v` is not a NaN), and `v` is a binary32 number. -/
def FloatVal.IsNonNeg : FloatVal → Prop
  | FloatVal.finite q => 0 ≤ q ∧ roundF32 q = FloatVal.finite q
  | FloatVal.posInf => True
  | _ => False

instance (v : FloatVal) : Decidable v.IsNonNeg := by
  cases v <;> unfold FloatVal.IsNonNeg <;> exact inferInstance


/-- A sample set of seven functions, told apart by their colours, with the probabilities
`1/2`, four times `2^-26`, `1/2 - 2^-24` and `0`: all binary32 numbers, of exact sum 1. -/
def sampleSetTiny : FlameFunctionSet :=
  ⟨[(1 / 2, FlameFunction.newColored [] [] [] ⟨0, 0, 0⟩),
    (1 / 67108864, FlameFunction.newColored [] [] [] ⟨1, 0, 0⟩),
    (1 / 67108864, FlameFunction.newColored [] [] [] ⟨2, 0, 0⟩),
    (1 / 67108864, FlameFunction.newColored [] [] [] ⟨3, 0, 0⟩),
    (1 / 67108864, FlameFunction.newColored [] [] [] ⟨4, 0, 0⟩),
    (8388607 / 16777216, FlameFunction.newColored [] [] [] ⟨5, 0, 0⟩),
    (0, FlameFunction.newColored [] [] [] ⟨6, 0, 0⟩)]⟩


/-- Every probability of the set is a finite `float` between `lo` and `hi`. -/
def FlameFunctionSet.WeightsIn (fs : FlameFunctionSet) (lo hi : ℚ) : Prop :=
  ∀ p ∈ fs.functions, p.1.isFinite = true ∧ lo ≤ p.1.toRat ∧ p.1.toRat ≤ hi

instance (fs : FlameFunctionSet) (lo hi : ℚ) : Decidable (fs.WeightsIn lo hi) := by
  unfold FlameFunctionSet.WeightsIn; exact inferInstance


/-- A sample set: the weights 1 and 2. -/
def sampleSetOneTwo : FlameFunctionSet :=
  ⟨[(1, MakeSymmetryMirrorX), (2, MakeSymmetryMirrorY)]⟩

/-- A sample set: two weights `2^127`, whose `float` sum overflows. -/
def sampleSetHuge : FlameFunctionSet :=
  ⟨[(170141183460469231731687303715884105728, MakeSymmetryMirrorX),
    (170141183460469231731687303715884105728, MakeSymmetryMirrorY)]⟩

/-- A sample set: the single weight `2^-149`, the smallest positive `float`. -/
def sampleSetDenormal : FlameFunctionSet :=
  ⟨[(FloatVal.finite (1 / 713623846352979940529142984724747568191373312),
    MakeSymmetryMirrorX)]⟩

/-- A sample set of 169 functions: the weight `2^24` followed by 168 weights 1, each of
which the `float` sum absorbs. -/
def sampleSetAbsorbed : FlameFunctionSet :=
  ⟨(16777216, MakeSymmetryMirrorX) :: List.replicate 168 (1, MakeSymmetryMirrorY)⟩

/-- A sample set: a single function of probability 1. -/
def sampleSetSingle : FlameFunctionSet := ⟨[(1, MakeSymmetryMirrorX)]⟩


/-- A sample set of 402 functions whose probabilities are binary32 numbers of exact sum 1:
`1/2`, then 400 times `2^-25`, then `1/2 - 400·2^-25`.  The `float` sum, at `1/2`, absorbs
each `2^-25` (a tie, which goes to the even significand). -/
def sampleSetNormalized : FlameFunctionSet :=
  ⟨(1 / 2, MakeSymmetryMirrorX)
    :: (List.replicate 400 (1 / 33554432, MakeSymmetryMirrorY)
      ++ [(16776816 / 33554432, MakeSymmetryMirrorX)])⟩


/-- The factor of the supersampling-2 resolve as `float` arithmetic computes it:
`floorlog2(count) * ( 1.f / ( 4 * logMax ) )`, with the integer `FastLog2` for `floorlog2`
and `log2f` of the maximum count for `logMax`; the two products and the quotient are each
rounded. -/
def factorSS2Float (lg : Nat → ℚ) (maxCount count : Nat) : FloatVal :=
  FloatVal.finite (FastLog2 count : ℚ) * (1 / (4 * log2f lg maxCount))

/-- An 8-bit colour scaled by a `float` ratio: every channel times the ratio, as a rounded
`float` product, narrowed to 8 bits. -/
def scaledColorFloat (col : Color3) (ratio : FloatVal) : Color3 :=
  ⟨castToUInt 8 (FloatVal.finite (col.r : ℚ) * ratio).toRat,
    castToUInt 8 (FloatVal.finite (col.g : ℚ) * ratio).toRat,
    castToUInt 8 (FloatVal.finite (col.b : ℚ) * ratio).toRat⟩

/-- The scaled colour of the cell `(x, y)` of a histogram whose maximum count is `m`, in
`float` arithmetic. -/
def scaledCellSS2Float (lg : Nat → ℚ) (H : Histogram) (m x y : Nat) : Color3 :=
  scaledColorFloat (H.get (y * H.width + x)).color
    (factorSS2Float lg m (H.get (y * H.width + x)).count)

/-- The pixel of block `(X, Y)`: the sum over the four cells `(2X,2Y)`, `(2X+1,2Y)`,
`(2X,2Y+1)`, `(2X+1,2Y+1)` of the cell's colour scaled in `float` arithmetic. -/
def pixelSS2Float (lg : Nat → ℚ) (H : Histogram) (m X Y : Nat) : Color3 :=
  ⟨(scaledCellSS2Float lg H m (2 * X) (2 * Y)).r + (scaledCellSS2Float lg H m (2 * X + 1) (2 * Y)).r
      + (scaledCellSS2Float lg H m (2 * X) (2 * Y + 1)).r
      + (scaledCellSS2Float lg H m (2 * X + 1) (2 * Y + 1)).r,
    (scaledCellSS2Float lg H m (2 * X) (2 * Y)).g + (scaledCellSS2Float lg H m (2 * X + 1) (2 * Y)).g
      + (scaledCellSS2Float lg H m (2 * X) (2 * Y + 1)).g
      + (scaledCellSS2Float lg H m (2 * X + 1) (2 * Y + 1)).g,
    (scaledCellSS2Float lg H m (2 * X) (2 * Y)).b + (scaledCellSS2Float lg H m (2 * X + 1) (2 * Y)).b
      + (scaledCellSS2Float lg H m (2 * X) (2 * Y + 1)).b
      + (scaledCellSS2Float lg H m (2 * X + 1) (2 * Y + 1)).b⟩

/-- A sample 2×2 histogram: the count `2^25` with the colour black, the count 32 with the
colour `(20, 0, 0)`, and two blank cells. -/
def sampleHistogramRounding : Histogram :=
  ⟨2, 2, [⟨33554432, ⟨0, 0, 0⟩, 0⟩, ⟨32, ⟨20, 0, 0⟩, 0⟩, ⟨0, ⟨0, 0, 0⟩, 0⟩, ⟨0, ⟨0, 0, 0⟩, 0⟩]⟩

/-- A sample 2×2 histogram: the count 3 and the colour `(200, 0, 0)` in every cell. -/
def sampleHistogramThrees : Histogram :=
  ⟨2, 2, [⟨3, ⟨200, 0, 0⟩, 0⟩, ⟨3, ⟨200, 0, 0⟩, 0⟩, ⟨3, ⟨200, 0, 0⟩, 0⟩, ⟨3, ⟨200, 0, 0⟩, 0⟩]⟩

/-- A sample 3×3 histogram: the count 4 and the colour `(10, 20, 30)` in every cell. -/
def sampleHistogramFours : Histogram :=
  ⟨3, 3, List.replicate 9 ⟨4, ⟨10, 20, 30⟩, 0⟩⟩


/-! ## Theorems -/

/-! ### The binary32 rounding -/

theorem bitLength_zero (fuel : Nat) : bitLength fuel 0 = 0 := by
  cases fuel <;> simp [bitLength]

theorem bitLength_spec : ∀ (fuel n : Nat), n ≤ fuel → 0 < n →
    2 ^ (bitLength fuel n - 1) ≤ n ∧ n < 2 ^ bitLength fuel n ∧ 0 < bitLength fuel n := by
  intro fuel
  induction fuel with
  | zero => intro n h1 h2; omega
  | succ fuel ih =>
    intro n hle hpos
    have hn : n ≠ 0 := by omega
    simp only [bitLength, if_neg hn, Nat.add_sub_cancel]
    by_cases h2 : n / 2 = 0
    · rw [h2, bitLength_zero]
      have : n = 1 := by omega
      subst this
      simp
    · have hle2 : n / 2 ≤ fuel := by omega
      obtain ⟨ih1, ih2, ih3⟩ := ih (n / 2) hle2 (by omega)
      have e : 2 ^ bitLength fuel (n / 2) = 2 * 2 ^ (bitLength fuel (n / 2) - 1) := by
        rw [← pow_succ']
        congr 1
        omega
      refine ⟨?_, ?_, by omega⟩
      · rw [e]; omega
      · rw [pow_succ]; omega

theorem floorLog2_spec (q : ℚ) (hq : 0 < q) :
    (2 : ℚ) ^ floorLog2 q ≤ q ∧ q < (2 : ℚ) ^ (floorLog2 q + 1) := by
  have hnum : 0 < q.num := Rat.num_pos.mpr hq
  have ha : 0 < q.num.natAbs := Int.natAbs_pos.mpr (ne_of_gt hnum)
  have hd : 0 < q.den := q.den_pos
  obtain ⟨a1, a2, a3⟩ := bitLength_spec q.num.natAbs q.num.natAbs le_rfl ha
  obtain ⟨d1, d2, d3⟩ := bitLength_spec q.den q.den le_rfl hd
  set la := bitLength q.num.natAbs q.num.natAbs with hla
  set ld := bitLength q.den q.den with hld
  have hqeq : q = (q.num.natAbs : ℚ) / (q.den : ℚ) := by
    have h1 : ((q.num.natAbs : ℤ) : ℚ) = (q.num : ℚ) := by
      rw [Int.natAbs_of_nonneg (le_of_lt hnum)]
    have h2 : ((q.num.natAbs : ℕ) : ℚ) = ((q.num.natAbs : ℤ) : ℚ) := (Int.cast_natCast _).symm
    rw [h2, h1]
    exact (Rat.num_div_den q).symm
  have hdq : (0 : ℚ) < (q.den : ℚ) := by exact_mod_cast hd
  have a1q : (2 : ℚ) ^ (la - 1) ≤ (q.num.natAbs : ℚ) := by exact_mod_cast a1
  have a2q : (q.num.natAbs : ℚ) < (2 : ℚ) ^ la := by exact_mod_cast a2
  have d1q : (2 : ℚ) ^ (ld - 1) ≤ (q.den : ℚ) := by exact_mod_cast d1
  have d2q : (q.den : ℚ) < (2 : ℚ) ^ ld := by exact_mod_cast d2
  have two_pos : (0 : ℚ) < 2 := by norm_num
  have two_ne : (2 : ℚ) ≠ 0 := by norm_num
  -- the upper bound `q < 2 ^ (la - ld + 1)`
  have hup : q < (2 : ℚ) ^ ((la : ℤ) - (ld : ℤ) + 1) := by
    have e : (2 : ℚ) ^ ((la : ℤ) - (ld : ℤ) + 1) = (2 : ℚ) ^ la / (2 : ℚ) ^ (ld - 1) := by
      have : ((la : ℤ) - (ld : ℤ) + 1) = (la : ℤ) - ((ld - 1 : ℕ) : ℤ) := by omega
      rw [this, zpow_sub₀ two_ne, zpow_natCast, zpow_natCast]
    rw [e, hqeq, div_lt_div_iff₀ hdq (by positivity)]
    calc (q.num.natAbs : ℚ) * (2 : ℚ) ^ (ld - 1) < (2 : ℚ) ^ la * (2 : ℚ) ^ (ld - 1) := by
          apply mul_lt_mul_of_pos_right a2q (by positivity)
      _ ≤ (2 : ℚ) ^ la * (q.den : ℚ) := by
          apply mul_le_mul_of_nonneg_left d1q (by positivity)
  -- the lower bound `2 ^ (la - ld - 1) ≤ q`
  have hlow : (2 : ℚ) ^ ((la : ℤ) - (ld : ℤ) - 1) ≤ q := by
    have e : (2 : ℚ) ^ ((la : ℤ) - (ld : ℤ) - 1) = (2 : ℚ) ^ (la - 1) / (2 : ℚ) ^ ld := by
      have : ((la : ℤ) - (ld : ℤ) - 1) = ((la - 1 : ℕ) : ℤ) - (ld : ℤ) := by omega
      rw [this, zpow_sub₀ two_ne, zpow_natCast, zpow_natCast]
    rw [e, hqeq, div_le_div_iff₀ (by positivity) hdq]
    calc (2 : ℚ) ^ (la - 1) * (q.den : ℚ) ≤ (q.num.natAbs : ℚ) * (q.den : ℚ) := by
          apply mul_le_mul_of_nonneg_right a1q (le_of_lt hdq)
      _ ≤ (q.num.natAbs : ℚ) * (2 : ℚ) ^ ld := by
          apply mul_le_mul_of_nonneg_left (le_of_lt d2q) (by positivity)
  unfold floorLog2
  rw [if_neg (not_le.mpr hq)]
  split
  · rename_i h
    exact ⟨h, hup⟩
  · rename_i h
    refine ⟨hlow, ?_⟩
    rw [sub_add_cancel]
    exact not_le.mp h


theorem floorLog2_unique (q : ℚ) (e : ℤ) (h1 : (2 : ℚ) ^ e ≤ q) (h2 : q < (2 : ℚ) ^ (e + 1)) :
    floorLog2 q = e := by
  have hq : 0 < q := lt_of_lt_of_le (by positivity) h1
  obtain ⟨s1, s2⟩ := floorLog2_spec q hq
  have one_lt : (1 : ℚ) < 2 := by norm_num
  by_contra hne
  rcases lt_or_gt_of_ne hne with h | h
  · have : (2 : ℚ) ^ (floorLog2 q + 1) ≤ (2 : ℚ) ^ e :=
      zpow_le_zpow_right₀ (le_of_lt one_lt) (by omega)
    linarith
  · have : (2 : ℚ) ^ (e + 1) ≤ (2 : ℚ) ^ floorLog2 q :=
      zpow_le_zpow_right₀ (le_of_lt one_lt) (by omega)
    linarith

theorem floorLog2_mono (q r : ℚ) (hq : 0 < q) (h : q ≤ r) : floorLog2 q ≤ floorLog2 r := by
  obtain ⟨s1, _⟩ := floorLog2_spec q hq
  obtain ⟨_, t2⟩ := floorLog2_spec r (lt_of_lt_of_le hq h)
  have one_lt : (1 : ℚ) < 2 := by norm_num
  have : (2 : ℚ) ^ floorLog2 q < (2 : ℚ) ^ (floorLog2 r + 1) := by linarith
  have := (zpow_lt_zpow_iff_right₀ one_lt).mp this
  omega

theorem floorLog2_lt (q : ℚ) (e : ℤ) (hq : 0 < q) (h : q < (2 : ℚ) ^ e) : floorLog2 q < e := by
  obtain ⟨s1, _⟩ := floorLog2_spec q hq
  have one_lt : (1 : ℚ) < 2 := by norm_num
  exact (zpow_lt_zpow_iff_right₀ one_lt).mp (lt_of_le_of_lt s1 h)

theorem le_floorLog2 (q : ℚ) (e : ℤ) (h : (2 : ℚ) ^ e ≤ q) : e ≤ floorLog2 q := by
  have hq : 0 < q := lt_of_lt_of_le (by positivity) h
  obtain ⟨_, s2⟩ := floorLog2_spec q hq
  have one_lt : (1 : ℚ) < 2 := by norm_num
  have := (zpow_lt_zpow_iff_right₀ one_lt).mp (lt_of_le_of_lt h s2)
  omega

theorem roundHalfEven_cases (x : ℚ) :
    (roundHalfEven x = ⌊x⌋ ∧ x - ⌊x⌋ ≤ 1 / 2) ∨ (roundHalfEven x = ⌊x⌋ + 1 ∧ 1 / 2 ≤ x - ⌊x⌋) := by
  unfold roundHalfEven
  split
  · left; exact ⟨rfl, by linarith⟩
  · split
    · right; exact ⟨rfl, by linarith⟩
    · split
      · left; exact ⟨rfl, by linarith⟩
      · right; exact ⟨rfl, by linarith⟩

theorem roundHalfEven_intCast (n : ℤ) : roundHalfEven (n : ℚ) = n := by
  unfold roundHalfEven
  rw [Int.floor_intCast, sub_self, if_pos (by norm_num)]

theorem roundHalfEven_natCast (n : ℕ) : roundHalfEven (n : ℚ) = n := by
  have := roundHalfEven_intCast (n : ℤ)
  simpa using this

theorem roundHalfEven_sub_le (x : ℚ) : |(roundHalfEven x : ℚ) - x| ≤ 1 / 2 := by
  have h1 : ((⌊x⌋ : ℤ) : ℚ) ≤ x := Int.floor_le x
  have h2 : x < ((⌊x⌋ : ℤ) : ℚ) + 1 := Int.lt_floor_add_one x
  rw [abs_le]
  rcases roundHalfEven_cases x with ⟨e, h⟩ | ⟨e, h⟩
  · rw [e]; constructor <;> linarith
  · rw [e]; push_cast; constructor <;> linarith

theorem roundHalfEven_mono (x y : ℚ) (h : x ≤ y) : roundHalfEven x ≤ roundHalfEven y := by
  have hx1 : ((⌊x⌋ : ℤ) : ℚ) ≤ x := Int.floor_le x
  have hy2 : y < ((⌊y⌋ : ℤ) : ℚ) + 1 := Int.lt_floor_add_one y
  have hfl : ⌊x⌋ ≤ ⌊y⌋ := Int.floor_mono h
  rcases lt_or_eq_of_le hfl with hlt | heq
  · -- different floors
    have a : roundHalfEven x ≤ ⌊x⌋ + 1 := by
      rcases roundHalfEven_cases x with ⟨e, _⟩ | ⟨e, _⟩ <;> omega
    have b : ⌊y⌋ ≤ roundHalfEven y := by
      rcases roundHalfEven_cases y with ⟨e, _⟩ | ⟨e, _⟩ <;> omega
    omega
  · -- the same floor
    unfold roundHalfEven
    rw [← heq]
    by_cases c1 : x - ⌊x⌋ < 1 / 2
    · rw [if_pos c1]
      split
      · exact le_refl _
      · split
        · omega
        · split
          · exact le_refl _
          · omega
    · rw [if_neg c1]
      have c1y : ¬ (y - ⌊x⌋ < 1 / 2) := by
        intro hh
        apply c1
        linarith
      rw [if_neg c1y]
      by_cases c2 : 1 / 2 < x - ⌊x⌋
      · have c2y : 1 / 2 < y - ⌊x⌋ := by linarith
        rw [if_pos c2, if_pos c2y]
      · rw [if_neg c2]
        by_cases c3 : 1 / 2 < y - ⌊x⌋
        · rw [if_pos c3]
          split <;> omega
        · rw [if_neg c3]


theorem ulpF32_pos (q : ℚ) : 0 < ulpF32 q := by
  unfold ulpF32
  positivity

theorem binadeF32_ge (q : ℚ) : -126 ≤ binadeF32 q := le_max_right _ _

theorem nearestF32_zero : nearestF32 0 = 0 := by
  simp [nearestF32, roundHalfEven]

theorem nearestF32_of_int (q : ℚ) (m : ℤ) (h : q = (m : ℚ) * ulpF32 q) : nearestF32 q = q := by
  have hu := ulpF32_pos q
  have e : q / ulpF32 q = (m : ℚ) := by
    rw [div_eq_iff (ne_of_gt hu)]
    exact h
  unfold nearestF32
  rw [e, roundHalfEven_intCast]
  exact h.symm

theorem binadeF32_sub_le (q : ℚ) (k : ℤ) (hq : q ≠ 0) (hk : -149 ≤ k)
    (h : |q| < (2 : ℚ) ^ (k + 24)) : binadeF32 q - 23 ≤ k := by
  have hpos : 0 < |q| := abs_pos.mpr hq
  have := floorLog2_lt |q| (k + 24) hpos h
  unfold binadeF32
  have h2 : max (floorLog2 |q|) (-126) ≤ k + 23 := max_le (by omega) (by omega)
  omega

theorem nearestF32_of_dyadic (m k : ℤ) (hm : |m| < 2 ^ 24) (hk : -149 ≤ k) :
    nearestF32 ((m : ℚ) * (2 : ℚ) ^ k) = (m : ℚ) * (2 : ℚ) ^ k := by
  by_cases hm0 : m = 0
  · subst hm0
    simp [nearestF32_zero]
  · have two_ne : (2 : ℚ) ≠ 0 := by norm_num
    have hq : (m : ℚ) * (2 : ℚ) ^ k ≠ 0 := by
      apply mul_ne_zero
      · exact_mod_cast hm0
      · positivity
    have habs : |(m : ℚ) * (2 : ℚ) ^ k| < (2 : ℚ) ^ (k + 24) := by
      rw [abs_mul, abs_of_pos (show (0 : ℚ) < (2 : ℚ) ^ k by positivity), zpow_add₀ two_ne,
        mul_comm]
      apply mul_lt_mul_of_pos_left _ (by positivity)
      have : ((|m| : ℤ) : ℚ) < ((2 ^ 24 : ℤ) : ℚ) := by exact_mod_cast hm
      rw [Int.cast_abs] at this
      refine lt_of_lt_of_le this (le_of_eq ?_)
      norm_num
    have hb := binadeF32_sub_le _ k hq hk habs
    obtain ⟨n, hn⟩ : ∃ n : ℕ, k = (binadeF32 ((m : ℚ) * (2 : ℚ) ^ k) - 23) + (n : ℤ) :=
      ⟨(k - (binadeF32 ((m : ℚ) * (2 : ℚ) ^ k) - 23)).toNat, by omega⟩
    apply nearestF32_of_int _ (m * 2 ^ n)
    unfold ulpF32
    conv_lhs => rw [hn]
    rw [zpow_add₀ two_ne, zpow_natCast]
    push_cast
    ring

theorem roundF32_of_dyadic (m k : ℤ) (hm : |m| < 2 ^ 24) (hk : -149 ≤ k)
    (hlt : |(m : ℚ) * (2 : ℚ) ^ k| < (2 : ℚ) ^ (128 : ℕ)) :
    roundF32 ((m : ℚ) * (2 : ℚ) ^ k) = FloatVal.finite ((m : ℚ) * (2 : ℚ) ^ k) := by
  unfold roundF32
  rw [nearestF32_of_dyadic m k hm hk, if_neg (not_le.mpr hlt)]

theorem roundF32_intCast (m : ℤ) (hm : |m| < 2 ^ 24) :
    roundF32 (m : ℚ) = FloatVal.finite (m : ℚ) := by
  have h := roundF32_of_dyadic m 0 hm (by norm_num) (by
    rw [zpow_zero, mul_one]
    have : ((|m| : ℤ) : ℚ) < ((2 ^ 24 : ℤ) : ℚ) := by exact_mod_cast hm
    rw [Int.cast_abs] at this
    refine lt_trans this ?_
    norm_num)
  simpa using h

theorem roundF32_natCast (n : ℕ) (hn : n < 2 ^ 24) :
    roundF32 (n : ℚ) = FloatVal.finite (n : ℚ) := by
  have h := roundF32_intCast (n : ℤ) (by
    rw [abs_of_nonneg (Int.natCast_nonneg n)]
    exact_mod_cast hn)
  simpa using h

theorem roundF32_one : roundF32 1 = FloatVal.finite 1 := by
  have := roundF32_natCast 1 (by norm_num)
  simpa using this

theorem roundF32_zero : roundF32 0 = FloatVal.finite 0 := by
  have := roundF32_natCast 0 (by norm_num)
  simpa using this


theorem abs_lt_binade (q : ℚ) : |q| < (2 : ℚ) ^ (binadeF32 q + 1) := by
  by_cases hq : q = 0
  · subst hq
    rw [abs_zero]
    positivity
  · have hpos : 0 < |q| := abs_pos.mpr hq
    obtain ⟨_, s2⟩ := floorLog2_spec |q| hpos
    refine lt_of_lt_of_le s2 (zpow_le_zpow_right₀ (by norm_num) ?_)
    have : floorLog2 |q| ≤ binadeF32 q := le_max_left _ _
    omega

theorem abs_div_ulp_lt (q : ℚ) : |q / ulpF32 q| < (2 : ℚ) ^ (24 : ℕ) := by
  have hu := ulpF32_pos q
  rw [abs_div, abs_of_pos hu, div_lt_iff₀ hu]
  have h := abs_lt_binade q
  have e : (2 : ℚ) ^ (24 : ℕ) * ulpF32 q = (2 : ℚ) ^ (binadeF32 q + 1) := by
    unfold ulpF32
    rw [← zpow_natCast, ← zpow_add₀ (by norm_num : (2 : ℚ) ≠ 0)]
    congr 1
    push_cast
    ring
  rw [e]
  exact h

theorem abs_roundHalfEven_le (q : ℚ) : |roundHalfEven (q / ulpF32 q)| ≤ 2 ^ 24 := by
  have h := abs_div_ulp_lt q
  rw [abs_lt] at h
  have h1 : roundHalfEven (q / ulpF32 q) ≤ roundHalfEven (((2 ^ 24 : ℤ) : ℚ)) :=
    roundHalfEven_mono _ _ (by push_cast; exact le_of_lt h.2)
  have h2 : roundHalfEven (((-(2 ^ 24) : ℤ) : ℚ)) ≤ roundHalfEven (q / ulpF32 q) :=
    roundHalfEven_mono _ _ (by push_cast; exact le_of_lt h.1)
  rw [roundHalfEven_intCast] at h1 h2
  rw [abs_le]
  exact ⟨h2, h1⟩

theorem nearestF32_idem (q : ℚ) : nearestF32 (nearestF32 q) = nearestF32 q := by
  have hb := binadeF32_ge q
  have hm := abs_roundHalfEven_le q
  have two_ne : (2 : ℚ) ≠ 0 := by norm_num
  rcases lt_or_eq_of_le hm with hlt | heq
  · exact nearestF32_of_dyadic _ (binadeF32 q - 23) hlt (by omega)
  · -- the significand is `± 2^24`: the value is `± 2^(binade + 1)`
    have e2 : (2 : ℚ) ^ (24 : ℕ) * (2 : ℚ) ^ (binadeF32 q - 23) = (2 : ℚ) ^ (binadeF32 q + 1) := by
      rw [← zpow_natCast, ← zpow_add₀ two_ne]
      congr 1
      push_cast
      ring
    rcases abs_eq (by norm_num : (0 : ℤ) ≤ 2 ^ 24) |>.mp heq with h | h
    · have e : nearestF32 q = ((1 : ℤ) : ℚ) * (2 : ℚ) ^ (binadeF32 q + 1) := by
        unfold nearestF32
        rw [h, ← e2]
        unfold ulpF32
        push_cast
        ring
      rw [e]
      exact nearestF32_of_dyadic 1 _ (by norm_num) (by omega)
    · have e : nearestF32 q = ((-1 : ℤ) : ℚ) * (2 : ℚ) ^ (binadeF32 q + 1) := by
        unfold nearestF32
        rw [h, ← e2]
        unfold ulpF32
        push_cast
        ring
      rw [e]
      exact nearestF32_of_dyadic (-1) _ (by norm_num) (by omega)

theorem roundF32_idem (q r : ℚ) (h : roundF32 q = FloatVal.finite r) :
    roundF32 r = FloatVal.finite r := by
  unfold roundF32 at h
  split at h
  · split at h <;> exact absurd h (by simp)
  · rename_i hlt
    have e : nearestF32 q = r := FloatVal.finite.inj h
    unfold roundF32
    rw [← e, nearestF32_idem, if_neg hlt]

theorem nearestF32_nonneg (q : ℚ) (h : 0 ≤ q) : 0 ≤ nearestF32 q := by
  unfold nearestF32
  apply mul_nonneg _ (le_of_lt (ulpF32_pos q))
  have h1 : roundHalfEven ((0 : ℤ) : ℚ) ≤ roundHalfEven (q / ulpF32 q) :=
    roundHalfEven_mono _ _ (by
      push_cast
      exact div_nonneg h (le_of_lt (ulpF32_pos q)))
  rw [roundHalfEven_intCast] at h1
  exact_mod_cast h1

theorem nearestF32_le_binade (q : ℚ) : nearestF32 q ≤ (2 : ℚ) ^ (binadeF32 q + 1) := by
  have hm := abs_roundHalfEven_le q
  have two_ne : (2 : ℚ) ≠ 0 := by norm_num
  have e2 : (2 : ℚ) ^ (24 : ℕ) * (2 : ℚ) ^ (binadeF32 q - 23) = (2 : ℚ) ^ (binadeF32 q + 1) := by
    rw [← zpow_natCast, ← zpow_add₀ two_ne]
    congr 1
    push_cast
    ring
  rw [← e2]
  unfold nearestF32 ulpF32
  apply mul_le_mul_of_nonneg_right _ (by positivity)
  have : roundHalfEven (q / ulpF32 q) ≤ 2 ^ 24 := (abs_le.mp hm).2
  have h3 : ((roundHalfEven (q / ulpF32 q) : ℤ) : ℚ) ≤ ((2 ^ 24 : ℤ) : ℚ) := by exact_mod_cast this
  unfold ulpF32 at h3
  refine le_trans h3 (le_of_eq ?_)
  norm_num

theorem binade_le_nearestF32 (q : ℚ) (hq : 0 < q) (hb : -126 < binadeF32 q) :
    (2 : ℚ) ^ binadeF32 q ≤ nearestF32 q := by
  have two_ne : (2 : ℚ) ≠ 0 := by norm_num
  have hfl : binadeF32 q = floorLog2 q := by
    unfold binadeF32 at hb ⊢
    rw [abs_of_pos hq] at hb ⊢
    rcases max_cases (floorLog2 q) (-126) with ⟨h1, _⟩ | ⟨h1, _⟩
    · exact h1
    · omega
  obtain ⟨s1, _⟩ := floorLog2_spec q hq
  rw [← hfl] at s1
  have hu := ulpF32_pos q
  have e2 : (2 : ℚ) ^ (23 : ℕ) * ulpF32 q = (2 : ℚ) ^ binadeF32 q := by
    unfold ulpF32
    rw [← zpow_natCast, ← zpow_add₀ two_ne]
    congr 1
    push_cast
    ring
  have h1 : ((2 ^ 23 : ℤ) : ℚ) ≤ q / ulpF32 q := by
    rw [le_div_iff₀ hu]
    have e3 : ((2 ^ 23 : ℤ) : ℚ) = (2 : ℚ) ^ (23 : ℕ) := by norm_num
    rw [e3, e2]
    exact s1
  have h2 := roundHalfEven_mono _ _ h1
  rw [roundHalfEven_intCast] at h2
  rw [← e2]
  unfold nearestF32
  apply mul_le_mul_of_nonneg_right _ (le_of_lt hu)
  have h3 : ((2 ^ 23 : ℤ) : ℚ) ≤ ((roundHalfEven (q / ulpF32 q) : ℤ) : ℚ) := by exact_mod_cast h2
  refine le_trans (le_of_eq ?_) h3
  norm_num

theorem nearestF32_mono (q r : ℚ) (h0 : 0 ≤ q) (h : q ≤ r) : nearestF32 q ≤ nearestF32 r := by
  rcases eq_or_lt_of_le h0 with hq0 | hq
  · rw [← hq0, nearestF32_zero]
    exact nearestF32_nonneg r (le_trans h0 h)
  · have hr : 0 < r := lt_of_lt_of_le hq h
    have hbb : binadeF32 q ≤ binadeF32 r := by
      unfold binadeF32
      rw [abs_of_pos hq, abs_of_pos hr]
      exact max_le_max (floorLog2_mono q r hq h) le_rfl
    rcases eq_or_lt_of_le hbb with heq | hlt
    · have hu : ulpF32 q = ulpF32 r := by
        unfold ulpF32
        rw [heq]
      unfold nearestF32
      rw [hu]
      apply mul_le_mul_of_nonneg_right _ (le_of_lt (ulpF32_pos r))
      have := roundHalfEven_mono (q / ulpF32 r) (r / ulpF32 r)
        (div_le_div_of_nonneg_right h (le_of_lt (ulpF32_pos r)))
      exact_mod_cast this
    · have h1 := nearestF32_le_binade q
      have h2 := binade_le_nearestF32 r hr (by have := binadeF32_ge q; omega)
      have h3 : (2 : ℚ) ^ (binadeF32 q + 1) ≤ (2 : ℚ) ^ binadeF32 r :=
        zpow_le_zpow_right₀ (by norm_num) (by omega)
      linarith


/-! ### The relative error of a rounding in the normal range -/

theorem nearestF32_sub_le (x : ℚ) : |nearestF32 x - x| ≤ ulpF32 x / 2 := by
  have hu := ulpF32_pos x
  have h := roundHalfEven_sub_le (x / ulpF32 x)
  have e : nearestF32 x - x = ((roundHalfEven (x / ulpF32 x) : ℚ) - x / ulpF32 x) * ulpF32 x := by
    unfold nearestF32
    field_simp
  rw [e, abs_mul, abs_of_pos hu]
  calc |(roundHalfEven (x / ulpF32 x) : ℚ) - x / ulpF32 x| * ulpF32 x
      ≤ 1 / 2 * ulpF32 x := mul_le_mul_of_nonneg_right h (le_of_lt hu)
    _ = ulpF32 x / 2 := by ring

theorem ulpF32_le (x : ℚ) (h1 : (2 : ℚ) ^ (-126 : ℤ) ≤ x) :
    ulpF32 x / 2 ≤ x / 16777216 := by
  have hx : 0 < x := lt_of_lt_of_le (by positivity) h1
  have two_ne : (2 : ℚ) ≠ 0 := by norm_num
  have hfl : -126 ≤ floorLog2 x := le_floorLog2 x (-126) h1
  have hb : binadeF32 x = floorLog2 x := by
    unfold binadeF32
    rw [abs_of_pos hx]
    exact max_eq_left hfl
  obtain ⟨s1, _⟩ := floorLog2_spec x hx
  have e : ulpF32 x = (2 : ℚ) ^ floorLog2 x / 8388608 := by
    unfold ulpF32
    rw [hb, zpow_sub₀ two_ne]
    norm_num
  rw [e]
  linarith

theorem roundF32_rel (x : ℚ) (h1 : (2 : ℚ) ^ (-126 : ℤ) ≤ x) (h2 : x ≤ (2 : ℚ) ^ (127 : ℕ)) :
    ∃ r, roundF32 x = FloatVal.finite r ∧ x * (1 - 1 / 16777216) ≤ r ∧
      r ≤ x * (1 + 1 / 16777216) := by
  have hx : 0 < x := lt_of_lt_of_le (by positivity) h1
  have hd := nearestF32_sub_le x
  have hu := ulpF32_le x h1
  have hle : |nearestF32 x - x| ≤ x / 16777216 := le_trans hd hu
  rw [abs_le] at hle
  have hnn : 0 ≤ nearestF32 x := nearestF32_nonneg x (le_of_lt hx)
  have hlt : ¬ (2 : ℚ) ^ (128 : ℕ) ≤ |nearestF32 x| := by
    rw [abs_of_nonneg hnn, not_le]
    have : nearestF32 x ≤ x + x / 16777216 := by linarith
    have h3 : x + x / 16777216 < (2 : ℚ) ^ (128 : ℕ) := by
      have : (2 : ℚ) ^ (128 : ℕ) = 2 * (2 : ℚ) ^ (127 : ℕ) := by norm_num
      rw [this]
      have h4 : x / 16777216 < x := by
        rw [div_lt_iff₀ (by norm_num : (0 : ℚ) < 16777216)]
        linarith
      linarith
    linarith
  refine ⟨nearestF32 x, ?_, ?_, ?_⟩
  · unfold roundF32
    rw [if_neg hlt]
  · linarith
  · linarith


theorem mergeCell_at (w h : Nat) (src : Histogram) (pre d sPre s : List HistogramEntry)
    (x y : HistogramEntry) (hpre : sPre.length = pre.length)
    (hsrc : src.entries = sPre ++ y :: s) :
    mergeCell src ⟨w, h, pre ++ x :: d⟩ pre.length
      = some ⟨w, h, (pre ++ [mergeEntry x y]) ++ d⟩ := by
  have h1 : (pre ++ x :: d)[pre.length]? = some x := by
    rw [List.getElem?_append_right (Nat.le_refl _)]; simp
  have h2 : (sPre ++ y :: s)[pre.length]? = some y := by
    rw [← hpre, List.getElem?_append_right (Nat.le_refl _)]; simp
  simp only [mergeCell, hsrc, h1, h2]
  simp

theorem foldlM_mergeCell (w h : Nat) (src : Histogram) :
    ∀ (d s pre sPre : List HistogramEntry), d.length = s.length → sPre.length = pre.length →
      src.entries = sPre ++ s →
      (List.range' pre.length d.length).foldlM (mergeCell src) ⟨w, h, pre ++ d⟩
        = some ⟨w, h, pre ++ List.zipWith mergeEntry d s⟩ := by
  intro d
  induction d with
  | nil => intro s pre sPre hl _ _; simp
  | cons x d ih =>
    intro s pre sPre hl hpre hsrc
    cases s with
    | nil => simp at hl
    | cons y s =>
      simp only [List.length_cons, List.range'_succ, List.foldlM_cons]
      rw [mergeCell_at w h src pre d sPre s x y hpre hsrc]
      have := ih s (pre ++ [mergeEntry x y]) (sPre ++ [y]) (by simpa using hl) (by simp [hpre])
        (by simp [hsrc])
      simp only [List.length_append, List.length_singleton] at this
      simpa using this

theorem mergeFrom_eq (dst src : Histogram)
    (hd : dst.entries.length = src.width * src.height)
    (hs : src.entries.length = src.width * src.height) :
    mergeFrom dst src
      = some { dst with entries := List.zipWith mergeEntry dst.entries src.entries } := by
  have := foldlM_mergeCell dst.width dst.height src dst.entries src.entries [] []
    (by rw [hd, hs]) rfl rfl
  simp only [List.length_nil, List.nil_append] at this
  unfold mergeFrom
  rw [List.range_eq_range', ← hd]
  exact this


theorem foldlM_mergeFrom (n : Nat) :
    ∀ (rest : List Histogram) (A : Histogram), A.entries.length = n →
      (∀ h ∈ rest, h.entries.length = n ∧ h.width * h.height = n) →
      ∃ A1, rest.foldlM mergeFrom A = some A1 ∧ A1.width = A.width ∧ A1.height = A.height ∧
        A1.entries.length = n ∧
        ∀ idx, idx < n →
          A1.get idx = rest.foldl (fun e h => mergeEntry e (h.get idx)) (A.get idx) := by
  intro rest
  induction rest with
  | nil => intro A hA _; exact ⟨A, by simp, rfl, rfl, hA, fun _ _ => rfl⟩
  | cons s rest ih =>
    intro A hA hrest
    have hs := hrest s (List.mem_cons_self _ _)
    have hstep := mergeFrom_eq A s (by rw [hA, hs.2]) (by rw [hs.1, hs.2])
    obtain ⟨A1, h1, hw, hh, hl, hget⟩ :=
      ih { A with entries := List.zipWith mergeEntry A.entries s.entries }
        (by simp [hA, hs.1]) (fun h hm => hrest h (List.mem_cons_of_mem _ hm))
    refine ⟨A1, ?_, hw, hh, hl, ?_⟩
    · simp only [List.foldlM_cons, hstep]
      exact h1
    · intro idx hidx
      rw [hget idx hidx, List.foldl_cons]
      congr 1
      have hi1 : idx < A.entries.length := by omega
      have hi2 : idx < s.entries.length := by omega
      simp [Histogram.get, List.getD_eq_getElem?_getD, List.getElem?_zipWith, hi1, hi2,
        List.getElem?_eq_getElem]

theorem foldl_mergeEntry_count (idx : Nat) :
    ∀ (rest : List Histogram) (e : HistogramEntry), e.count < 2 ^ 32 →
      (rest.foldl (fun e h => mergeEntry e (h.get idx)) e).count
        = (e.count + (rest.map (fun h => (h.get idx).count)).sum) % 2 ^ 32 := by
  intro rest
  induction rest with
  | nil => intro e he; simp only [List.foldl_nil, List.map_nil, List.sum_nil, Nat.add_zero]; omega
  | cons s rest ih =>
    intro e _
    rw [List.foldl_cons, ih _ (by simp only [mergeEntry]; exact Nat.mod_lt _ (by norm_num))]
    simp only [mergeEntry, List.map_cons, List.sum_cons]
    omega

theorem foldl_mergeEntry_color (idx : Nat) :
    ∀ (rest : List Histogram) (e : HistogramEntry),
      (rest.foldl (fun e h => mergeEntry e (h.get idx)) e).color
        = rest.foldl (fun c h => c.BlendWith 8 (h.get idx).color (1 / 2)) e.color := by
  intro rest
  induction rest with
  | nil => intro e; rfl
  | cons s rest ih => intro e; rw [List.foldl_cons, ih]; rfl

theorem foldl_mergeEntry_unused (idx : Nat) :
    ∀ (rest : List Histogram) (e : HistogramEntry),
      (rest.foldl (fun e h => mergeEntry e (h.get idx)) e).unused = e.unused := by
  intro rest
  induction rest with
  | nil => intro e; rfl
  | cons s rest ih => intro e; rw [List.foldl_cons, ih]; rfl

theorem Histogram.WF_get (h : Histogram) (hw : h.WF) (idx : Nat) (hi : idx < h.width * h.height) :
    (h.get idx).WF := by
  have hl : idx < h.entries.length := by rw [hw.1]; exact hi
  have : h.get idx = h.entries[idx] := by
    simp [Histogram.get, List.getD_eq_getElem?_getD, List.getElem?_eq_getElem, hl]
  rw [this]
  exact hw.2 _ (List.getElem_mem _)


/-- C1 (as amended): merging a non-empty list of histograms of identical dimensions leaves in
`list[0]`, at every cell, the sum of that cell's counts over all members reduced modulo `2^32`
(hence the exact sum whenever it is below `2^32`) and the left fold of `BlendWith(., 0.5)` over
the members in list order; the padding byte, the dimensions and the other members stay. -/
theorem MergeHistograms_fold (A : Histogram) (rest : List Histogram) (hA : A.WF)
    (hrest : ∀ h ∈ rest, h.WF ∧ h.width = A.width ∧ h.height = A.height) :
    ∃ A1, MergeHistograms (A :: rest) = some (A1 :: rest) ∧
      A1.width = A.width ∧ A1.height = A.height ∧
      A1.entries.length = A.width * A.height ∧
      ∀ idx, idx < A.width * A.height →
        (A1.get idx).count
            = ((A :: rest).map (fun h => (h.get idx).count)).sum % 2 ^ 32 ∧
        (((A :: rest).map (fun h => (h.get idx).count)).sum < 2 ^ 32 →
          (A1.get idx).count = ((A :: rest).map (fun h => (h.get idx).count)).sum) ∧
        (A1.get idx).color
            = rest.foldl (fun c h => c.BlendWith 8 (h.get idx).color (1 / 2)) (A.get idx).color ∧
        (A1.get idx).unused = (A.get idx).unused := by
  obtain ⟨A1, h1, hw, hh, hl, hget⟩ := foldlM_mergeFrom (A.width * A.height) rest A hA.1
    (fun h hm => by
      obtain ⟨hwf, e1, e2⟩ := hrest h hm
      exact ⟨by rw [hwf.1, e1, e2], by rw [e1, e2]⟩)
  refine ⟨A1, by simp [MergeHistograms, h1], hw, hh, hl, ?_⟩
  intro idx hidx
  have hc : (A1.get idx).count
      = ((A :: rest).map (fun h => (h.get idx).count)).sum % 2 ^ 32 := by
    rw [hget idx hidx, foldl_mergeEntry_count idx rest _ (A.WF_get hA idx hidx).1]
    simp
  refine ⟨hc, ?_, ?_, ?_⟩
  · intro hlt
    rw [hc, Nat.mod_eq_of_lt hlt]
  · rw [hget idx hidx, foldl_mergeEntry_color]
  · rw [hget idx hidx, foldl_mergeEntry_unused]

theorem castToUInt_natCast_div_two (n : Nat) (hn : n / 2 < 2 ^ 8) :
    castToUInt 8 ((n : ℚ) / 2) = n / 2 := by
  have h0 : (0 : ℚ) ≤ (n : ℚ) / 2 := by positivity
  have hf : ⌊(n : ℚ) / 2⌋ = ((n / 2 : Nat) : Int) := by
    have := Rat.floor_intCast_div_natCast (n : Int) 2
    simpa using this
  unfold castToUInt
  rw [if_pos h0, hf]
  have : ((n / 2 : Nat) : Int) % (2 : Int) ^ 8 = ((n / 2 : Nat) : Int) := by
    apply Int.emod_eq_of_lt (by positivity)
    have : ((n / 2 : Nat) : Int) < ((2 ^ 8 : Nat) : Int) := by exact_mod_cast hn
    simpa using this
  rw [this]
  omega

/-- At ratio `0.5` and on 8-bit channels, `BlendWith` is the truncated channel average. -/
theorem Color3.BlendWith_half (c o : Color3) (hc : c.WF 8) (ho : o.WF 8) :
    c.BlendWith 8 o (1 / 2) = ⟨(c.r + o.r) / 2, (c.g + o.g) / 2, (c.b + o.b) / 2⟩ := by
  obtain ⟨c1, c2, c3⟩ := hc
  obtain ⟨o1, o2, o3⟩ := ho
  have key : ∀ x y : Nat, x < 2 ^ 8 → y < 2 ^ 8 →
      castToUInt 8 ((x : ℚ) * (1 - 1 / 2) + (y : ℚ) * (1 / 2)) = (x + y) / 2 := by
    intro x y hx hy
    have : (x : ℚ) * (1 - 1 / 2) + (y : ℚ) * (1 / 2) = ((x + y : Nat) : ℚ) / 2 := by
      push_cast; ring
    rw [this]
    exact castToUInt_natCast_div_two (x + y) (by omega)
  simp only [Color3.BlendWith, key _ _ c1 o1, key _ _ c2 o2, key _ _ c3 o3]


/-- Witness for C1: three 1×1 histograms `[A, B, C]`. -/
theorem MergeHistograms_fold_witness :
    (Histogram.mk 1 1 [⟨5, ⟨200, 100, 0⟩, 0⟩]).WF ∧
    (∃ A1, MergeHistograms
        [⟨1, 1, [⟨5, ⟨200, 100, 0⟩, 0⟩]⟩, ⟨1, 1, [⟨7, ⟨100, 50, 8⟩, 0⟩]⟩,
          ⟨1, 1, [⟨1, ⟨0, 0, 255⟩, 0⟩]⟩]
        = some [A1, ⟨1, 1, [⟨7, ⟨100, 50, 8⟩, 0⟩]⟩, ⟨1, 1, [⟨1, ⟨0, 0, 255⟩, 0⟩]⟩] ∧
      A1.width = 1 ∧ A1.height = 1 ∧ A1.entries.length = 1 * 1 ∧
      ∀ idx, idx < 1 * 1 →
        (A1.get idx).count
          = (([⟨1, 1, [⟨5, ⟨200, 100, 0⟩, 0⟩]⟩, ⟨1, 1, [⟨7, ⟨100, 50, 8⟩, 0⟩]⟩,
              ⟨1, 1, [⟨1, ⟨0, 0, 255⟩, 0⟩]⟩] : List Histogram).map
                (fun h => (h.get idx).count)).sum % 2 ^ 32 ∧
        ((([⟨1, 1, [⟨5, ⟨200, 100, 0⟩, 0⟩]⟩, ⟨1, 1, [⟨7, ⟨100, 50, 8⟩, 0⟩]⟩,
              ⟨1, 1, [⟨1, ⟨0, 0, 255⟩, 0⟩]⟩] : List Histogram).map
                (fun h => (h.get idx).count)).sum < 2 ^ 32 →
          (A1.get idx).count
            = (([⟨1, 1, [⟨5, ⟨200, 100, 0⟩, 0⟩]⟩, ⟨1, 1, [⟨7, ⟨100, 50, 8⟩, 0⟩]⟩,
              ⟨1, 1, [⟨1, ⟨0, 0, 255⟩, 0⟩]⟩] : List Histogram).map
                (fun h => (h.get idx).count)).sum) ∧
        (A1.get idx).color
          = ([⟨1, 1, [⟨7, ⟨100, 50, 8⟩, 0⟩]⟩, ⟨1, 1, [⟨1, ⟨0, 0, 255⟩, 0⟩]⟩] :
              List Histogram).foldl
              (fun c h => c.BlendWith 8 (h.get idx).color (1 / 2))
              ((Histogram.mk 1 1 [⟨5, ⟨200, 100, 0⟩, 0⟩]).get idx).color ∧
        (A1.get idx).unused = ((Histogram.mk 1 1 [⟨5, ⟨200, 100, 0⟩, 0⟩]).get idx).unused) :=
  ⟨by decide,
    MergeHistograms_fold ⟨1, 1, [⟨5, ⟨200, 100, 0⟩, 0⟩]⟩
      [⟨1, 1, [⟨7, ⟨100, 50, 8⟩, 0⟩]⟩, ⟨1, 1, [⟨1, ⟨0, 0, 255⟩, 0⟩]⟩] (by decide) (by decide)⟩

/-- C1 (as stated) fails where the 32-bit count wraps: merging the 1×1 histograms with counts
`2^32 - 1` and `1` leaves the count `0` in `list[0]`, not the sum `2^32`. -/
theorem MergeHistograms_count_wraps :
    MergeHistograms [⟨1, 1, [⟨4294967295, ⟨0, 0, 0⟩, 0⟩]⟩, ⟨1, 1, [⟨1, ⟨0, 0, 0⟩, 0⟩]⟩]
      = some [⟨1, 1, [⟨0, ⟨0, 0, 0⟩, 0⟩]⟩, ⟨1, 1, [⟨1, ⟨0, 0, 0⟩, 0⟩]⟩] ∧
    ((Histogram.mk 1 1 [⟨0, ⟨0, 0, 0⟩, 0⟩]).get 0).count
      ≠ ((Histogram.mk 1 1 [⟨4294967295, ⟨0, 0, 0⟩, 0⟩]).get 0).count
        + ((Histogram.mk 1 1 [⟨1, ⟨0, 0, 0⟩, 0⟩]).get 0).count := by
  refine ⟨?_, by decide⟩
  have hb := Color3.BlendWith_half ⟨0, 0, 0⟩ ⟨0, 0, 0⟩ (by decide) (by decide)
  simp only [MergeHistograms, List.foldlM_cons, List.foldlM_nil]
  rw [mergeFrom_eq _ _ (by decide) (by decide)]
  simp only [List.zipWith_cons_cons, List.zipWith_nil_right, mergeEntry, hb]
  decide


/-! ### RandomFunction: the walk -/

theorem RandomFunction.loop_some (u : ℚ) :
    ∀ (l : List (FloatVal × FlameFunction)) (accum : FloatVal) (i j : Nat),
      RandomFunction.loop u l accum i = some j →
      ∃ k, k < l.length ∧ j = i + k ∧
        (FloatVal.finite u).lt (((l.take (k + 1)).map Prod.fst).foldl (fun a p => a + p) accum)
          = true ∧
        ∀ m, m < k →
          (FloatVal.finite u).lt (((l.take (m + 1)).map Prod.fst).foldl (fun a p => a + p) accum)
            = false := by
  intro l
  induction l with
  | nil => intro accum i j h; simp [RandomFunction.loop] at h
  | cons p rest ih =>
    intro accum i j h
    unfold RandomFunction.loop at h
    split at h
    · rename_i hlt
      refine ⟨0, by simp, by simpa using (Option.some.inj h).symm, by simpa using hlt, ?_⟩
      intro m hm; omega
    · rename_i hnlt
      obtain ⟨k, hk, hj, hu, hmin⟩ := ih (accum + p.1) (i + 1) j h
      refine ⟨k + 1, by simpa using hk, by omega, ?_, ?_⟩
      · simpa using hu
      · intro m hm
        cases m with
        | zero => simpa using hnlt
        | succ m =>
          have := hmin m (by omega)
          simpa using this

theorem RandomFunction.loop_none (u : ℚ) :
    ∀ (l : List (FloatVal × FlameFunction)) (accum : FloatVal) (i : Nat),
      RandomFunction.loop u l accum i = none →
      ∀ m, m < l.length →
        (FloatVal.finite u).lt (((l.take (m + 1)).map Prod.fst).foldl (fun a p => a + p) accum)
          = false := by
  intro l
  induction l with
  | nil => intro accum i _ m hm; simp at hm
  | cons p rest ih =>
    intro accum i h m hm
    unfold RandomFunction.loop at h
    split at h
    · simp at h
    · rename_i hnlt
      cases m with
      | zero => simpa using hnlt
      | succ m =>
        have := ih (accum + p.1) (i + 1) h m (by simpa using hm)
        simpa using this

theorem RandomFunctionIdx_cases (fs : FlameFunctionSet) (u : ℚ)
    (hne : fs.functions ≠ []) :
    ∃ i, i < fs.functions.length ∧ RandomFunctionIdx fs u = some i ∧
      RandomFunction fs u = (fs.functions[i]?).map Prod.snd ∧
      (((FloatVal.finite u).lt (cumulativeProbability fs (i + 1)) = true ∧
          ∀ j, j < i → (FloatVal.finite u).lt (cumulativeProbability fs (j + 1)) = false) ∨
        (i = fs.functions.length - 1 ∧
          ∀ j, j < fs.functions.length →
            (FloatVal.finite u).lt (cumulativeProbability fs (j + 1)) = false)) := by
  have hpos : 0 < fs.functions.length := List.length_pos.mpr hne
  cases hloop : RandomFunction.loop u fs.functions 0 0 with
  | some i =>
    obtain ⟨k, hk, hik, hu, hmin⟩ := RandomFunction.loop_some u fs.functions 0 0 i hloop
    have hi : i = k := by omega
    subst hi
    refine ⟨i, hk, by simp [RandomFunctionIdx, hloop],
      by simp [RandomFunction, RandomFunctionIdx, hloop], ?_⟩
    left
    exact ⟨hu, hmin⟩
  | none =>
    have hnone := RandomFunction.loop_none u fs.functions 0 0 hloop
    refine ⟨fs.functions.length - 1, by omega, by simp [RandomFunctionIdx, hloop, hne],
      by simp [RandomFunction, RandomFunctionIdx, hloop, hne], ?_⟩
    right
    exact ⟨rfl, hnone⟩

theorem RandomFunction_of_idx (fs : FlameFunctionSet) (u : ℚ) (i : Nat) (p : FloatVal)
    (f : FlameFunction) (hidx : RandomFunctionIdx fs u = some i)
    (hget : fs.functions[i]? = some (p, f)) : RandomFunction fs u = some f := by
  simp [RandomFunction, hidx, hget]


/-! ### The running `float` sum of non-negative probabilities -/

theorem FloatVal.zero_def : (0 : FloatVal) = FloatVal.finite 0 := by
  show FloatVal.finite ((0 : ℕ) : ℚ) = FloatVal.finite 0
  rw [Nat.cast_zero]

theorem FloatVal.one_def : (1 : FloatVal) = FloatVal.finite 1 := by
  show FloatVal.finite ((1 : ℕ) : ℚ) = FloatVal.finite 1
  rw [Nat.cast_one]

theorem FloatVal.add_def (a b : FloatVal) : a + b = a.add b := rfl

theorem FloatVal.mul_def (a b : FloatVal) : a * b = a.mul b := rfl

theorem FloatVal.div_def (a b : FloatVal) : a / b = a.div b := rfl

theorem nearestF32_eq_of_round (q : ℚ) (h : roundF32 q = FloatVal.finite q) :
    nearestF32 q = q := by
  unfold roundF32 at h
  split at h
  · split at h <;> exact absurd h (by simp)
  · exact FloatVal.finite.inj h

theorem roundF32_nonneg_cases (x : ℚ) (hx : 0 ≤ x) :
    roundF32 x = FloatVal.posInf ∨
      (roundF32 x = FloatVal.finite (nearestF32 x) ∧ 0 ≤ nearestF32 x ∧
        roundF32 (nearestF32 x) = FloatVal.finite (nearestF32 x)) := by
  by_cases hov : (2 : ℚ) ^ (128 : ℕ) ≤ |nearestF32 x|
  · left
    have hpos : 0 < x := by
      rcases eq_or_lt_of_le hx with h | h
      · exfalso
        rw [← h, nearestF32_zero, abs_zero] at hov
        have : (0 : ℚ) < (2 : ℚ) ^ (128 : ℕ) := by positivity
        linarith
      · exact h
    unfold roundF32
    rw [if_pos hov, if_pos hpos]
  · right
    have e : roundF32 x = FloatVal.finite (nearestF32 x) := by
      unfold roundF32
      rw [if_neg hov]
    exact ⟨e, nearestF32_nonneg x hx, roundF32_idem x _ e⟩

theorem FloatVal.accum_add (a p : FloatVal) (ha : a = FloatVal.posInf ∨ a.IsNonNeg)
    (hp : p.IsNonNeg) : a + p = FloatVal.posInf ∨ (a + p).IsNonNeg := by
  cases p with
  | finite r =>
    obtain ⟨hr, _⟩ := hp
    rcases ha with rfl | ha
    · left; rfl
    · cases a with
      | finite q =>
        obtain ⟨hq, _⟩ := ha
        rcases roundF32_nonneg_cases (q + r) (add_nonneg hq hr) with h | ⟨h1, h2, h3⟩
        · left; exact h
        · right
          show (roundF32 (q + r)).IsNonNeg
          rw [h1]
          exact ⟨h2, h3⟩
      | posInf => left; rfl
      | negInf => exact absurd ha (by simp [FloatVal.IsNonNeg])
      | nan => exact absurd ha (by simp [FloatVal.IsNonNeg])
  | posInf =>
    rcases ha with rfl | ha
    · left; rfl
    · cases a with
      | finite q => left; rfl
      | posInf => left; rfl
      | negInf => exact absurd ha (by simp [FloatVal.IsNonNeg])
      | nan => exact absurd ha (by simp [FloatVal.IsNonNeg])
  | negInf => exact absurd hp (by simp [FloatVal.IsNonNeg])
  | nan => exact absurd hp (by simp [FloatVal.IsNonNeg])

theorem FloatVal.accum_add_zero (a : FloatVal) (ha : a = FloatVal.posInf ∨ a.IsNonNeg) :
    a + FloatVal.finite 0 = a := by
  rcases ha with rfl | ha
  · rfl
  · cases a with
    | finite q =>
      obtain ⟨_, hq⟩ := ha
      show roundF32 (q + 0) = FloatVal.finite q
      rw [add_zero]
      exact hq
    | posInf => rfl
    | negInf => rfl
    | nan => rfl

theorem FloatVal.lt_add_of_lt (u : ℚ) (a p : FloatVal)
    (ha : a = FloatVal.posInf ∨ a.IsNonNeg) (hp : p.IsNonNeg)
    (h : (FloatVal.finite u).lt a = true) : (FloatVal.finite u).lt (a + p) = true := by
  cases p with
  | finite r =>
    obtain ⟨hr, _⟩ := hp
    rcases ha with rfl | ha
    · rfl
    · cases a with
      | finite q =>
        obtain ⟨hq, hqr⟩ := ha
        have huq : u < q := by simpa [FloatVal.lt] using h
        rcases roundF32_nonneg_cases (q + r) (add_nonneg hq hr) with h1 | ⟨h1, _, _⟩
        · show (FloatVal.finite u).lt (roundF32 (q + r)) = true
          rw [h1]
          rfl
        · show (FloatVal.finite u).lt (roundF32 (q + r)) = true
          rw [h1]
          have hm := nearestF32_mono q (q + r) hq (by linarith)
          rw [nearestF32_eq_of_round q hqr] at hm
          simp only [FloatVal.lt, decide_eq_true_eq]
          linarith
      | posInf => rfl
      | negInf => exact absurd ha (by simp [FloatVal.IsNonNeg])
      | nan => exact absurd ha (by simp [FloatVal.IsNonNeg])
  | posInf =>
    rcases ha with rfl | ha
    · rfl
    · cases a with
      | finite q => rfl
      | posInf => rfl
      | negInf => exact absurd ha (by simp [FloatVal.IsNonNeg])
      | nan => exact absurd ha (by simp [FloatVal.IsNonNeg])
  | negInf => exact absurd hp (by simp [FloatVal.IsNonNeg])
  | nan => exact absurd hp (by simp [FloatVal.IsNonNeg])

theorem foldl_add_accum (l : List FloatVal) (hl : ∀ p ∈ l, p.IsNonNeg) :
    ∀ a : FloatVal, (a = FloatVal.posInf ∨ a.IsNonNeg) →
      (l.foldl (fun accum p => accum + p) a = FloatVal.posInf ∨
        (l.foldl (fun accum p => accum + p) a).IsNonNeg) := by
  induction l with
  | nil => intro a ha; exact ha
  | cons p rest ih =>
    intro a ha
    rw [List.foldl_cons]
    exact ih (fun x hx => hl x (List.mem_cons_of_mem _ hx)) _
      (FloatVal.accum_add a p ha (hl p (List.mem_cons_self _ _)))

theorem lt_foldl_add (u : ℚ) (l : List FloatVal) (hl : ∀ p ∈ l, p.IsNonNeg) :
    ∀ a : FloatVal, (a = FloatVal.posInf ∨ a.IsNonNeg) → (FloatVal.finite u).lt a = true →
      (FloatVal.finite u).lt (l.foldl (fun accum p => accum + p) a) = true := by
  induction l with
  | nil => intro a _ h; exact h
  | cons p rest ih =>
    intro a ha h
    rw [List.foldl_cons]
    have hp := hl p (List.mem_cons_self _ _)
    exact ih (fun x hx => hl x (List.mem_cons_of_mem _ hx)) _
      (FloatVal.accum_add a p ha hp) (FloatVal.lt_add_of_lt u a p ha hp h)

theorem FloatVal.zero_isNonNeg : (0 : FloatVal).IsNonNeg := by
  rw [FloatVal.zero_def]
  exact ⟨le_refl _, roundF32_zero⟩

theorem cumulativeProbability_zero (fs : FlameFunctionSet) :
    cumulativeProbability fs 0 = 0 := rfl

theorem cumulativeProbability_succ (fs : FlameFunctionSet) (k : Nat) (p : FloatVal)
    (f : FlameFunction) (hk : fs.functions[k]? = some (p, f)) :
    cumulativeProbability fs (k + 1) = cumulativeProbability fs k + p := by
  unfold cumulativeProbability floatSum
  rw [List.take_succ, hk]
  simp [List.foldl_append]

theorem cumulativeProbability_accum (fs : FlameFunctionSet)
    (hnn : ∀ p ∈ fs.functions, p.1.IsNonNeg) (k : Nat) :
    cumulativeProbability fs k = FloatVal.posInf ∨ (cumulativeProbability fs k).IsNonNeg := by
  unfold cumulativeProbability floatSum
  apply foldl_add_accum _ _ _ (Or.inr FloatVal.zero_isNonNeg)
  intro p hp
  obtain ⟨x, hx, rfl⟩ := List.mem_map.mp hp
  exact hnn x (List.mem_of_mem_take hx)

theorem lt_cumulativeProbability_mono (fs : FlameFunctionSet)
    (hnn : ∀ p ∈ fs.functions, p.1.IsNonNeg) (u : ℚ) (j k : Nat) (hjk : j ≤ k)
    (h : (FloatVal.finite u).lt (cumulativeProbability fs j) = true) :
    (FloatVal.finite u).lt (cumulativeProbability fs k) = true := by
  have hsplit : (fs.functions.take k).map Prod.fst
      = (fs.functions.take j).map Prod.fst
        ++ ((fs.functions.take k).drop j).map Prod.fst := by
    rw [← List.map_append]
    congr 1
    have := List.take_append_drop j (fs.functions.take k)
    rw [List.take_take, min_eq_left hjk] at this
    exact this.symm
  have hacc := cumulativeProbability_accum fs hnn j
  unfold cumulativeProbability floatSum at h hacc ⊢
  rw [hsplit, List.foldl_append]
  apply lt_foldl_add u _ _ _ hacc h
  intro p hp
  obtain ⟨x, hx, rfl⟩ := List.mem_map.mp hp
  exact hnn x (List.mem_of_mem_take (List.mem_of_mem_drop hx))


/-- C2: on a non-empty function set, `RandomFunction( u )` walks the functions in insertion
order, accumulating their probabilities from `0.f` in `float` arithmetic (the cumulative
probability of the first `k + 1` functions is that of the first `k` plus the probability of
the next, rounded), and returns the function at the first position whose cumulative
probability exceeds `u`; when no cumulative probability exceeds `u` it returns the last
function. -/
theorem RandomFunction_first_exceeding (fs : FlameFunctionSet) (u : ℚ)
    (hne : fs.functions ≠ []) :
    (cumulativeProbability fs 0 = FloatVal.finite 0 ∧
      ∀ k p f, fs.functions[k]? = some (p, f) →
        cumulativeProbability fs (k + 1) = (cumulativeProbability fs k).add p) ∧
    ∃ i, i < fs.functions.length ∧ RandomFunctionIdx fs u = some i ∧
      RandomFunction fs u = (fs.functions[i]?).map Prod.snd ∧
      (((FloatVal.finite u).lt (cumulativeProbability fs (i + 1)) = true ∧
          ∀ j, j < i → (FloatVal.finite u).lt (cumulativeProbability fs (j + 1)) = false) ∨
        (i = fs.functions.length - 1 ∧
          ∀ j, j < fs.functions.length →
            (FloatVal.finite u).lt (cumulativeProbability fs (j + 1)) = false)) :=
  ⟨⟨(cumulativeProbability_zero fs).trans FloatVal.zero_def,
      fun k p f hk => cumulativeProbability_succ fs k p f hk⟩,
    RandomFunctionIdx_cases fs u hne⟩

/-- Witness for C2: the set with the probabilities 1/2, four times `2^-26`, `1/2 - 2^-24`
and 0, at `u = 1/2`.  The running `float` sum stays at 1/2 over the four small
probabilities, so the function returned is the sixth. -/
theorem RandomFunction_first_exceeding_witness :
    sampleSetTiny.functions ≠ [] ∧
    RandomFunctionIdx sampleSetTiny (1 / 2) = some 5 ∧
    (cumulativeProbability sampleSetTiny 0 = FloatVal.finite 0 ∧
      ∀ k p f, sampleSetTiny.functions[k]? = some (p, f) →
        cumulativeProbability sampleSetTiny (k + 1)
          = (cumulativeProbability sampleSetTiny k).add p) ∧
    ∃ i, i < sampleSetTiny.functions.length ∧
      RandomFunctionIdx sampleSetTiny (1 / 2) = some i ∧
      RandomFunction sampleSetTiny (1 / 2) = (sampleSetTiny.functions[i]?).map Prod.snd ∧
      (((FloatVal.finite (1 / 2)).lt (cumulativeProbability sampleSetTiny (i + 1)) = true ∧
          ∀ j, j < i →
            (FloatVal.finite (1 / 2)).lt (cumulativeProbability sampleSetTiny (j + 1)) = false) ∨
        (i = sampleSetTiny.functions.length - 1 ∧
          ∀ j, j < sampleSetTiny.functions.length →
            (FloatVal.finite (1 / 2)).lt (cumulativeProbability sampleSetTiny (j + 1))
              = false)) :=
  ⟨List.cons_ne_nil _ _, by decide!,
    RandomFunction_first_exceeding sampleSetTiny (1 / 2) (List.cons_ne_nil _ _)⟩

theorem cumulativeProbability_eq_zero_of_zeros (fs : FlameFunctionSet) (i : Nat)
    (hz : ∀ j, j < i → ∀ q g, fs.functions[j]? = some (q, g) → q = 0)
    (hi : i ≤ fs.functions.length) :
    ∀ k, k ≤ i → cumulativeProbability fs k = 0 := by
  intro k
  induction k with
  | zero => intro _; rfl
  | succ k ih =>
    intro hk
    have hlt : k < fs.functions.length := by omega
    have hget : fs.functions[k]? = some (fs.functions[k].1, fs.functions[k].2) := by
      simp [List.getElem?_eq_getElem hlt]
    have hq := hz k (by omega) _ _ hget
    rw [cumulativeProbability_succ fs k _ _ hget, ih (by omega), hq]
    have := FloatVal.accum_add_zero 0 (Or.inr FloatVal.zero_isNonNeg)
    rw [← FloatVal.zero_def] at this
    exact this

theorem FloatVal.zero_lt_zero_add (p : FloatVal) (hp : p.IsNonNeg) (hne : p ≠ 0) :
    (FloatVal.finite 0).lt (0 + p) = true := by
  cases p with
  | finite r =>
    obtain ⟨hr, hrr⟩ := hp
    have hpos : 0 < r := by
      rcases eq_or_lt_of_le hr with h | h
      · exfalso
        apply hne
        rw [← h, FloatVal.zero_def]
      · exact h
    rw [FloatVal.zero_def]
    show (FloatVal.finite 0).lt (roundF32 (0 + r)) = true
    rw [zero_add, hrr]
    simpa [FloatVal.lt] using hpos
  | posInf => rfl
  | negInf => exact absurd hp (by simp [FloatVal.IsNonNeg])
  | nan => exact absurd hp (by simp [FloatVal.IsNonNeg])

theorem RandomFunctionIdx_top (fs : FlameFunctionSet)
    (hnn : ∀ p ∈ fs.functions, p.1.IsNonNeg) (hne : fs.functions ≠ []) (u : ℚ)
    (hu : (FloatVal.finite u).lt (cumulativeProbability fs (fs.functions.length - 1)) = false) :
    RandomFunctionIdx fs u = some (fs.functions.length - 1) := by
  obtain ⟨i, hi, hidx, _, hcase⟩ := RandomFunctionIdx_cases fs u hne
  rcases hcase with ⟨hlt, _⟩ | ⟨hlast, _⟩
  · by_cases h : i = fs.functions.length - 1
    · rw [hidx, h]
    · exfalso
      have := lt_cumulativeProbability_mono fs hnn u (i + 1) (fs.functions.length - 1)
        (by omega) hlt
      rw [hu] at this
      exact absurd this (by simp)
  · rw [hidx, hlast]

/-- C3 (as amended): for a function set with non-negative probabilities, `selectFunction(0)`
returns the first function with nonzero probability whenever there is one; and
`selectFunction(u)` returns the last function for every `u` that is not below the cumulative
probability, as the `float` sum accumulates it, of the functions before the last one. -/
theorem RandomFunction_zero_and_top (fs : FlameFunctionSet)
    (hnn : ∀ p ∈ fs.functions, p.1.IsNonNeg) :
    (∀ i p f, fs.functions[i]? = some (p, f) → p ≠ 0 →
        (∀ j, j < i → ∀ q g, fs.functions[j]? = some (q, g) → q = 0) →
        RandomFunctionIdx fs 0 = some i ∧ RandomFunction fs 0 = some f) ∧
    (∀ p f, fs.functions[fs.functions.length - 1]? = some (p, f) →
        ∀ u, (FloatVal.finite u).lt (cumulativeProbability fs (fs.functions.length - 1)) = false →
        RandomFunctionIdx fs u = some (fs.functions.length - 1) ∧
          RandomFunction fs u = some f) := by
  refine ⟨?_, ?_⟩
  · intro i p f hget hp hz
    obtain ⟨hlt, heq⟩ := List.getElem?_eq_some_iff.mp hget
    have hne : fs.functions ≠ [] := List.ne_nil_of_length_pos (by omega)
    have hpnn : p.IsNonNeg := by
      have := hnn _ (List.getElem_mem hlt)
      rw [heq] at this
      exact this
    have hzero := cumulativeProbability_eq_zero_of_zeros fs i hz (by omega)
    have hci : (FloatVal.finite 0).lt (cumulativeProbability fs (i + 1)) = true := by
      rw [cumulativeProbability_succ fs i p f hget, hzero i (le_refl _)]
      exact FloatVal.zero_lt_zero_add p hpnn hp
    have hzlt : ∀ k, k ≤ i → (FloatVal.finite 0).lt (cumulativeProbability fs k) = false := by
      intro k hk
      rw [hzero k hk, FloatVal.zero_def]
      simp [FloatVal.lt]
    obtain ⟨i0, hi0, hidx, _, hcase⟩ := RandomFunctionIdx_cases fs 0 hne
    have hi0i : i0 = i := by
      rcases hcase with ⟨hlt0, hmin⟩ | ⟨_, hall⟩
      · rcases Nat.lt_trichotomy i0 i with h | h | h
        · rw [hzlt (i0 + 1) (by omega)] at hlt0
          exact absurd hlt0 (by simp)
        · exact h
        · have := hmin i h
          rw [hci] at this
          exact absurd this (by simp)
      · have := hall i hlt
        rw [hci] at this
        exact absurd this (by simp)
    subst hi0i
    exact ⟨hidx, RandomFunction_of_idx fs 0 i0 p f hidx hget⟩
  · intro p f hget u hu
    obtain ⟨hlt, _⟩ := List.getElem?_eq_some_iff.mp hget
    have hne : fs.functions ≠ [] := List.ne_nil_of_length_pos (by omega)
    have hidx := RandomFunctionIdx_top fs hnn hne u hu
    exact ⟨hidx, RandomFunction_of_idx fs u _ p f hidx hget⟩

/-- Witness for C3: the set with probabilities 1/4 and 3/4 selects its first function at
`u = 0` and its last function at `u = 9/10`. -/
theorem RandomFunction_zero_and_top_witness :
    (∀ p ∈ sampleSetQuarter.functions, p.1.IsNonNeg) ∧
    RandomFunctionIdx sampleSetQuarter 0 = some 0 ∧
    RandomFunction sampleSetQuarter (9 / 10) = some MakeSymmetryMirrorY :=
  have hnn : ∀ p ∈ sampleSetQuarter.functions, p.1.IsNonNeg := by decide!
  ⟨hnn,
    ((RandomFunction_zero_and_top sampleSetQuarter hnn).1 0 (1 / 4) MakeSymmetryMirrorX rfl
      (by decide!) (fun j hj => absurd hj (Nat.not_lt_zero j))).1,
    ((RandomFunction_zero_and_top sampleSetQuarter hnn).2 (3 / 4) MakeSymmetryMirrorY rfl
      (9 / 10) (by decide!)).2⟩

/-- C3 (as stated) fails on three sets.  When every probability is zero the function returned
at `u = 0` has probability zero; with a negative first weight the function returned at `u = 0`
is the second although the first has nonzero probability; and in the set with probabilities
1/2, 1/2, 0 every `u` in `[1/2, 1)` selects the second function, not the last. -/
theorem RandomFunction_zero_and_top_fails :
    (RandomFunctionIdx sampleSetAllZero 0 = some 0 ∧
      sampleSetAllZero.functions.map Prod.fst = [FloatVal.finite 0]) ∧
    (RandomFunctionIdx sampleSetNegative 0 = some 1 ∧
      sampleSetNegative.functions.map Prod.fst = [FloatVal.finite (-1), FloatVal.finite 2]) ∧
    (sampleSetZeroTail.functions.map Prod.fst
        = [FloatVal.finite (1 / 2), FloatVal.finite (1 / 2), FloatVal.finite 0] ∧
      sampleSetZeroTail.functions.length - 1 = 2 ∧
      ∀ u : ℚ, 1 / 2 ≤ u → u < 1 →
        RandomFunctionIdx sampleSetZeroTail u = some 1 ∧
        RandomFunction sampleSetZeroTail u = some MakeSymmetryMirrorY ∧
        (sampleSetZeroTail.functions[2]?).map Prod.snd ≠ some MakeSymmetryMirrorY) := by
  refine ⟨⟨by decide!, by decide!⟩, ⟨by decide!, by decide!⟩, by decide!, rfl, ?_⟩
  intro u h1 h2
  have a1 : (0 : FloatVal) + (1 / 2 : FloatVal) = FloatVal.finite (1 / 2) := by decide!
  have a2 : FloatVal.finite (1 / 2) + (1 / 2 : FloatVal) = FloatVal.finite 1 := by decide!
  have e1 : (FloatVal.finite u).lt (FloatVal.finite (1 / 2)) = false := by
    simp only [FloatVal.lt, decide_eq_false_iff_not, not_lt]
    exact h1
  have e2 : (FloatVal.finite u).lt (FloatVal.finite 1) = true := by
    simp only [FloatVal.lt, decide_eq_true_eq]
    exact h2
  have hidx : RandomFunctionIdx sampleSetZeroTail u = some 1 := by
    simp only [RandomFunctionIdx, RandomFunction.loop, sampleSetZeroTail, a1, a2, e1, e2,
      Bool.false_eq_true, if_false, if_true]
  refine ⟨hidx, RandomFunction_of_idx _ u 1 (1 / 2) _ hidx rfl, ?_⟩
  decide

/-- C25 (as amended): for a non-empty function set whose probabilities are non-negative and
every `u ≥ 0` that is below the `float` sum of all the probabilities as it is accumulated in
insertion order, the loop of `RandomFunction` returns (the fallback to the last function is
not reached), and the function returned has strictly positive probability. -/
theorem RandomFunction_no_fallback (fs : FlameFunctionSet) (u : ℚ)
    (hne : fs.functions ≠ []) (hnn : ∀ p ∈ fs.functions, p.1.IsNonNeg) (hu0 : 0 ≤ u)
    (hu : (FloatVal.finite u).lt (cumulativeProbability fs fs.functions.length) = true) :
    ∃ i p f, RandomFunction.loop u fs.functions 0 0 = some i ∧
      RandomFunctionIdx fs u = some i ∧
      fs.functions[i]? = some (p, f) ∧
      RandomFunction fs u = some f ∧ (FloatVal.finite 0).lt p = true := by
  have hpos : 0 < fs.functions.length := List.length_pos.mpr hne
  cases hloop : RandomFunction.loop u fs.functions 0 0 with
  | none =>
    exfalso
    have h := RandomFunction.loop_none u fs.functions 0 0 hloop (fs.functions.length - 1)
      (by omega)
    have hlen : fs.functions.length - 1 + 1 = fs.functions.length := by omega
    rw [hlen] at h
    have h2 : (FloatVal.finite u).lt (cumulativeProbability fs fs.functions.length) = false := h
    rw [hu] at h2
    exact absurd h2 (by simp)
  | some i =>
    obtain ⟨k, hk, hik, hlt, hmin⟩ := RandomFunction.loop_some u fs.functions 0 0 i hloop
    have hi : i = k := by omega
    subst hi
    have hget : fs.functions[i]? = some (fs.functions[i].1, fs.functions[i].2) := by
      simp [List.getElem?_eq_getElem hk]
    have hidx : RandomFunctionIdx fs u = some i := by simp [RandomFunctionIdx, hloop]
    refine ⟨i, fs.functions[i].1, fs.functions[i].2, rfl, hidx, hget,
      RandomFunction_of_idx fs u i _ _ hidx hget, ?_⟩
    have hlt2 : (FloatVal.finite u).lt (cumulativeProbability fs (i + 1)) = true := hlt
    have hpnn : (fs.functions[i].1).IsNonNeg := hnn _ (List.getElem_mem hk)
    have hprev : (FloatVal.finite u).lt (cumulativeProbability fs i) = false := by
      cases i with
      | zero =>
        rw [cumulativeProbability_zero, FloatVal.zero_def]
        simp only [FloatVal.lt, decide_eq_false_iff_not, not_lt]
        exact hu0
      | succ j => exact hmin j (by omega)
    -- a zero probability would leave the running sum as it was
    by_contra hnot
    have hzero : fs.functions[i].1 = FloatVal.finite 0 := by
      cases hp : fs.functions[i].1 with
      | finite r =>
        rw [hp] at hpnn hnot
        obtain ⟨hr, _⟩ := hpnn
        have : ¬ 0 < r := by simpa [FloatVal.lt] using hnot
        have : r = 0 := le_antisymm (not_lt.mp this) hr
        rw [this]
      | posInf => rw [hp] at hnot; exact absurd rfl hnot
      | negInf => rw [hp] at hpnn; exact absurd hpnn (by simp [FloatVal.IsNonNeg])
      | nan => rw [hp] at hpnn; exact absurd hpnn (by simp [FloatVal.IsNonNeg])
    rw [cumulativeProbability_succ fs i _ _ hget, hzero,
      FloatVal.accum_add_zero _ (cumulativeProbability_accum fs hnn i), hprev] at hlt2
    exact absurd hlt2 (by simp)

/-- Witness for C25: the set with probabilities 1/4 and 3/4, at `u = 1/2`, where the second
function, of probability 3/4, is returned. -/
theorem RandomFunction_no_fallback_witness :
    sampleSetQuarter.functions ≠ [] ∧ (∀ p ∈ sampleSetQuarter.functions, p.1.IsNonNeg) ∧
    (FloatVal.finite (1 / 2)).lt
      (cumulativeProbability sampleSetQuarter sampleSetQuarter.functions.length) = true ∧
    ∃ i p f, RandomFunction.loop (1 / 2) sampleSetQuarter.functions 0 0 = some i ∧
      RandomFunctionIdx sampleSetQuarter (1 / 2) = some i ∧
      sampleSetQuarter.functions[i]? = some (p, f) ∧
      RandomFunction sampleSetQuarter (1 / 2) = some f ∧ (FloatVal.finite 0).lt p = true :=
  have hnn : ∀ p ∈ sampleSetQuarter.functions, p.1.IsNonNeg := by decide!
  have hu : (FloatVal.finite (1 / 2)).lt
      (cumulativeProbability sampleSetQuarter sampleSetQuarter.functions.length) = true := by
    decide!
  ⟨List.cons_ne_nil _ _, hnn, hu,
    RandomFunction_no_fallback sampleSetQuarter (1 / 2) (List.cons_ne_nil _ _) hnn
      (by norm_num) hu⟩

/-- C25 (as stated) fails where the `float` sum stays below the exact sum.  The seven
probabilities 1/2, four times `2^-26`, `1/2 - 2^-24` and 0 are non-negative and their exact
sum is 1, but the running `float` sum absorbs the four small ones and ends at `1 - 2^-24`;
at `u = 1 - 2^-24`, which is in `[0, 1)`, the loop finds no cumulative probability above `u`,
and the fallback returns the last function, whose probability is 0. -/
theorem RandomFunction_fallback_reached :
    sampleSetTiny.functions ≠ [] ∧
    (∀ p ∈ sampleSetTiny.functions, p.1.IsNonNeg) ∧
    sampleSetTiny.functions.map Prod.fst
      = [FloatVal.finite (1 / 2), FloatVal.finite (1 / 67108864),
          FloatVal.finite (1 / 67108864), FloatVal.finite (1 / 67108864),
          FloatVal.finite (1 / 67108864), FloatVal.finite (8388607 / 16777216),
          FloatVal.finite 0] ∧
    sampleSetTiny.totalProbability = 1 ∧
    (0 : ℚ) ≤ 16777215 / 16777216 ∧ (16777215 / 16777216 : ℚ) < 1 ∧
    cumulativeProbability sampleSetTiny sampleSetTiny.functions.length
      = FloatVal.finite (16777215 / 16777216) ∧
    RandomFunction.loop (16777215 / 16777216) sampleSetTiny.functions 0 0 = none ∧
    RandomFunctionIdx sampleSetTiny (16777215 / 16777216) = some 6 ∧
    RandomFunction sampleSetTiny (16777215 / 16777216)
      = some (FlameFunction.newColored [] [] [] ⟨6, 0, 0⟩) ∧
    sampleSetTiny.functions[6]?
      = some (FloatVal.finite 0, FlameFunction.newColored [] [] [] ⟨6, 0, 0⟩) := by
  refine ⟨List.cons_ne_nil _ _, by decide!, by decide!, by decide!, by norm_num, by norm_num,
    by decide!, by decide!, by decide!, by decide!, by decide!⟩


theorem foldl_symmetryStep (kinds : List Symmetry) :
    ∀ base : Nat, kinds.foldl symmetryStep base = base + (kinds.map symmetryCount).sum := by
  induction kinds with
  | nil => intro base; simp
  | cons k rest ih =>
    intro base
    rw [List.foldl_cons, ih]
    cases k <;> simp [symmetryStep, symmetryCount] <;> omega

theorem foldl_append_singleton (q : FloatVal) (l : List FlameFunction) :
    ∀ acc : List (FloatVal × FlameFunction),
      l.foldl (fun acc2 symFunc => acc2 ++ [(q, symFunc)]) acc
        = acc ++ l.map (fun f => (q, f)) := by
  induction l with
  | nil => intro acc; simp
  | cons f rest ih => intro acc; simp [ih]

theorem foldl_generate (t : Trig) (q : FloatVal) (kinds : List Symmetry) :
    ∀ acc : List (FloatVal × FlameFunction),
      kinds.foldl
          (fun acc symmetry =>
            (MakeSymmetryFunction t symmetry).foldl
              (fun acc2 symFunc => acc2 ++ [(q, symFunc)]) acc)
          acc
        = acc ++ (kinds.flatMap (MakeSymmetryFunction t)).map (fun f => (q, f)) := by
  induction kinds with
  | nil => intro acc; simp
  | cons k rest ih =>
    intro acc
    rw [List.foldl_cons, ih, foldl_append_singleton]
    simp

theorem MakeSymmetryFunction_length (t : Trig) (kind : Symmetry) :
    (MakeSymmetryFunction t kind).length = symmetryCount kind := by
  cases kind <;> rfl

theorem flatMap_MakeSymmetryFunction_length (t : Trig) (kinds : List Symmetry) :
    (kinds.flatMap (MakeSymmetryFunction t)).length = (kinds.map symmetryCount).sum := by
  induction kinds with
  | nil => rfl
  | cons k rest ih =>
    rw [List.flatMap_cons, List.length_append, ih, MakeSymmetryFunction_length]
    simp


/-! ### NormalizeProbabilities and AddSymmetries -/

theorem foldl_add_fst (l : List (FloatVal × FlameFunction)) :
    ∀ a : FloatVal, l.foldl (fun l r => l + r.1) a
      = (l.map Prod.fst).foldl (fun accum p => accum + p) a := by
  induction l with
  | nil => intro a; rfl
  | cons p rest ih => intro a; simp only [List.foldl_cons, List.map_cons, ih]

theorem NormalizeProbabilities_functions (fs : FlameFunctionSet) :
    fs.NormalizeProbabilities.functions
      = fs.functions.map
          (fun pair => (pair.1 * (1 / floatSum (fs.functions.map Prod.fst)), pair.2)) := by
  simp only [FlameFunctionSet.NormalizeProbabilities, floatSum, foldl_add_fst]

theorem AddSymmetries_functions (t : Trig) (fs : FlameFunctionSet) (kinds : List Symmetry)
    (hk : 1 + (kinds.map symmetryCount).sum < 2 ^ 31) :
    fs.AddSymmetries t kinds
      = some ⟨fs.functions.map
            (fun pair =>
              (pair.1 * (1 / floatSum (fs.functions.map Prod.fst))
                / FloatVal.ofNat (1 + (kinds.map symmetryCount).sum), pair.2))
          ++ (kinds.flatMap (MakeSymmetryFunction t)).map
            (fun f => (1 / FloatVal.ofNat (1 + (kinds.map symmetryCount).sum), f))⟩ := by
  have hnot : ¬ 2 ^ 31 ≤ 1 + (kinds.map symmetryCount).sum := by omega
  simp only [FlameFunctionSet.AddSymmetries, foldl_symmetryStep, if_neg hnot, foldl_generate,
    NormalizeProbabilities_functions, List.map_map]
  rfl

theorem AddSymmetries_overflow (t : Trig) (fs : FlameFunctionSet) (kinds : List Symmetry)
    (hk : 2 ^ 31 ≤ 1 + (kinds.map symmetryCount).sum) :
    fs.AddSymmetries t kinds = none := by
  simp only [FlameFunctionSet.AddSymmetries, foldl_symmetryStep, if_pos hk]

/-- C6: for every function set and every list of symmetry kinds, with `total = 1 + Σ k` over
the requested kinds, `AddSymmetries` keeps the functions that were there at their positions,
the probability `p` of each replaced by the `float` value of `p * (1.f / S) / total`, where
`S` is the `float` sum of the old probabilities (so that `p * (1.f / S)` is the normalized
probability), and appends the generated symmetry functions after them, in the order of the
requested kinds, each with the `float` probability `1.f / total`.  (Where `total` would pass
the largest `int`, the count of the source overflows and no result is defined.) -/
theorem AddSymmetries_layout (t : Trig) (fs : FlameFunctionSet) (kinds : List Symmetry) :
    fs.AddSymmetries t kinds
      = if 2 ^ 31 ≤ 1 + (kinds.map symmetryCount).sum then none
        else some ⟨fs.functions.map
            (fun pair =>
              (((pair.1.mul ((FloatVal.finite 1).div (floatSum (fs.functions.map Prod.fst)))).div
                (roundF32 ((1 + (kinds.map symmetryCount).sum : Nat) : ℚ))), pair.2))
          ++ (kinds.flatMap (MakeSymmetryFunction t)).map
            (fun f => ((FloatVal.finite 1).div
              (roundF32 ((1 + (kinds.map symmetryCount).sum : Nat) : ℚ)), f))⟩ := by
  by_cases hk : 2 ^ 31 ≤ 1 + (kinds.map symmetryCount).sum
  · rw [if_pos hk, AddSymmetries_overflow t fs kinds hk]
  · rw [if_neg hk, AddSymmetries_functions t fs kinds (by omega)]
    simp only [FloatVal.mul_def, FloatVal.div_def, FloatVal.one_def, FloatVal.ofNat]

/-- Witness for C6: the set with probabilities 1/4 and 3/4 and the kinds Rotate72 and MirrorX
(`total = 6`): the two old probabilities become the `float` values of `0.25 / 6` and
`0.75 / 6`, and five functions of probability `1.f / 6` follow. -/
theorem AddSymmetries_layout_witness :
    (sampleSetQuarter.AddSymmetries sampleTrig [Symmetry.Rotate72, Symmetry.MirrorX]).map
        (fun r => r.functions.map Prod.fst)
      = some [FloatVal.finite (11184811 / 268435456), FloatVal.finite (1 / 8),
          FloatVal.finite (11184811 / 67108864), FloatVal.finite (11184811 / 67108864),
          FloatVal.finite (11184811 / 67108864), FloatVal.finite (11184811 / 67108864),
          FloatVal.finite (11184811 / 67108864)] ∧
    (sampleSetQuarter.AddSymmetries sampleTrig [Symmetry.Rotate72, Symmetry.MirrorX]).map
        (fun r => r.functions.map Prod.snd)
      = some ([MakeSymmetryMirrorX, MakeSymmetryMirrorY]
          ++ MakeSymmetryFunction sampleTrig Symmetry.Rotate72
          ++ MakeSymmetryFunction sampleTrig Symmetry.MirrorX) := by
  have h := AddSymmetries_layout sampleTrig sampleSetQuarter
    [Symmetry.Rotate72, Symmetry.MirrorX]
  rw [if_neg (by decide)] at h
  refine ⟨?_, ?_⟩
  · rw [h]
    decide!
  · rw [h]
    simp [sampleSetQuarter]


/-! ### The error of the `float` sum and of the normalized probabilities -/

theorem FloatVal.eq_finite_of_isFinite (p : FloatVal) (h : p.isFinite = true) :
    p = FloatVal.finite p.toRat := by
  cases p <;> simp_all [FloatVal.isFinite, FloatVal.toRat]

theorem errA_pow_64 : ((1 : ℚ) + 1 / 16777216) ^ 64 ≤ 2 := by norm_num
theorem errB_pow_64 : (1 : ℚ) / 2 ≤ ((1 : ℚ) - 1 / 16777216) ^ 64 := by norm_num
theorem errRatio_lower : ((1 : ℚ) - 1 / 131072) * ((1 : ℚ) + 1 / 16777216) ^ 64
    ≤ ((1 : ℚ) - 1 / 16777216) ^ 2 := by norm_num
theorem errRatio_upper : ((1 : ℚ) + 1 / 16777216) ^ 2
    ≤ ((1 : ℚ) + 1 / 131072) * ((1 : ℚ) - 1 / 16777216) ^ 64 := by norm_num

theorem errA_pow_le (j : ℕ) (hj : j ≤ 64) : ((1 : ℚ) + 1 / 16777216) ^ j ≤ 2 :=
  le_trans (pow_le_pow_right₀ (by norm_num) hj) (by norm_num)

theorem errB_pow_ge (j : ℕ) (hj : j ≤ 64) : (1 : ℚ) / 2 ≤ ((1 : ℚ) - 1 / 16777216) ^ j :=
  le_trans (by norm_num) (pow_le_pow_of_le_one (by norm_num) (by norm_num) hj)

theorem floatSum_bounds_aux (l : List FloatVal)
    (hl : ∀ p ∈ l, p.isFinite = true ∧ 1 / 4294967296 ≤ p.toRat ∧ p.toRat ≤ 4294967296) :
    ∀ (j : ℕ) (s t : ℚ), j + l.length ≤ 64 → 0 ≤ t → t ≤ (j : ℚ) * 4294967296 →
      t * ((1 : ℚ) - 1 / 16777216) ^ j ≤ s → s ≤ t * ((1 : ℚ) + 1 / 16777216) ^ j →
      ∃ S, l.foldl (fun a p => a + p) (FloatVal.finite s) = FloatVal.finite S ∧
        (t + (l.map FloatVal.toRat).sum) * ((1 : ℚ) - 1 / 16777216) ^ (j + l.length) ≤ S ∧
        S ≤ (t + (l.map FloatVal.toRat).sum) * ((1 : ℚ) + 1 / 16777216) ^ (j + l.length) := by
  induction l with
  | nil =>
    intro j s t _ _ _ h1 h2
    exact ⟨s, rfl, by simpa using h1, by simpa using h2⟩
  | cons p rest ih =>
    intro j s t hj ht0 htj h1 h2
    obtain ⟨hfin, hlo, hhi⟩ := hl p (List.mem_cons_self _ _)
    have hp := FloatVal.eq_finite_of_isFinite p hfin
    set w := p.toRat with hw
    have hj64 : j ≤ 64 := by simp only [List.length_cons] at hj; omega
    have hA1 : (1 : ℚ) ≤ ((1 : ℚ) + 1 / 16777216) ^ j := one_le_pow₀ (by norm_num)
    have hA2 := errA_pow_le j hj64
    have hB0 : (0 : ℚ) ≤ ((1 : ℚ) - 1 / 16777216) ^ j := pow_nonneg (by norm_num) j
    have hB1 : ((1 : ℚ) - 1 / 16777216) ^ j ≤ 1 := pow_le_one₀ (by norm_num) (by norm_num)
    have hw0 : 0 ≤ w := le_trans (by norm_num) hlo
    have hs0 : 0 ≤ s := le_trans (mul_nonneg ht0 hB0) h1
    -- the exact sum `s + w` is in the normal range
    have hx1 : (2 : ℚ) ^ (-126 : ℤ) ≤ s + w := by
      have : (2 : ℚ) ^ (-126 : ℤ) ≤ 1 / 4294967296 := by
        rw [zpow_neg, ← one_div]
        apply one_div_le_one_div_of_le (by norm_num)
        norm_num
      exact le_trans this (le_trans hlo (le_add_of_nonneg_left hs0))
    have hjq : (j : ℚ) ≤ 64 := by exact_mod_cast hj64
    have hx2 : s + w ≤ (2 : ℚ) ^ (127 : ℕ) := by
      have h3 : s ≤ t * 2 := le_trans h2 (mul_le_mul_of_nonneg_left hA2 ht0)
      have h4 : t ≤ 64 * 4294967296 := le_trans htj (by linarith)
      have h5 : (64 : ℚ) * 4294967296 * 2 + 4294967296 ≤ (2 : ℚ) ^ (127 : ℕ) := by norm_num
      refine le_trans ?_ h5
      linarith
    obtain ⟨r, hr, hr1, hr2⟩ := roundF32_rel (s + w) hx1 hx2
    have hfold : (p :: rest).foldl (fun a p => a + p) (FloatVal.finite s)
        = rest.foldl (fun a p => a + p) (FloatVal.finite r) := by
      rw [List.foldl_cons, hp]
      show rest.foldl (fun a p => a + p) (roundF32 (s + w)) = _
      rw [hr]
    have hrest : ∀ q ∈ rest, q.isFinite = true ∧ 1 / 4294967296 ≤ q.toRat
        ∧ q.toRat ≤ 4294967296 := fun q hq => hl q (List.mem_cons_of_mem _ hq)
    have hlow : (t + w) * ((1 : ℚ) - 1 / 16777216) ^ (j + 1) ≤ r := by
      have a1 : (t + w) * ((1 : ℚ) - 1 / 16777216) ^ j ≤ s + w := by
        have : w * ((1 : ℚ) - 1 / 16777216) ^ j ≤ w := by
          calc w * ((1 : ℚ) - 1 / 16777216) ^ j ≤ w * 1 := mul_le_mul_of_nonneg_left hB1 hw0
            _ = w := mul_one w
        linarith
      calc (t + w) * ((1 : ℚ) - 1 / 16777216) ^ (j + 1)
          = (t + w) * ((1 : ℚ) - 1 / 16777216) ^ j * ((1 : ℚ) - 1 / 16777216) := by
            rw [pow_succ]; ring
        _ ≤ (s + w) * ((1 : ℚ) - 1 / 16777216) :=
            mul_le_mul_of_nonneg_right a1 (by norm_num)
        _ ≤ r := hr1
    have hupp : r ≤ (t + w) * ((1 : ℚ) + 1 / 16777216) ^ (j + 1) := by
      have a1 : s + w ≤ (t + w) * ((1 : ℚ) + 1 / 16777216) ^ j := by
        have : w ≤ w * ((1 : ℚ) + 1 / 16777216) ^ j := by
          calc w = w * 1 := (mul_one w).symm
            _ ≤ w * ((1 : ℚ) + 1 / 16777216) ^ j := mul_le_mul_of_nonneg_left hA1 hw0
        linarith
      calc r ≤ (s + w) * ((1 : ℚ) + 1 / 16777216) := hr2
        _ ≤ (t + w) * ((1 : ℚ) + 1 / 16777216) ^ j * ((1 : ℚ) + 1 / 16777216) :=
            mul_le_mul_of_nonneg_right a1 (by norm_num)
        _ = (t + w) * ((1 : ℚ) + 1 / 16777216) ^ (j + 1) := by
            rw [pow_succ]; ring
    have htj1 : t + w ≤ ((j + 1 : ℕ) : ℚ) * 4294967296 := by
      push_cast
      linarith
    obtain ⟨S, hS, hS1, hS2⟩ := ih hrest (j + 1) r (t + w)
      (by simp only [List.length_cons] at hj; omega) (by linarith) htj1 hlow hupp
    refine ⟨S, hfold.trans hS, ?_, ?_⟩
    · have e : j + (p :: rest).length = j + 1 + rest.length := by
        simp only [List.length_cons]; omega
      rw [e, List.map_cons, List.sum_cons, ← add_assoc]
      exact hS1
    · have e : j + (p :: rest).length = j + 1 + rest.length := by
        simp only [List.length_cons]; omega
      rw [e, List.map_cons, List.sum_cons, ← add_assoc]
      exact hS2

theorem floatSum_bounds (l : List FloatVal)
    (hl : ∀ p ∈ l, p.isFinite = true ∧ 1 / 4294967296 ≤ p.toRat ∧ p.toRat ≤ 4294967296)
    (hlen : l.length ≤ 64) :
    ∃ S, floatSum l = FloatVal.finite S ∧
      (l.map FloatVal.toRat).sum * ((1 : ℚ) - 1 / 16777216) ^ l.length ≤ S ∧
      S ≤ (l.map FloatVal.toRat).sum * ((1 : ℚ) + 1 / 16777216) ^ l.length := by
  obtain ⟨S, hS, h1, h2⟩ := floatSum_bounds_aux l hl 0 0 0 (by omega) (le_refl _)
    (by norm_num) (by norm_num) (by norm_num)
  refine ⟨S, ?_, by simpa using h1, by simpa using h2⟩
  unfold floatSum
  rw [FloatVal.zero_def]
  exact hS


theorem sum_toRat_bounds (l : List FloatVal)
    (hl : ∀ p ∈ l, p.isFinite = true ∧ 1 / 4294967296 ≤ p.toRat ∧ p.toRat ≤ 4294967296) :
    (l.length : ℚ) * (1 / 4294967296) ≤ (l.map FloatVal.toRat).sum ∧
      (l.map FloatVal.toRat).sum ≤ (l.length : ℚ) * 4294967296 := by
  induction l with
  | nil => simp
  | cons p rest ih =>
    obtain ⟨_, h1, h2⟩ := hl p (List.mem_cons_self _ _)
    obtain ⟨i1, i2⟩ := ih (fun q hq => hl q (List.mem_cons_of_mem _ hq))
    simp only [List.length_cons, List.map_cons, List.sum_cons]
    push_cast
    constructor <;> linarith

theorem normalize_scale (l : List FloatVal)
    (hl : ∀ p ∈ l, p.isFinite = true ∧ 1 / 4294967296 ≤ p.toRat ∧ p.toRat ≤ 4294967296)
    (hne : l ≠ []) (hlen : l.length ≤ 64) :
    ∃ v, (FloatVal.finite 1).div (floatSum l) = FloatVal.finite v ∧
      (1 - 1 / 131072) / (l.map FloatVal.toRat).sum ≤ v * (1 - 1 / 16777216) ∧
      v * (1 + 1 / 16777216) ≤ (1 + 1 / 131072) / (l.map FloatVal.toRat).sum ∧
      1 / 1099511627776 ≤ v ∧ v ≤ 17179869184 := by
  obtain ⟨S, hS, hS1, hS2⟩ := floatSum_bounds l hl hlen
  obtain ⟨hT1, hT2⟩ := sum_toRat_bounds l hl
  set T := (l.map FloatVal.toRat).sum with hT
  have hlen1 : (1 : ℚ) ≤ (l.length : ℚ) := by
    have : 0 < l.length := List.length_pos.mpr hne
    exact_mod_cast this
  have hlen64 : (l.length : ℚ) ≤ 64 := by exact_mod_cast hlen
  have hTlo : 1 / 4294967296 ≤ T := by linarith
  have hThi : T ≤ 64 * 4294967296 := by linarith
  have hTpos : 0 < T := lt_of_lt_of_le (by norm_num) hTlo
  have hA := errA_pow_le l.length hlen
  have hB := errB_pow_ge l.length hlen
  have hA64 : ((1 : ℚ) + 1 / 16777216) ^ l.length ≤ ((1 : ℚ) + 1 / 16777216) ^ 64 :=
    pow_le_pow_right₀ (by norm_num) hlen
  have hB64 : ((1 : ℚ) - 1 / 16777216) ^ 64 ≤ ((1 : ℚ) - 1 / 16777216) ^ l.length :=
    pow_le_pow_of_le_one (by norm_num) (by norm_num) hlen
  have hB64pos : (0 : ℚ) < ((1 : ℚ) - 1 / 16777216) ^ 64 := by positivity
  have hA64pos : (0 : ℚ) < ((1 : ℚ) + 1 / 16777216) ^ 64 := by positivity
  -- the float sum `S` lies between `T * B^64` and `T * A^64`
  have hSlo : T * ((1 : ℚ) - 1 / 16777216) ^ 64 ≤ S :=
    le_trans (mul_le_mul_of_nonneg_left hB64 (le_of_lt hTpos)) hS1
  have hShi : S ≤ T * ((1 : ℚ) + 1 / 16777216) ^ 64 :=
    le_trans hS2 (mul_le_mul_of_nonneg_left hA64 (le_of_lt hTpos))
  have hSpos : 0 < S := lt_of_lt_of_le (mul_pos hTpos hB64pos) hSlo
  have hS_lo2 : 1 / 8589934592 ≤ S := by
    have : T * (1 / 2) ≤ S := le_trans (mul_le_mul_of_nonneg_left hB (le_of_lt hTpos)) hS1
    linarith
  have hS_hi2 : S ≤ 549755813888 := by
    have : S ≤ T * 2 := le_trans hS2 (mul_le_mul_of_nonneg_left hA (le_of_lt hTpos))
    linarith
  -- the reciprocal is in the normal range
  have hinv_lo : 1 / 549755813888 ≤ 1 / S := one_div_le_one_div_of_le hSpos hS_hi2
  have hinv_hi : 1 / S ≤ 8589934592 := by
    rw [div_le_iff₀ hSpos]
    have : (1 : ℚ) = 8589934592 * (1 / 8589934592) := by norm_num
    calc (1 : ℚ) = 8589934592 * (1 / 8589934592) := this
      _ ≤ 8589934592 * S := mul_le_mul_of_nonneg_left hS_lo2 (by norm_num)
  have hx1 : (2 : ℚ) ^ (-126 : ℤ) ≤ 1 / S := by
    have : (2 : ℚ) ^ (-126 : ℤ) ≤ 1 / 549755813888 := by
      rw [zpow_neg, ← one_div]
      apply one_div_le_one_div_of_le (by norm_num)
      norm_num
    exact le_trans this hinv_lo
  have hx2 : 1 / S ≤ (2 : ℚ) ^ (127 : ℕ) := le_trans hinv_hi (by norm_num)
  obtain ⟨v, hv, hv1, hv2⟩ := roundF32_rel (1 / S) hx1 hx2
  have hdiv : (FloatVal.finite 1).div (floatSum l) = FloatVal.finite v := by
    rw [hS]
    show (if S = 0 then _ else roundF32 (1 / S)) = _
    rw [if_neg (ne_of_gt hSpos), hv]
  refine ⟨v, hdiv, ?_, ?_, ?_, ?_⟩
  · -- `(1 - c) / T ≤ B^2 / (T * A^64) ≤ (1 / S) * B^2 ≤ v * B`
    have h1 : (1 - 1 / 131072) / T
        ≤ ((1 : ℚ) - 1 / 16777216) ^ 2 / (T * ((1 : ℚ) + 1 / 16777216) ^ 64) := by
      rw [div_le_div_iff₀ hTpos (mul_pos hTpos hA64pos)]
      have := errRatio_lower
      calc (1 - 1 / 131072) * (T * ((1 : ℚ) + 1 / 16777216) ^ 64)
          = T * ((1 - 1 / 131072) * ((1 : ℚ) + 1 / 16777216) ^ 64) := by ring
        _ ≤ T * ((1 : ℚ) - 1 / 16777216) ^ 2 := mul_le_mul_of_nonneg_left this (le_of_lt hTpos)
        _ = ((1 : ℚ) - 1 / 16777216) ^ 2 * T := by ring
    have h2 : ((1 : ℚ) - 1 / 16777216) ^ 2 / (T * ((1 : ℚ) + 1 / 16777216) ^ 64)
        ≤ 1 / S * ((1 : ℚ) - 1 / 16777216) ^ 2 := by
      rw [div_eq_mul_one_div, mul_comm]
      apply mul_le_mul_of_nonneg_right _ (by positivity)
      exact one_div_le_one_div_of_le hSpos hShi
    have h3 : 1 / S * ((1 : ℚ) - 1 / 16777216) ^ 2 ≤ v * (1 - 1 / 16777216) := by
      rw [pow_two, ← mul_assoc]
      exact mul_le_mul_of_nonneg_right hv1 (by norm_num)
    exact le_trans h1 (le_trans h2 h3)
  · -- `v * A ≤ (1 / S) * A^2 ≤ A^2 / (T * B^64) ≤ (1 + c) / T`
    have h1 : v * (1 + 1 / 16777216) ≤ 1 / S * ((1 : ℚ) + 1 / 16777216) ^ 2 := by
      rw [pow_two, ← mul_assoc]
      exact mul_le_mul_of_nonneg_right hv2 (by norm_num)
    have h2 : 1 / S * ((1 : ℚ) + 1 / 16777216) ^ 2
        ≤ ((1 : ℚ) + 1 / 16777216) ^ 2 / (T * ((1 : ℚ) - 1 / 16777216) ^ 64) := by
      rw [div_eq_mul_one_div (((1 : ℚ) + 1 / 16777216) ^ 2), mul_comm]
      apply mul_le_mul_of_nonneg_left _ (by positivity)
      exact one_div_le_one_div_of_le (mul_pos hTpos hB64pos) hSlo
    have h3 : ((1 : ℚ) + 1 / 16777216) ^ 2 / (T * ((1 : ℚ) - 1 / 16777216) ^ 64)
        ≤ (1 + 1 / 131072) / T := by
      rw [div_le_div_iff₀ (mul_pos hTpos hB64pos) hTpos]
      have := errRatio_upper
      calc ((1 : ℚ) + 1 / 16777216) ^ 2 * T
          = T * ((1 : ℚ) + 1 / 16777216) ^ 2 := by ring
        _ ≤ T * ((1 + 1 / 131072) * ((1 : ℚ) - 1 / 16777216) ^ 64) :=
            mul_le_mul_of_nonneg_left this (le_of_lt hTpos)
        _ = (1 + 1 / 131072) * (T * ((1 : ℚ) - 1 / 16777216) ^ 64) := by ring
    exact le_trans h1 (le_trans h2 h3)
  · have : 1 / S * (1 - 1 / 16777216) ≤ v := hv1
    have h5 : (1 : ℚ) / 549755813888 * (1 - 1 / 16777216) ≤ 1 / S * (1 - 1 / 16777216) :=
      mul_le_mul_of_nonneg_right hinv_lo (by norm_num)
    have h6 : (1 : ℚ) / 1099511627776 ≤ 1 / 549755813888 * (1 - 1 / 16777216) := by norm_num
    linarith
  · have : v ≤ 1 / S * (1 + 1 / 16777216) := hv2
    have h5 : 1 / S * (1 + 1 / 16777216) ≤ (8589934592 : ℚ) * (1 + 1 / 16777216) :=
      mul_le_mul_of_nonneg_right hinv_hi (by norm_num)
    have h6 : (8589934592 : ℚ) * (1 + 1 / 16777216) ≤ 17179869184 := by norm_num
    linarith

theorem mul_scale (w v : ℚ) (hw1 : 1 / 4294967296 ≤ w) (hw2 : w ≤ 4294967296)
    (hv1 : 1 / 1099511627776 ≤ v) (hv2 : v ≤ 17179869184) :
    ∃ q, (FloatVal.finite w).mul (FloatVal.finite v) = FloatVal.finite q ∧
      w * v * (1 - 1 / 16777216) ≤ q ∧ q ≤ w * v * (1 + 1 / 16777216) ∧
      1 / 9444732965739290427392 ≤ q ∧ q ≤ 147573952589676412928 := by
  have hw0 : 0 < w := lt_of_lt_of_le (by norm_num) hw1
  have hv0 : 0 < v := lt_of_lt_of_le (by norm_num) hv1
  have hlo : (1 : ℚ) / 4294967296 * (1 / 1099511627776) ≤ w * v :=
    mul_le_mul hw1 hv1 (by norm_num) (le_of_lt hw0)
  have hhi : w * v ≤ 4294967296 * 17179869184 :=
    mul_le_mul hw2 hv2 (le_of_lt hv0) (by norm_num)
  have hx1 : (2 : ℚ) ^ (-126 : ℤ) ≤ w * v := by
    have : (2 : ℚ) ^ (-126 : ℤ) ≤ 1 / 4294967296 * (1 / 1099511627776) := by
      rw [zpow_neg, ← one_div, show (1 : ℚ) / 4294967296 * (1 / 1099511627776)
        = 1 / 4722366482869645213696 by norm_num]
      apply one_div_le_one_div_of_le (by norm_num)
      norm_num
    exact le_trans this hlo
  have hx2 : w * v ≤ (2 : ℚ) ^ (127 : ℕ) := le_trans hhi (by norm_num)
  obtain ⟨q, hq, hq1, hq2⟩ := roundF32_rel (w * v) hx1 hx2
  refine ⟨q, hq, hq1, hq2, ?_, ?_⟩
  · have h5 : (1 : ℚ) / 4294967296 * (1 / 1099511627776) * (1 - 1 / 16777216)
        ≤ w * v * (1 - 1 / 16777216) := mul_le_mul_of_nonneg_right hlo (by norm_num)
    have h6 : (1 : ℚ) / 9444732965739290427392
        ≤ 1 / 4294967296 * (1 / 1099511627776) * (1 - 1 / 16777216) := by norm_num
    linarith
  · have h5 : w * v * (1 + 1 / 16777216) ≤ (4294967296 : ℚ) * 17179869184 * (1 + 1 / 16777216) :=
      mul_le_mul_of_nonneg_right hhi (by norm_num)
    have h6 : (4294967296 : ℚ) * 17179869184 * (1 + 1 / 16777216) ≤ 147573952589676412928 := by
      norm_num
    linarith


theorem map_mul_scale_sum (l : List FloatVal) (v : ℚ)
    (hl : ∀ p ∈ l, p.isFinite = true ∧ 1 / 4294967296 ≤ p.toRat ∧ p.toRat ≤ 4294967296)
    (hv1 : 1 / 1099511627776 ≤ v) (hv2 : v ≤ 17179869184) :
    (l.map FloatVal.toRat).sum * v * (1 - 1 / 16777216)
        ≤ ((l.map (fun p => p.mul (FloatVal.finite v))).map FloatVal.toRat).sum ∧
      ((l.map (fun p => p.mul (FloatVal.finite v))).map FloatVal.toRat).sum
        ≤ (l.map FloatVal.toRat).sum * v * (1 + 1 / 16777216) := by
  induction l with
  | nil => simp
  | cons p rest ih =>
    obtain ⟨hfin, h1, h2⟩ := hl p (List.mem_cons_self _ _)
    obtain ⟨i1, i2⟩ := ih (fun q hq => hl q (List.mem_cons_of_mem _ hq))
    obtain ⟨q, hq, hq1, hq2, _, _⟩ := mul_scale p.toRat v h1 h2 hv1 hv2
    have hp := FloatVal.eq_finite_of_isFinite p hfin
    have e : (p.mul (FloatVal.finite v)).toRat = q := by
      rw [hp, hq]
      rfl
    simp only [List.map_cons, List.sum_cons, e]
    constructor
    · have : (p.toRat + (rest.map FloatVal.toRat).sum) * v * (1 - 1 / 16777216)
          = p.toRat * v * (1 - 1 / 16777216)
            + (rest.map FloatVal.toRat).sum * v * (1 - 1 / 16777216) := by ring
      rw [this]
      linarith
    · have : (p.toRat + (rest.map FloatVal.toRat).sum) * v * (1 + 1 / 16777216)
          = p.toRat * v * (1 + 1 / 16777216)
            + (rest.map FloatVal.toRat).sum * v * (1 + 1 / 16777216) := by ring
      rw [this]
      linarith

theorem NormalizeProbabilities_bounds (fs : FlameFunctionSet) (hne : fs.functions ≠ [])
    (hlen : fs.functions.length ≤ 64) (hw : fs.WeightsIn (1 / 4294967296) 4294967296) :
    ∃ v, (FloatVal.finite 1).div (floatSum (fs.functions.map Prod.fst)) = FloatVal.finite v ∧
      0 < fs.totalProbability ∧
      (1 - 1 / 131072) / fs.totalProbability ≤ v * (1 - 1 / 16777216) ∧
      v * (1 + 1 / 16777216) ≤ (1 + 1 / 131072) / fs.totalProbability ∧
      1 / 1099511627776 ≤ v ∧ v ≤ 17179869184 ∧
      1 - 1 / 131072 ≤ fs.NormalizeProbabilities.totalProbability ∧
      fs.NormalizeProbabilities.totalProbability ≤ 1 + 1 / 131072 := by
  have hl : ∀ p ∈ fs.functions.map Prod.fst,
      p.isFinite = true ∧ 1 / 4294967296 ≤ p.toRat ∧ p.toRat ≤ 4294967296 := by
    intro p hp
    obtain ⟨x, hx, rfl⟩ := List.mem_map.mp hp
    exact hw x hx
  have hne2 : fs.functions.map Prod.fst ≠ [] := by simpa using hne
  have hlen2 : (fs.functions.map Prod.fst).length ≤ 64 := by simpa using hlen
  obtain ⟨v, hv, k1, k2, v1, v2⟩ := normalize_scale _ hl hne2 hlen2
  have hT : ((fs.functions.map Prod.fst).map FloatVal.toRat).sum = fs.totalProbability := by
    unfold FlameFunctionSet.totalProbability
    rw [List.map_map]
    rfl
  rw [hT] at k1 k2
  obtain ⟨t1, _⟩ := sum_toRat_bounds _ hl
  rw [hT] at t1
  have hTpos : 0 < fs.totalProbability := by
    have : (1 : ℚ) ≤ ((fs.functions.map Prod.fst).length : ℚ) := by
      have : 0 < (fs.functions.map Prod.fst).length := List.length_pos.mpr hne2
      exact_mod_cast this
    have h3 : (0 : ℚ) < 1 * (1 / 4294967296) := by norm_num
    have h4 : (1 : ℚ) * (1 / 4294967296)
        ≤ ((fs.functions.map Prod.fst).length : ℚ) * (1 / 4294967296) :=
      mul_le_mul_of_nonneg_right this (by norm_num)
    linarith
  obtain ⟨s1, s2⟩ := map_mul_scale_sum _ v hl v1 v2
  rw [hT] at s1 s2
  have hN : fs.NormalizeProbabilities.totalProbability
      = (((fs.functions.map Prod.fst).map (fun p => p.mul (FloatVal.finite v))).map
          FloatVal.toRat).sum := by
    unfold FlameFunctionSet.totalProbability
    rw [NormalizeProbabilities_functions]
    simp only [List.map_map]
    congr 1
    apply List.map_congr_left
    intro x _
    simp only [Function.comp, FloatVal.mul_def, FloatVal.div_def, FloatVal.one_def, hv]
  rw [← hN] at s1 s2
  refine ⟨v, hv, hTpos, k1, k2, v1, v2, ?_, ?_⟩
  · have := (div_le_iff₀ hTpos).mp k1
    have e : fs.totalProbability * v * (1 - 1 / 16777216)
        = v * (1 - 1 / 16777216) * fs.totalProbability := by ring
    rw [e] at s1
    linarith
  · have := (le_div_iff₀ hTpos).mp k2
    have e : fs.totalProbability * v * (1 + 1 / 16777216)
        = v * (1 + 1 / 16777216) * fs.totalProbability := by ring
    rw [e] at s2
    linarith

/-- C4 (as amended): for every non-empty function set of at most 64 functions whose weights
are finite floats between `2^-32` and `2^32`, `NormalizeProbabilities()` leaves the order and
the functions unchanged and replaces each probability `p` by the `float` product of `p` and
the `float` reciprocal `1.f / S` of the `float` sum `S` of all old probabilities; that value
is within a relative error of `1e-5` of `p` divided by the exact sum of the old
probabilities, and the exact sum of the new probabilities is within `1e-5` of 1. -/
theorem NormalizeProbabilities_sum_one (fs : FlameFunctionSet) (hne : fs.functions ≠ [])
    (hlen : fs.functions.length ≤ 64) (hw : fs.WeightsIn (1 / 4294967296) 4294967296) :
    fs.NormalizeProbabilities.functions.map Prod.snd = fs.functions.map Prod.snd ∧
    fs.NormalizeProbabilities.functions.map Prod.fst
      = fs.functions.map (fun pair =>
          pair.1.mul ((FloatVal.finite 1).div (floatSum (fs.functions.map Prod.fst)))) ∧
    (∀ (i : Nat) (p : FloatVal) (f : FlameFunction), fs.functions[i]? = some (p, f) →
      ∃ q, fs.NormalizeProbabilities.functions[i]? = some (FloatVal.finite q, f) ∧
        |q - p.toRat / fs.totalProbability| ≤ 1 / 100000 * (p.toRat / fs.totalProbability)) ∧
    |fs.NormalizeProbabilities.totalProbability - 1| ≤ 1 / 100000 := by
  obtain ⟨v, hv, hTpos, k1, k2, v1, v2, s1, s2⟩ := NormalizeProbabilities_bounds fs hne hlen hw
  refine ⟨?_, ?_, ?_, ?_⟩
  · rw [NormalizeProbabilities_functions]
    simp [List.map_map, Function.comp]
  · rw [NormalizeProbabilities_functions]
    simp only [List.map_map, FloatVal.mul_def, FloatVal.div_def, FloatVal.one_def]
    rfl
  · intro i p f hget
    obtain ⟨hlt, heq⟩ := List.getElem?_eq_some_iff.mp hget
    obtain ⟨hfin, h1, h2⟩ := hw _ (List.getElem_mem hlt)
    rw [heq] at hfin h1 h2
    simp only at hfin h1 h2
    obtain ⟨q, hq, hq1, hq2, _, _⟩ := mul_scale p.toRat v h1 h2 v1 v2
    have hp := FloatVal.eq_finite_of_isFinite p hfin
    refine ⟨q, ?_, ?_⟩
    · rw [NormalizeProbabilities_functions, List.getElem?_map, hget]
      simp only [Option.map_some', FloatVal.mul_def, FloatVal.div_def, FloatVal.one_def, hv]
      rw [← hq]
      congr 2
      rw [← hp]
    · have hp0 : 0 ≤ p.toRat := le_trans (by norm_num) h1
      have a1 : p.toRat * ((1 - 1 / 131072) / fs.totalProbability)
          ≤ p.toRat * (v * (1 - 1 / 16777216)) := mul_le_mul_of_nonneg_left k1 hp0
      have a2 : p.toRat * (v * (1 + 1 / 16777216))
          ≤ p.toRat * ((1 + 1 / 131072) / fs.totalProbability) :=
        mul_le_mul_of_nonneg_left k2 hp0
      have e1 : p.toRat * ((1 - 1 / 131072) / fs.totalProbability)
          = p.toRat / fs.totalProbability - 1 / 131072 * (p.toRat / fs.totalProbability) := by
        ring
      have e2 : p.toRat * ((1 + 1 / 131072) / fs.totalProbability)
          = p.toRat / fs.totalProbability + 1 / 131072 * (p.toRat / fs.totalProbability) := by
        ring
      have hpos : 0 ≤ p.toRat / fs.totalProbability := div_nonneg hp0 (le_of_lt hTpos)
      rw [abs_le]
      constructor <;> nlinarith
  · rw [abs_le]
    constructor <;> linarith


/-- Witness for C4: the weights 1 and 2.  The `float` sum is 3, its `float` reciprocal is
`11184811/33554432`, and the new probabilities are `11184811/33554432` and
`11184811/16777216`, of exact sum `1 + 2^-25`. -/
theorem NormalizeProbabilities_sum_one_witness :
    sampleSetOneTwo.functions ≠ [] ∧ sampleSetOneTwo.functions.length ≤ 64 ∧
    sampleSetOneTwo.WeightsIn (1 / 4294967296) 4294967296 ∧
    sampleSetOneTwo.NormalizeProbabilities.functions.map Prod.fst
      = [FloatVal.finite (11184811 / 33554432), FloatVal.finite (11184811 / 16777216)] ∧
    sampleSetOneTwo.NormalizeProbabilities.totalProbability = 1 + 1 / 33554432 ∧
    |sampleSetOneTwo.NormalizeProbabilities.totalProbability - 1| ≤ 1 / 100000 :=
  ⟨List.cons_ne_nil _ _, by decide, by decide!, by decide!, by decide!,
    (NormalizeProbabilities_sum_one sampleSetOneTwo (List.cons_ne_nil _ _) (by decide)
      (by decide!)).2.2.2⟩

/-- C4 (as stated) fails in five ways, each on positive weights.  The empty set has the sum
0 after normalizing.  Two weights `2^127` overflow the `float` sum to infinity, whose
reciprocal is 0, so both new probabilities are 0.  The single weight `2^-149` has a
reciprocal beyond the largest `float`, so its new probability is infinite.  The weights 1 and
2 give the first probability `11184811/33554432`, which is not `1/3`.  And of the 169 weights
`2^24, 1, …, 1` the `float` sum absorbs every 1: the new probabilities are 1 and 168 times
`2^-24`, of exact sum `1 + 168·2^-24`, which is more than `1e-5` above 1. -/
theorem NormalizeProbabilities_fails :
    ((FlameFunctionSet.mk []).NormalizeProbabilities.totalProbability = 0 ∧
      ∀ p ∈ (FlameFunctionSet.mk []).functions, (FloatVal.finite 0).lt p.1 = true) ∧
    ((∀ p ∈ sampleSetHuge.functions, (FloatVal.finite 0).lt p.1 = true) ∧
      sampleSetHuge.NormalizeProbabilities.functions.map Prod.fst
        = [FloatVal.finite 0, FloatVal.finite 0]) ∧
    ((∀ p ∈ sampleSetDenormal.functions, (FloatVal.finite 0).lt p.1 = true) ∧
      sampleSetDenormal.NormalizeProbabilities.functions.map Prod.fst = [FloatVal.posInf]) ∧
    ((∀ p ∈ sampleSetOneTwo.functions, (FloatVal.finite 0).lt p.1 = true) ∧
      sampleSetOneTwo.totalProbability = 3 ∧
      sampleSetOneTwo.NormalizeProbabilities.functions.map Prod.fst
        = [FloatVal.finite (11184811 / 33554432), FloatVal.finite (11184811 / 16777216)] ∧
      (11184811 / 33554432 : ℚ) ≠ 1 / 3) ∧
    ((∀ p ∈ sampleSetAbsorbed.functions, (FloatVal.finite 0).lt p.1 = true) ∧
      sampleSetAbsorbed.functions.length = 169 ∧
      sampleSetAbsorbed.NormalizeProbabilities.totalProbability = 1 + 168 / 16777216 ∧
      (1 : ℚ) + 1 / 100000 < 1 + 168 / 16777216) := by
  refine ⟨⟨by decide!, by decide!⟩, ⟨by decide!, by decide!⟩, ⟨by decide!, by decide!⟩,
    ⟨by decide!, by decide!, by decide!, by norm_num⟩,
    ⟨by decide!, by decide!, by decide!, by norm_num⟩⟩


/-! ### The error of AddSymmetries -/

theorem div_scale (q c : ℚ) (hq1 : 1 / 9444732965739290427392 ≤ q)
    (hq2 : q ≤ 147573952589676412928) (hc1 : 1 / 2 ≤ c) (hc2 : c ≤ 4294967296) :
    ∃ r, (FloatVal.finite q).div (FloatVal.finite c) = FloatVal.finite r ∧
      q / c * (1 - 1 / 16777216) ≤ r ∧ r ≤ q / c * (1 + 1 / 16777216) := by
  have hq0 : 0 < q := lt_of_lt_of_le (by norm_num) hq1
  have hc0 : 0 < c := lt_of_lt_of_le (by norm_num) hc1
  have hlo : (1 : ℚ) / 9444732965739290427392 / 4294967296 ≤ q / c := by
    rw [div_le_div_iff₀ (by norm_num) hc0]
    calc (1 : ℚ) / 9444732965739290427392 * c ≤ 1 / 9444732965739290427392 * 4294967296 :=
          mul_le_mul_of_nonneg_left hc2 (by norm_num)
      _ ≤ q * 4294967296 := mul_le_mul_of_nonneg_right hq1 (by norm_num)
  have hhi : q / c ≤ 147573952589676412928 * 2 := by
    rw [div_le_iff₀ hc0]
    calc q ≤ 147573952589676412928 := hq2
      _ = 147573952589676412928 * 2 * (1 / 2) := by norm_num
      _ ≤ 147573952589676412928 * 2 * c := mul_le_mul_of_nonneg_left hc1 (by norm_num)
  have hx1 : (2 : ℚ) ^ (-126 : ℤ) ≤ q / c := by
    have : (2 : ℚ) ^ (-126 : ℤ) ≤ 1 / 9444732965739290427392 / 4294967296 := by
      rw [zpow_neg, ← one_div, div_div]
      apply one_div_le_one_div_of_le (by norm_num)
      norm_num
    exact le_trans this hlo
  have hx2 : q / c ≤ (2 : ℚ) ^ (127 : ℕ) := le_trans hhi (by norm_num)
  obtain ⟨r, hr, hr1, hr2⟩ := roundF32_rel (q / c) hx1 hx2
  refine ⟨r, ?_, hr1, hr2⟩
  show (if c = 0 then _ else roundF32 (q / c)) = _
  rw [if_neg (ne_of_gt hc0), hr]

theorem map_div_scale_sum (l : List FloatVal) (c : ℚ)
    (hl : ∀ p ∈ l, p.isFinite = true ∧ 1 / 9444732965739290427392 ≤ p.toRat
      ∧ p.toRat ≤ 147573952589676412928)
    (hc1 : 1 / 2 ≤ c) (hc2 : c ≤ 4294967296) :
    (l.map FloatVal.toRat).sum / c * (1 - 1 / 16777216)
        ≤ ((l.map (fun p => p.div (FloatVal.finite c))).map FloatVal.toRat).sum ∧
      ((l.map (fun p => p.div (FloatVal.finite c))).map FloatVal.toRat).sum
        ≤ (l.map FloatVal.toRat).sum / c * (1 + 1 / 16777216) := by
  induction l with
  | nil => simp
  | cons p rest ih =>
    obtain ⟨hfin, h1, h2⟩ := hl p (List.mem_cons_self _ _)
    obtain ⟨i1, i2⟩ := ih (fun q hq => hl q (List.mem_cons_of_mem _ hq))
    obtain ⟨q, hq, hq1, hq2⟩ := div_scale p.toRat c h1 h2 hc1 hc2
    have hp := FloatVal.eq_finite_of_isFinite p hfin
    have e : (p.div (FloatVal.finite c)).toRat = q := by
      rw [hp, hq]
      rfl
    simp only [List.map_cons, List.sum_cons, e]
    constructor
    · have : (p.toRat + (rest.map FloatVal.toRat).sum) / c * (1 - 1 / 16777216)
          = p.toRat / c * (1 - 1 / 16777216)
            + (rest.map FloatVal.toRat).sum / c * (1 - 1 / 16777216) := by ring
      rw [this]
      linarith
    · have : (p.toRat + (rest.map FloatVal.toRat).sum) / c * (1 + 1 / 16777216)
          = p.toRat / c * (1 + 1 / 16777216)
            + (rest.map FloatVal.toRat).sum / c * (1 + 1 / 16777216) := by ring
      rw [this]
      linarith

theorem NormalizeProbabilities_range (fs : FlameFunctionSet) (hne : fs.functions ≠ [])
    (hlen : fs.functions.length ≤ 64) (hw : fs.WeightsIn (1 / 4294967296) 4294967296) :
    ∀ p ∈ fs.NormalizeProbabilities.functions.map Prod.fst,
      p.isFinite = true ∧ 1 / 9444732965739290427392 ≤ p.toRat
        ∧ p.toRat ≤ 147573952589676412928 := by
  obtain ⟨v, hv, _, _, _, v1, v2, _, _⟩ := NormalizeProbabilities_bounds fs hne hlen hw
  intro p hp
  rw [NormalizeProbabilities_functions, List.map_map] at hp
  obtain ⟨x, hx, rfl⟩ := List.mem_map.mp hp
  obtain ⟨hfin, h1, h2⟩ := hw x hx
  obtain ⟨q, hq, _, _, q1, q2⟩ := mul_scale x.1.toRat v h1 h2 v1 v2
  have hxe := FloatVal.eq_finite_of_isFinite x.1 hfin
  have e : (Prod.fst ∘ fun pair : FloatVal × FlameFunction =>
      (pair.1 * (1 / floatSum (fs.functions.map Prod.fst)), pair.2)) x = FloatVal.finite q := by
    simp only [Function.comp, FloatVal.mul_def, FloatVal.div_def, FloatVal.one_def, hv]
    rw [← hq]
    congr 1
  rw [e]
  exact ⟨rfl, q1, q2⟩

theorem roundF32_count (c : Nat) (h1 : 1 ≤ c) (h2 : c < 2 ^ 31) :
    ∃ r, roundF32 (c : ℚ) = FloatVal.finite r ∧ (c : ℚ) * (1 - 1 / 16777216) ≤ r ∧
      r ≤ (c : ℚ) * (1 + 1 / 16777216) ∧ 1 / 2 ≤ r ∧ r ≤ 4294967296 := by
  have hc1 : (1 : ℚ) ≤ (c : ℚ) := by exact_mod_cast h1
  have hc2 : (c : ℚ) ≤ 2147483648 := by
    have : c ≤ 2147483648 := by
      have : (2 : ℕ) ^ 31 = 2147483648 := by norm_num
      omega
    exact_mod_cast this
  have hx1 : (2 : ℚ) ^ (-126 : ℤ) ≤ (c : ℚ) := by
    have : (2 : ℚ) ^ (-126 : ℤ) ≤ 1 := by
      rw [zpow_neg, ← one_div]
      rw [div_le_one (by positivity)]
      exact one_le_zpow₀ (by norm_num) (by norm_num)
    exact le_trans this hc1
  have hx2 : (c : ℚ) ≤ (2 : ℚ) ^ (127 : ℕ) := le_trans hc2 (by norm_num)
  obtain ⟨r, hr, hr1, hr2⟩ := roundF32_rel (c : ℚ) hx1 hx2
  refine ⟨r, hr, hr1, hr2, ?_, ?_⟩
  · have : (1 : ℚ) * (1 - 1 / 16777216) ≤ (c : ℚ) * (1 - 1 / 16777216) :=
      mul_le_mul_of_nonneg_right hc1 (by norm_num)
    have h3 : (1 : ℚ) / 2 ≤ 1 * (1 - 1 / 16777216) := by norm_num
    linarith
  · have : (c : ℚ) * (1 + 1 / 16777216) ≤ 2147483648 * (1 + 1 / 16777216) :=
      mul_le_mul_of_nonneg_right hc2 (by norm_num)
    have h3 : (2147483648 : ℚ) * (1 + 1 / 16777216) ≤ 4294967296 := by norm_num
    linarith


theorem sum_map_const_toRat (l : List FlameFunction) (g : FloatVal) :
    ((l.map (fun f => (g, f))).map (fun pair : FloatVal × FlameFunction => pair.1.toRat)).sum
      = (l.length : ℚ) * g.toRat := by
  induction l with
  | nil => simp
  | cons f rest ih =>
    simp only [List.map_cons, List.sum_cons, List.length_cons, ih]
    push_cast
    ring

theorem AddSymmetries_bounds (t : Trig) (fs : FlameFunctionSet) (kinds : List Symmetry)
    (hne : fs.functions ≠ []) (hlen : fs.functions.length ≤ 64)
    (hw : fs.WeightsIn (1 / 4294967296) 4294967296)
    (hk : 1 + (kinds.map symmetryCount).sum < 2 ^ 31) :
    ∃ r gv, fs.AddSymmetries t kinds = some r ∧
      r.functions.map Prod.snd
        = fs.functions.map Prod.snd ++ kinds.flatMap (MakeSymmetryFunction t) ∧
      (r.functions.drop fs.functions.length).map Prod.fst
        = List.replicate (kinds.map symmetryCount).sum (FloatVal.finite gv) ∧
      (FloatVal.finite 1).div (roundF32 ((1 + (kinds.map symmetryCount).sum : Nat) : ℚ))
        = FloatVal.finite gv ∧
      |r.totalProbability - 1| ≤ 1 / 100000 := by
  obtain ⟨_, _, _, _, _, _, _, s1, s2⟩ := NormalizeProbabilities_bounds fs hne hlen hw
  have hrange := NormalizeProbabilities_range fs hne hlen hw
  obtain ⟨c, hc, c1, c2, c3, c4⟩ := roundF32_count (1 + (kinds.map symmetryCount).sum)
    (by omega) hk
  obtain ⟨gv, hg, g1, g2⟩ := div_scale 1 c (by norm_num) (by norm_num) c3 c4
  obtain ⟨a1, a2⟩ := map_div_scale_sum _ c hrange c3 c4
  have hP : ((fs.NormalizeProbabilities.functions.map Prod.fst).map FloatVal.toRat).sum
      = fs.NormalizeProbabilities.totalProbability := by
    unfold FlameFunctionSet.totalProbability
    rw [List.map_map]
    rfl
  rw [hP] at a1 a2
  set P := fs.NormalizeProbabilities.totalProbability with hPdef
  set n := (kinds.map symmetryCount).sum with hn
  have hgen : (kinds.flatMap (MakeSymmetryFunction t)).length = n :=
    flatMap_MakeSymmetryFunction_length t kinds
  refine ⟨_, gv, AddSymmetries_functions t fs kinds hk, ?_, ?_, ?_, ?_⟩
  · simp [List.map_append, List.map_map, Function.comp]
  · have hl : (fs.functions.map (fun pair : FloatVal × FlameFunction =>
        (pair.1 * (1 / floatSum (fs.functions.map Prod.fst)) / FloatVal.ofNat (1 + n),
          pair.2))).length = fs.functions.length := List.length_map _ _
    rw [List.drop_append_eq_append_drop, List.drop_of_length_le (le_of_eq hl), hl,
      Nat.sub_self, List.drop_zero, List.nil_append, List.map_map]
    have e : (1 : FloatVal) / FloatVal.ofNat (1 + n) = FloatVal.finite gv := by
      rw [FloatVal.div_def, FloatVal.one_def]
      unfold FloatVal.ofNat
      rw [hc]
      exact hg
    rw [e, ← hgen]
    apply List.eq_replicate_iff.mpr
    refine ⟨by simp, ?_⟩
    intro b hb
    obtain ⟨x, _, rfl⟩ := List.mem_map.mp hb
    rfl
  · rw [hc]
    exact hg
  · -- the exact sum of the result
    have hsum : (FlameFunctionSet.mk
        (fs.functions.map (fun pair : FloatVal × FlameFunction =>
            (pair.1 * (1 / floatSum (fs.functions.map Prod.fst)) / FloatVal.ofNat (1 + n),
              pair.2))
          ++ (kinds.flatMap (MakeSymmetryFunction t)).map
            (fun f => (1 / FloatVal.ofNat (1 + n), f)))).totalProbability
        = (((fs.NormalizeProbabilities.functions.map Prod.fst).map
              (fun p => p.div (FloatVal.finite c))).map FloatVal.toRat).sum
          + (n : ℚ) * gv := by
      unfold FlameFunctionSet.totalProbability
      have e : (1 : FloatVal) / FloatVal.ofNat (1 + n) = FloatVal.finite gv := by
        rw [FloatVal.div_def, FloatVal.one_def]
        unfold FloatVal.ofNat
        rw [hc]
        exact hg
      rw [List.map_append, List.sum_append, e, sum_map_const_toRat, hgen]
      congr 1
      rw [NormalizeProbabilities_functions]
      simp only [List.map_map]
      congr 1
      apply List.map_congr_left
      intro x _
      simp only [Function.comp, FloatVal.div_def]
      unfold FloatVal.ofNat
      rw [hc]
    rw [hsum]
    set R := (((fs.NormalizeProbabilities.functions.map Prod.fst).map
        (fun p => p.div (FloatVal.finite c))).map FloatVal.toRat).sum with hR
    have hc0 : 0 < c := lt_of_lt_of_le (by norm_num) c3
    have hn0 : (0 : ℚ) ≤ (n : ℚ) := Nat.cast_nonneg n
    have hcn : ((1 + n : ℕ) : ℚ) = 1 + (n : ℚ) := by push_cast; ring
    rw [hcn] at c1 c2
    -- lower and upper bound of the total in terms of `(P + n) / c`
    have e1 : P / c * (1 - 1 / 16777216) + (n : ℚ) * (1 / c * (1 - 1 / 16777216))
        = (P + n) / c * (1 - 1 / 16777216) := by ring
    have e2 : P / c * (1 + 1 / 16777216) + (n : ℚ) * (1 / c * (1 + 1 / 16777216))
        = (P + n) / c * (1 + 1 / 16777216) := by ring
    have lo : (P + n) / c * (1 - 1 / 16777216) ≤ R + (n : ℚ) * gv := by
      rw [← e1]
      have := mul_le_mul_of_nonneg_left g1 hn0
      linarith
    have hi : R + (n : ℚ) * gv ≤ (P + n) / c * (1 + 1 / 16777216) := by
      rw [← e2]
      have := mul_le_mul_of_nonneg_left g2 hn0
      linarith
    -- `(1 - c17) / A ≤ (P + n) / c ≤ (1 + c17) / B`
    have m1 : (1 - 1 / 131072) / (1 + 1 / 16777216) ≤ (P + n) / c := by
      rw [div_le_div_iff₀ (by norm_num) hc0]
      have h3 : (1 - 1 / 131072) * c ≤ (1 - 1 / 131072) * ((1 + (n : ℚ)) * (1 + 1 / 16777216)) :=
        mul_le_mul_of_nonneg_left c2 (by norm_num)
      have h4 : (1 - 1 / 131072) * (1 + (n : ℚ)) ≤ P + n := by nlinarith
      have h5 : (1 - 1 / 131072) * (1 + (n : ℚ)) * (1 + 1 / 16777216)
          ≤ (P + n) * (1 + 1 / 16777216) := mul_le_mul_of_nonneg_right h4 (by norm_num)
      linarith
    have m2 : (P + n) / c ≤ (1 + 1 / 131072) / (1 - 1 / 16777216) := by
      rw [div_le_div_iff₀ hc0 (by norm_num)]
      have h3 : (1 + 1 / 131072) * ((1 + (n : ℚ)) * (1 - 1 / 16777216)) ≤ (1 + 1 / 131072) * c :=
        mul_le_mul_of_nonneg_left c1 (by norm_num)
      have h4 : P + n ≤ (1 + 1 / 131072) * (1 + (n : ℚ)) := by nlinarith
      have h5 : (P + n) * (1 - 1 / 16777216)
          ≤ (1 + 1 / 131072) * (1 + (n : ℚ)) * (1 - 1 / 16777216) :=
        mul_le_mul_of_nonneg_right h4 (by norm_num)
      linarith
    have f1 : (1 : ℚ) - 1 / 100000
        ≤ (1 - 1 / 131072) / (1 + 1 / 16777216) * (1 - 1 / 16777216) := by norm_num
    have f2 : (1 + 1 / 131072) / (1 - 1 / 16777216) * (1 + 1 / 16777216)
        ≤ (1 : ℚ) + 1 / 100000 := by norm_num
    have l2 : (1 - 1 / 131072) / (1 + 1 / 16777216) * (1 - 1 / 16777216)
        ≤ (P + n) / c * (1 - 1 / 16777216) := mul_le_mul_of_nonneg_right m1 (by norm_num)
    have h2 : (P + n) / c * (1 + 1 / 16777216)
        ≤ (1 + 1 / 131072) / (1 - 1 / 16777216) * (1 + 1 / 16777216) :=
      mul_le_mul_of_nonneg_right m2 (by norm_num)
    rw [abs_le]
    constructor <;> linarith


/-- C5 (as amended): for every non-empty function set of at most 64 functions whose
probabilities are finite floats between `2^-32` and `2^32` (normalized or not:
`AddSymmetries` normalizes the set first) and every list of symmetry kinds, `AddSymmetries`
has a result exactly when the count `1 + Σ k` fits the `int` it is held in, and then the
exact sum of all probabilities (shrunk originals plus generated) is within `1e-5` of 1; in
particular after `AddSymmetries( {Rotate72} )` there are exactly 4 generated functions, each
with the `float` probability `1.f / 5 = 13421773/67108864`, and the sum is within `1e-5`
of 1. -/
theorem AddSymmetries_sum_one (t : Trig) (fs : FlameFunctionSet) (kinds : List Symmetry)
    (hne : fs.functions ≠ []) (hlen : fs.functions.length ≤ 64)
    (hw : fs.WeightsIn (1 / 4294967296) 4294967296) :
    ((∃ r, fs.AddSymmetries t kinds = some r) ↔ 1 + (kinds.map symmetryCount).sum < 2 ^ 31) ∧
    (∀ r, fs.AddSymmetries t kinds = some r →
      r.functions.map Prod.snd
          = fs.functions.map Prod.snd ++ kinds.flatMap (MakeSymmetryFunction t) ∧
        |r.totalProbability - 1| ≤ 1 / 100000) ∧
    (∃ r, fs.AddSymmetries t [Symmetry.Rotate72] = some r ∧
      r.functions.length = fs.functions.length + 4 ∧
      (r.functions.drop fs.functions.length).map Prod.fst
        = List.replicate 4 (FloatVal.finite (13421773 / 67108864)) ∧
      (r.functions.drop fs.functions.length).map Prod.snd
        = MakeSymmetryFunction t Symmetry.Rotate72 ∧
      |r.totalProbability - 1| ≤ 1 / 100000) := by
  refine ⟨⟨?_, ?_⟩, ?_, ?_⟩
  · rintro ⟨r, hr⟩
    by_contra hk
    rw [AddSymmetries_overflow t fs kinds (by omega)] at hr
    exact absurd hr (by simp)
  · intro hk
    obtain ⟨r, _, hr, _⟩ := AddSymmetries_bounds t fs kinds hne hlen hw hk
    exact ⟨r, hr⟩
  · intro r hr
    have hk : 1 + (kinds.map symmetryCount).sum < 2 ^ 31 := by
      by_contra hk
      rw [AddSymmetries_overflow t fs kinds (by omega)] at hr
      exact absurd hr (by simp)
    obtain ⟨r2, _, hr2, h1, _, _, h2⟩ := AddSymmetries_bounds t fs kinds hne hlen hw hk
    rw [hr2] at hr
    have e : r2 = r := Option.some.inj hr
    subst e
    exact ⟨h1, h2⟩
  · obtain ⟨r, gv, hr, h1, h2, h3, h4⟩ := AddSymmetries_bounds t fs [Symmetry.Rotate72] hne hlen
      hw (by decide)
    have hg : (FloatVal.finite 1).div
        (roundF32 ((1 + ([Symmetry.Rotate72].map symmetryCount).sum : Nat) : ℚ))
        = FloatVal.finite (13421773 / 67108864) := by decide!
    rw [hg] at h3
    have hgv : gv = 13421773 / 67108864 := (FloatVal.finite.inj h3).symm
    subst hgv
    have hlen2 : r.functions.length = fs.functions.length + 4 := by
      have := congrArg List.length h1
      simp only [List.length_map, List.length_append] at this
      rw [this]
      rfl
    refine ⟨r, hr, hlen2, h2, ?_, h4⟩
    have := congrArg (List.drop fs.functions.length) h1
    rw [← List.map_drop] at this
    rw [this, List.drop_append_eq_append_drop, List.drop_of_length_le (by simp)]
    simp

/-- Witness for C5: the set with probabilities 1/4 and 3/4 with the kinds Rotate72 and
MirrorX, and with the kind Rotate72 alone. -/
theorem AddSymmetries_sum_one_witness :
    sampleSetQuarter.functions ≠ [] ∧ sampleSetQuarter.functions.length ≤ 64 ∧
    sampleSetQuarter.WeightsIn (1 / 4294967296) 4294967296 ∧
    (∀ r, sampleSetQuarter.AddSymmetries sampleTrig [Symmetry.Rotate72, Symmetry.MirrorX]
        = some r →
      r.functions.map Prod.snd
          = sampleSetQuarter.functions.map Prod.snd
            ++ [Symmetry.Rotate72, Symmetry.MirrorX].flatMap (MakeSymmetryFunction sampleTrig) ∧
        |r.totalProbability - 1| ≤ 1 / 100000) ∧
    (sampleSetQuarter.AddSymmetries sampleTrig [Symmetry.Rotate72]).map
        (fun r => r.functions.map Prod.fst)
      = some [FloatVal.finite (13421773 / 268435456), FloatVal.finite (5033165 / 33554432),
          FloatVal.finite (13421773 / 67108864), FloatVal.finite (13421773 / 67108864),
          FloatVal.finite (13421773 / 67108864), FloatVal.finite (13421773 / 67108864)] :=
  ⟨List.cons_ne_nil _ _, by decide, by decide!,
    (AddSymmetries_sum_one sampleTrig sampleSetQuarter [Symmetry.Rotate72, Symmetry.MirrorX]
      (List.cons_ne_nil _ _) (by decide) (by decide!)).2.1,
    by
      rw [AddSymmetries_functions sampleTrig sampleSetQuarter [Symmetry.Rotate72] (by decide)]
      decide!⟩

/-- C5 (as stated) fails in `float` arithmetic.  On the normalized set of one function of
probability 1, `AddSymmetries( {Rotate72} )` gives each of the five functions the `float`
value of `1.f / 5`, which is `13421773/67108864` and not `1/5`, and their exact sum is
`1 + 2^-26`, not 1.  And on a normalized set of 402 functions (exact sum 1), with no symmetry
kind requested, the exact sum of the resulting probabilities is more than `1e-5` above 1. -/
theorem AddSymmetries_sum_not_one :
    (sampleSetSingle.totalProbability = 1 ∧
      (sampleSetSingle.AddSymmetries sampleTrig [Symmetry.Rotate72]).map
          (fun r => r.functions.map Prod.fst)
        = some (List.replicate 5 (FloatVal.finite (13421773 / 67108864))) ∧
      (13421773 / 67108864 : ℚ) ≠ 1 / 5 ∧
      (sampleSetSingle.AddSymmetries sampleTrig [Symmetry.Rotate72]).map
          (fun r => r.totalProbability)
        = some (1 + 1 / 67108864)) ∧
    (sampleSetNormalized.functions.length = 402 ∧
      sampleSetNormalized.totalProbability = 1 ∧
      (∀ p ∈ sampleSetNormalized.functions, (FloatVal.finite 0).lt p.1 = true ∧ p.1.IsF32) ∧
      (sampleSetNormalized.AddSymmetries sampleTrig []).map (fun r => r.totalProbability)
        = some (4398098940529 / 4398046511104) ∧
      (1 : ℚ) + 1 / 100000 < 4398098940529 / 4398046511104) := by
  refine ⟨⟨by decide!, ?_, by norm_num, ?_⟩, by decide!, by decide!, by decide!, ?_,
    by norm_num⟩
  · rw [AddSymmetries_functions sampleTrig sampleSetSingle [Symmetry.Rotate72] (by decide)]
    decide!
  · rw [AddSymmetries_functions sampleTrig sampleSetSingle [Symmetry.Rotate72] (by decide)]
    decide!
  · rw [AddSymmetries_functions sampleTrig sampleSetNormalized [] (by decide)]
    decide!

theorem MakeRotationFunction_eq (t : Trig) (θ : ℚ) :
    MakeRotationFunction t θ = pureLinear (rotationCoefficients t θ) := rfl

theorem rotationAngle_ne_zero (N i : Nat) (hN : 0 < N) (hi : 0 < i) : rotationAngle N i ≠ 0 := by
  unfold rotationAngle Pi
  have h1 : (0 : ℚ) < (N : ℚ) := by exact_mod_cast hN
  have h2 : (0 : ℚ) < (i : ℚ) := by exact_mod_cast hi
  positivity

/-- C7: `MakeSymmetryFunction( kind )` returns exactly `k` pure-linear functions of weight 1,
`k` being 1 for MirrorX, MirrorY and Rotate180, 2 for Rotate120, 3 for Rotate90, 4 for Rotate72
and 5 for Rotate60, the same `k` that `AddSymmetries` counts for the kind; Mirror-X has the
coefficients (1,0,0, 0,-1,0), Mirror-Y (-1,0,0, 0,1,0), and an `N`-fold rotation kind yields
the `N-1` rotations (cos θ, -sin θ, 0, sin θ, cos θ, 0) at the angles `2·Pi·i/N`, `i = 1..N-1`
in increasing `i`, none of them the angle 0. -/
theorem MakeSymmetryFunction_spec (t : Trig) (kind : Symmetry) :
    (MakeSymmetryFunction t kind).length = symmetryCount kind ∧
    (∀ base, symmetryStep base kind = base + symmetryCount kind) ∧
    (∀ f ∈ MakeSymmetryFunction t kind, ∃ c, f = pureLinear c) ∧
    MakeSymmetryFunction t Symmetry.MirrorX = [pureLinear ⟨1, 0, 0, 0, -1, 0⟩] ∧
    MakeSymmetryFunction t Symmetry.MirrorY = [pureLinear ⟨-1, 0, 0, 0, 1, 0⟩] ∧
    (∀ N, rotationOrder kind = some N →
      symmetryCount kind = N - 1 ∧
      MakeSymmetryFunction t kind
        = (List.range' 1 (N - 1)).map
            (fun i => pureLinear (rotationCoefficients t (rotationAngle N i))) ∧
      ∀ i ∈ List.range' 1 (N - 1), rotationAngle N i ≠ 0) := by
  refine ⟨MakeSymmetryFunction_length t kind, ?_, ?_, rfl, rfl, ?_⟩
  · intro base
    cases kind <;> simp [symmetryStep, symmetryCount]
  · have hx : MakeSymmetryMirrorX = pureLinear ⟨1, 0, 0, 0, -1, 0⟩ := rfl
    have hy : MakeSymmetryMirrorY = pureLinear ⟨-1, 0, 0, 0, 1, 0⟩ := rfl
    intro f hf
    cases kind <;>
      simp only [MakeSymmetryFunction, MakeRotationFunction_eq, hx, hy, List.mem_cons,
        List.mem_singleton, List.not_mem_nil, or_false] at hf <;>
      (repeat' (rcases hf with hf | hf)) <;> exact ⟨_, rfl⟩
  · intro N hN
    have hangles : ∀ i ∈ List.range' 1 (N - 1), rotationAngle N i ≠ 0 := by
      intro i hi
      have := List.mem_range'_1.mp hi
      exact rotationAngle_ne_zero N i (by omega) (by omega)
    refine ⟨?_, ?_, hangles⟩
    · cases kind <;> simp [rotationOrder] at hN <;> subst hN <;> rfl
    · cases kind <;> simp [rotationOrder] at hN <;> subst hN <;>
        simp only [MakeSymmetryFunction, MakeRotationFunction_eq, List.range', List.map_cons,
          List.map_nil, Nat.reduceAdd, Nat.reduceSub] <;>
        norm_num [rotationAngle, Pi]


theorem and_mask_ne_zero_iff (s v : Nat) (hv : v < 2 ^ (2 * s)) :
    v &&& (2 ^ s * (2 ^ s - 1)) ≠ 0 ↔ 2 ^ s ≤ v := by
  constructor
  · intro h
    by_contra hlt
    apply h
    apply Nat.eq_of_testBit_eq
    intro j
    rw [Nat.testBit_and, Nat.testBit_mul_pow_two, Nat.zero_testBit]
    by_cases hj : s ≤ j
    · have : v < 2 ^ j :=
        lt_of_lt_of_le (Nat.lt_of_not_le hlt) (Nat.pow_le_pow_right (by norm_num) hj)
      rw [Nat.testBit_lt_two_pow this]
      rfl
    · simp [hj]
  · intro h
    obtain ⟨j, hj, hbit⟩ := Nat.ge_two_pow_implies_high_bit_true h
    have hj2 : j < 2 * s := by
      by_contra hge
      have : v < 2 ^ j :=
        lt_of_lt_of_le hv (Nat.pow_le_pow_right (by norm_num) (Nat.le_of_not_lt hge))
      rw [Nat.testBit_lt_two_pow this] at hbit
      exact Bool.false_ne_true hbit
    intro hzero
    have hb : (v &&& (2 ^ s * (2 ^ s - 1))).testBit j = true := by
      rw [Nat.testBit_and, Nat.testBit_mul_pow_two, Nat.testBit_two_pow_sub_one, hbit]
      simp
      omega
    rw [hzero, Nat.zero_testBit] at hb
    exact Bool.false_ne_true hb

theorem FastLog2.step_eq (i s : Nat) (hS : FastLog2.S.getD i 0 = s)
    (hb : FastLog2.b.getD i 0 = 2 ^ s * (2 ^ s - 1)) (v r : Nat) (hv : v < 2 ^ (2 * s)) :
    FastLog2.step (v, r) i = if 2 ^ s ≤ v then (v / 2 ^ s, r ||| s) else (v, r) := by
  unfold FastLog2.step
  simp only [hS, hb, Nat.shiftRight_eq_div_pow]
  by_cases h : 2 ^ s ≤ v
  · rw [if_pos ((and_mask_ne_zero_iff s v hv).mpr h), if_pos h]
  · rw [if_neg (fun hne => h ((and_mask_ne_zero_iff s v hv).mp hne)), if_neg h]

theorem FastLog2.step_inv (x i s : Nat) (hS : FastLog2.S.getD i 0 = s)
    (hb : FastLog2.b.getD i 0 = 2 ^ s * (2 ^ s - 1))
    (hor : ∀ r, r < 32 → r % (2 * s) = 0 →
      r ||| s = r + s ∧ r + s < 32 ∧ (r + s) % s = 0 ∧ r % s = 0)
    (st : Nat × Nat)
    (h : 1 ≤ st.1 ∧ st.1 < 2 ^ (2 * s) ∧ x / 2 ^ st.2 = st.1 ∧ st.2 % (2 * s) = 0 ∧ st.2 < 32) :
    1 ≤ (FastLog2.step st i).1 ∧ (FastLog2.step st i).1 < 2 ^ s ∧
      x / 2 ^ (FastLog2.step st i).2 = (FastLog2.step st i).1 ∧
      (FastLog2.step st i).2 % s = 0 ∧ (FastLog2.step st i).2 < 32 := by
  obtain ⟨v, r⟩ := st
  obtain ⟨h1, hv, hx, hr, hr32⟩ := h
  simp only at h1 hv hx hr hr32
  obtain ⟨o1, o2, o3, o4⟩ := hor r hr32 hr
  rw [FastLog2.step_eq i s hS hb v r hv]
  have hpos : 0 < 2 ^ s := Nat.pow_pos (by norm_num)
  by_cases c : 2 ^ s ≤ v
  · rw [if_pos c]
    refine ⟨Nat.div_pos c hpos, ?_, ?_, ?_, ?_⟩
    · apply (Nat.div_lt_iff_lt_mul hpos).mpr
      have : 2 ^ (2 * s) = 2 ^ s * 2 ^ s := by rw [two_mul, pow_add]
      rw [← this]; exact hv
    · show x / 2 ^ (r ||| s) = v / 2 ^ s
      rw [o1, pow_add, ← Nat.div_div_eq_div_mul, hx]
    · show (r ||| s) % s = 0
      rw [o1]; exact o3
    · show (r ||| s) < 32
      rw [o1]; exact o2
  · rw [if_neg c]
    exact ⟨h1, Nat.lt_of_not_le c, hx, o4, hr32⟩

theorem FastLog2_bounds (x : Nat) (h1 : 1 ≤ x) (h32 : x < 2 ^ 32) :
    2 ^ FastLog2 x ≤ x ∧ x < 2 ^ (FastLog2 x + 1) := by
  have i4 := FastLog2.step_inv x 4 16 rfl (by decide) (by decide) (x, 0)
    ⟨h1, h32, by simp, by simp, by simp⟩
  have i3 := FastLog2.step_inv x 3 8 rfl (by decide) (by decide) _ i4
  have i2 := FastLog2.step_inv x 2 4 rfl (by decide) (by decide) _ i3
  have i1 := FastLog2.step_inv x 1 2 rfl (by decide) (by decide) _ i2
  have i0 := FastLog2.step_inv x 0 1 rfl (by decide) (by decide) _ i1
  have hdef : FastLog2 x
      = (FastLog2.step (FastLog2.step (FastLog2.step (FastLog2.step
          (FastLog2.step (x, 0) 4) 3) 2) 1) 0).2 := rfl
  rw [hdef]
  generalize (FastLog2.step (FastLog2.step (FastLog2.step (FastLog2.step
          (FastLog2.step (x, 0) 4) 3) 2) 1) 0) = st at i0
  obtain ⟨a1, a2, a3, _, _⟩ := i0
  have hv : st.1 = 1 := by omega
  rw [hv] at a3
  have hpos : 0 < 2 ^ st.2 := Nat.pow_pos (by norm_num)
  constructor
  · have := (Nat.le_div_iff_mul_le hpos).mp (le_of_eq a3.symm)
    simpa using this
  · have := (Nat.div_lt_iff_lt_mul hpos).mp (lt_of_le_of_lt (le_of_eq a3) (by norm_num : 1 < 2))
    rw [pow_succ]; omega

theorem FastLog2_zero : FastLog2 0 = 0 := by decide

/-- Witness for C7: the 5-fold kind Rotate72 yields the four rotations at `2·Pi·i/5`,
`i = 1, 2, 3, 4`. -/
theorem MakeSymmetryFunction_spec_witness :
    rotationOrder Symmetry.Rotate72 = some 5 ∧
    MakeSymmetryFunction sampleTrig Symmetry.Rotate72
      = [pureLinear (rotationCoefficients sampleTrig (rotationAngle 5 1)),
         pureLinear (rotationCoefficients sampleTrig (rotationAngle 5 2)),
         pureLinear (rotationCoefficients sampleTrig (rotationAngle 5 3)),
         pureLinear (rotationCoefficients sampleTrig (rotationAngle 5 4))] :=
  ⟨rfl, ((MakeSymmetryFunction_spec sampleTrig Symmetry.Rotate72).2.2.2.2.2 5 rfl).2.1⟩

/-- C8: `FastLog2( 0 )` is 0, and for every 32-bit `x` with `1 ≤ x ≤ 2^32 - 1`,
`FastLog2( x )` is `floor(log2(x))`: the `r` with `2^r ≤ x < 2^(r+1)`. -/
theorem FastLog2_floor_log2 (x : Nat) (h1 : 1 ≤ x) (h32 : x < 2 ^ 32) :
    FastLog2 0 = 0 ∧ FastLog2 x = Nat.log 2 x ∧
      2 ^ FastLog2 x ≤ x ∧ x < 2 ^ (FastLog2 x + 1) := by
  obtain ⟨hlo, hhi⟩ := FastLog2_bounds x h1 h32
  refine ⟨FastLog2_zero, ?_, hlo, hhi⟩
  symm
  by_cases hz : FastLog2 x = 0
  · rw [hz] at hhi ⊢
    exact Nat.log_of_lt (by simpa using hhi)
  · exact (Nat.log_eq_iff (Or.inl hz)).mpr ⟨hlo, hhi⟩

/-- Witness for C8: `x = 2^32 - 1`, the largest argument. -/
theorem FastLog2_floor_log2_witness :
    1 ≤ 4294967295 ∧ 4294967295 < 2 ^ 32 ∧
    FastLog2 0 = 0 ∧ FastLog2 4294967295 = Nat.log 2 4294967295 ∧
      2 ^ FastLog2 4294967295 ≤ 4294967295 ∧ 4294967295 < 2 ^ (FastLog2 4294967295 + 1) :=
  ⟨by decide, by decide, FastLog2_floor_log2 4294967295 (by decide) (by decide)⟩

theorem Histogram.CopyTo_ok (A B : Histogram) (hA : A.WF) (hB : B.WF)
    (hw : A.width = B.width) (hh : A.height = B.height) :
    A.CopyTo B = (Outcome.ok, A) := by
  have hlB : B.entries.length = A.width * A.height := by rw [hB.1, hw, hh]
  have h1 : A.entries.take (A.width * A.height) = A.entries := by
    rw [← hA.1]; exact List.take_length _
  have h2 : B.entries.drop (A.width * A.height) = [] := by
    rw [← hlB]; exact List.drop_length _
  unfold Histogram.CopyTo
  rw [if_neg (by simp [hw, hh]), h1, h2, List.append_nil]
  cases A; cases B
  simp only at hw hh
  subst hw hh
  rfl

/-- C9: for histograms `A` and `B` of identical dimensions, `A.CopyTo( B )` succeeds and makes
every entry of `B` equal to the corresponding entry of `A` (`A` is `const` and is not
touched), and copying back with `B.CopyTo( A )` reproduces the original `A` entry for entry:
count, colour and padding. -/
theorem CopyTo_roundtrip (A B : Histogram) (hA : A.WF) (hB : B.WF)
    (hw : A.width = B.width) (hh : A.height = B.height) :
    (A.CopyTo B).1 = Outcome.ok ∧
    (A.CopyTo B).2.entries = A.entries ∧
    (A.CopyTo B).2.width = B.width ∧ (A.CopyTo B).2.height = B.height ∧
    (∀ idx, (A.CopyTo B).2.get idx = A.get idx) ∧
    ((A.CopyTo B).2.CopyTo A).1 = Outcome.ok ∧
    ((A.CopyTo B).2.CopyTo A).2 = A := by
  have h1 := Histogram.CopyTo_ok A B hA hB hw hh
  have h2 := Histogram.CopyTo_ok A A hA hA rfl rfl
  rw [h1]
  refine ⟨rfl, rfl, hw, hh, fun _ => rfl, ?_, ?_⟩ <;> simp only [h2]

/-- Witness for C9: two 2×1 histograms. -/
theorem CopyTo_roundtrip_witness :
    (Histogram.mk 2 1 [⟨5, ⟨200, 100, 0⟩, 7⟩, ⟨0, ⟨1, 2, 3⟩, 0⟩]).WF ∧
    (Histogram.mk 2 1 [⟨9, ⟨0, 0, 0⟩, 0⟩, ⟨4, ⟨255, 255, 255⟩, 1⟩]).WF ∧
    (((Histogram.mk 2 1 [⟨5, ⟨200, 100, 0⟩, 7⟩, ⟨0, ⟨1, 2, 3⟩, 0⟩]).CopyTo
        (Histogram.mk 2 1 [⟨9, ⟨0, 0, 0⟩, 0⟩, ⟨4, ⟨255, 255, 255⟩, 1⟩])).2.CopyTo
      (Histogram.mk 2 1 [⟨5, ⟨200, 100, 0⟩, 7⟩, ⟨0, ⟨1, 2, 3⟩, 0⟩])).2
      = Histogram.mk 2 1 [⟨5, ⟨200, 100, 0⟩, 7⟩, ⟨0, ⟨1, 2, 3⟩, 0⟩] :=
  ⟨by decide, by decide,
    (CopyTo_roundtrip ⟨2, 1, [⟨5, ⟨200, 100, 0⟩, 7⟩, ⟨0, ⟨1, 2, 3⟩, 0⟩]⟩
      ⟨2, 1, [⟨9, ⟨0, 0, 0⟩, 0⟩, ⟨4, ⟨255, 255, 255⟩, 1⟩]⟩
      (by decide) (by decide) rfl rfl).2.2.2.2.2.2⟩

/-- C10: `CopyTo`, and with it `TakeSnapshot`, throws if and only if the target's width or
height differs from the source's, and when it throws the target is left as it was (the
source is `const` in both). -/
theorem CopyTo_throws_iff (A B : Histogram) (calc0 : FlameCalculator) :
    ((∃ msg, (A.CopyTo B).1 = Outcome.thrown msg) ↔
        (B.width ≠ A.width ∨ B.height ≠ A.height)) ∧
    ((A.CopyTo B).1 = Outcome.ok ↔ (B.width = A.width ∧ B.height = A.height)) ∧
    ((∃ msg, (A.CopyTo B).1 = Outcome.thrown msg) → (A.CopyTo B).2 = B) ∧
    ((∃ msg, (calc0.TakeSnapshot B).1 = Outcome.thrown msg) ↔
        (B.width ≠ calc0.histogram.width ∨ B.height ≠ calc0.histogram.height)) ∧
    ((∃ msg, (calc0.TakeSnapshot B).1 = Outcome.thrown msg) →
        (calc0.TakeSnapshot B).2 = B) := by
  have key : ∀ X Y : Histogram,
      ((∃ msg, (X.CopyTo Y).1 = Outcome.thrown msg) ↔
          (Y.width ≠ X.width ∨ Y.height ≠ X.height)) ∧
      ((X.CopyTo Y).1 = Outcome.ok ↔ (Y.width = X.width ∧ Y.height = X.height)) ∧
      ((∃ msg, (X.CopyTo Y).1 = Outcome.thrown msg) → (X.CopyTo Y).2 = Y) := by
    intro X Y
    unfold Histogram.CopyTo
    by_cases h : X.width ≠ Y.width ∨ X.height ≠ Y.height
    · rw [if_pos h]
      refine ⟨⟨fun _ => ?_, fun _ => ⟨_, rfl⟩⟩, ⟨fun hk => by simp at hk, fun hk => ?_⟩,
        fun _ => rfl⟩
      · rcases h with h | h
        · exact Or.inl (Ne.symm h)
        · exact Or.inr (Ne.symm h)
      · rcases h with h | h
        · exact absurd hk.1.symm h
        · exact absurd hk.2.symm h
    · rw [if_neg h]
      have h' : X.width = Y.width ∧ X.height = Y.height := by
        constructor <;> by_contra hc
        · exact h (Or.inl hc)
        · exact h (Or.inr hc)
      refine ⟨⟨fun ⟨_, hm⟩ => by simp at hm, fun hk => ?_⟩, ⟨fun _ => ⟨h'.1.symm, h'.2.symm⟩,
        fun _ => rfl⟩, fun ⟨_, hm⟩ => by simp at hm⟩
      rcases hk with hk | hk
      · exact absurd h'.1.symm hk
      · exact absurd h'.2.symm hk
  exact ⟨(key A B).1, (key A B).2.1, (key A B).2.2, (key calc0.histogram B).1,
    (key calc0.histogram B).2.2⟩

/-- Witness for C10: copying a 2×1 histogram into a 1×1 histogram throws and leaves the
target as it was. -/
theorem CopyTo_throws_iff_witness :
    ((Histogram.new 2 1).CopyTo (Histogram.new 1 1)).1 = Outcome.thrown "Size mismatch!" ∧
    ((Histogram.new 2 1).CopyTo (Histogram.new 1 1)).2 = Histogram.new 1 1 :=
  ⟨by decide,
    (CopyTo_throws_iff (Histogram.new 2 1) (Histogram.new 1 1)
      (FlameCalculator.new ⟨[]⟩ 1 1 1)).2.2.1 ⟨"Size mismatch!", by decide⟩⟩

/-- C11 (the code at the failing inputs): `MergeHistograms` has no size check.  With a 2×1
accumulator and a 1×1 second histogram it merges the one cell the second one has and returns
normally; with a 1×2 accumulator and a 2×1 second histogram it merges both cells. -/
theorem MergeHistograms_mismatch_merges :
    MergeHistograms
        [⟨2, 1, [⟨5, ⟨10, 20, 30⟩, 0⟩, ⟨6, ⟨1, 2, 3⟩, 0⟩]⟩, ⟨1, 1, [⟨7, ⟨30, 40, 50⟩, 0⟩]⟩]
      = some [⟨2, 1, [⟨12, ⟨20, 30, 40⟩, 0⟩, ⟨6, ⟨1, 2, 3⟩, 0⟩]⟩,
          ⟨1, 1, [⟨7, ⟨30, 40, 50⟩, 0⟩]⟩] ∧
    MergeHistograms
        [⟨1, 2, [⟨5, ⟨10, 20, 30⟩, 0⟩, ⟨6, ⟨0, 0, 0⟩, 0⟩]⟩,
          ⟨2, 1, [⟨7, ⟨30, 40, 50⟩, 0⟩, ⟨1, ⟨0, 0, 0⟩, 0⟩]⟩]
      = some [⟨1, 2, [⟨12, ⟨20, 30, 40⟩, 0⟩, ⟨7, ⟨0, 0, 0⟩, 0⟩]⟩,
          ⟨2, 1, [⟨7, ⟨30, 40, 50⟩, 0⟩, ⟨1, ⟨0, 0, 0⟩, 0⟩]⟩] := by
  have hb := Color3.BlendWith_half ⟨10, 20, 30⟩ ⟨30, 40, 50⟩ (by decide) (by decide)
  have hz := Color3.BlendWith_half ⟨0, 0, 0⟩ ⟨0, 0, 0⟩ (by decide) (by decide)
  constructor
  · have hr : List.range (1 * 1) = [0] := by decide
    simp only [MergeHistograms, List.foldlM_cons, List.foldlM_nil, mergeFrom, hr, mergeCell,
      List.getElem?_cons_zero, mergeEntry, hb, List.set_cons_zero]
    decide
  · simp only [MergeHistograms, List.foldlM_cons, List.foldlM_nil]
    rw [mergeFrom_eq _ _ (by decide) (by decide)]
    simp only [List.zipWith_cons_cons, List.zipWith_nil_right, mergeEntry, hb, hz]
    decide

theorem Color3.BlendWith_half_comm (bits : Nat) (a b : Color3) :
    a.BlendWith bits b (1 / 2) = b.BlendWith bits a (1 / 2) := by
  have key : ∀ x y : ℚ, x * (1 - 1 / 2) + y * (1 / 2) = y * (1 - 1 / 2) + x * (1 / 2) := by
    intro x y; ring
  simp only [Color3.BlendWith, key (a.r : ℚ), key (a.g : ℚ), key (a.b : ℚ)]

theorem MergeHistograms_three (A B C : Histogram) (hA : A.WF) (hB : B.WF) (hC : C.WF)
    (hBw : B.width = A.width) (hBh : B.height = A.height)
    (hCw : C.width = A.width) (hCh : C.height = A.height) :
    ∃ R, MergeHistograms [A, B, C] = some [R, B, C] ∧
      ∀ idx, idx < A.width * A.height →
        R.get idx = mergeEntry (mergeEntry (A.get idx) (B.get idx)) (C.get idx) := by
  obtain ⟨R, h1, _, _, _, hget⟩ := foldlM_mergeFrom (A.width * A.height) [B, C] A hA.1
    (by
      intro h hm
      simp only [List.mem_cons, List.mem_singleton, List.not_mem_nil, or_false] at hm
      rcases hm with rfl | rfl
      · exact ⟨by rw [hB.1, hBw, hBh], by rw [hBw, hBh]⟩
      · exact ⟨by rw [hC.1, hCw, hCh], by rw [hCw, hCh]⟩)
  exact ⟨R, by simp [MergeHistograms, h1], fun idx hidx => by rw [hget idx hidx]; rfl⟩

theorem mergeEntry_swap (a b c : HistogramEntry) :
    (mergeEntry (mergeEntry a b) c).count = (mergeEntry (mergeEntry b a) c).count ∧
    (mergeEntry (mergeEntry a b) c).color = (mergeEntry (mergeEntry b a) c).color := by
  constructor
  · simp only [mergeEntry, Nat.add_comm a.count b.count]
  · simp only [mergeEntry, Color3.BlendWith_half_comm 8 a.color b.color]

theorem MergeHistograms_swap (A B C : Histogram) (hA : A.WF) (hB : B.WF) (hC : C.WF)
    (hBw : B.width = A.width) (hBh : B.height = A.height)
    (hCw : C.width = A.width) (hCh : C.height = A.height) :
    ∃ R1 R2, MergeHistograms [A, B, C] = some [R1, B, C] ∧
      MergeHistograms [B, A, C] = some [R2, A, C] ∧
      ∀ idx, idx < A.width * A.height →
        (R1.get idx).count = (R2.get idx).count ∧ (R1.get idx).color = (R2.get idx).color := by
  obtain ⟨R1, h1, g1⟩ := MergeHistograms_three A B C hA hB hC hBw hBh hCw hCh
  obtain ⟨R2, h2, g2⟩ := MergeHistograms_three B A C hB hA hC hBw.symm hBh.symm
    (by rw [hCw, hBw]) (by rw [hCh, hBh])
  refine ⟨R1, R2, h1, h2, ?_⟩
  intro idx hidx
  rw [g1 idx hidx, g2 idx (by rw [hBw, hBh]; exact hidx)]
  exact mergeEntry_swap _ _ _


theorem MergeHistograms_three_single (a b c : HistogramEntry) :
    MergeHistograms [⟨1, 1, [a]⟩, ⟨1, 1, [b]⟩, ⟨1, 1, [c]⟩]
      = some [⟨1, 1, [mergeEntry (mergeEntry a b) c]⟩, ⟨1, 1, [b]⟩, ⟨1, 1, [c]⟩] := by
  have e1 := mergeFrom_eq ⟨1, 1, [a]⟩ ⟨1, 1, [b]⟩ rfl rfl
  have e2 := mergeFrom_eq ⟨1, 1, [mergeEntry a b]⟩ ⟨1, 1, [c]⟩ rfl rfl
  simp only [List.zipWith_cons_cons, List.zipWith_nil_right] at e1 e2
  simp only [MergeHistograms, List.foldlM_cons, List.foldlM_nil, e1, Option.bind_eq_bind,
    Option.some_bind, e2]
  rfl

/-- C12 (as amended): for same-sized histograms `A`, `B`, `C`, merging `[B, A, C]` leaves in
`list[0]` the same per-cell counts and also the same per-cell colours as merging `[A, B, C]`
(a blend at ratio 0.5 is symmetric in its two colours); the order matters for the colours
from the third position on: for some `X`, `Y`, `Z` merging `[X, Z, Y]` and `[X, Y, Z]` gives
different colours. -/
theorem MergeHistograms_order (A B C : Histogram) (hA : A.WF) (hB : B.WF) (hC : C.WF)
    (hBw : B.width = A.width) (hBh : B.height = A.height)
    (hCw : C.width = A.width) (hCh : C.height = A.height) :
    (∃ R1 R2, MergeHistograms [A, B, C] = some [R1, B, C] ∧
      MergeHistograms [B, A, C] = some [R2, A, C] ∧
      ∀ idx, idx < A.width * A.height →
        (R1.get idx).count = (R2.get idx).count ∧
        (R1.get idx).color = (R2.get idx).color) ∧
    (∃ X Y Z R1 R2 : Histogram, X.WF ∧ Y.WF ∧ Z.WF ∧
      Y.width = X.width ∧ Y.height = X.height ∧ Z.width = X.width ∧ Z.height = X.height ∧
      MergeHistograms [X, Y, Z] = some [R1, Y, Z] ∧
      MergeHistograms [X, Z, Y] = some [R2, Z, Y] ∧
      (R1.get 0).count = (R2.get 0).count ∧ (R1.get 0).color ≠ (R2.get 0).color) := by
  refine ⟨MergeHistograms_swap A B C hA hB hC hBw hBh hCw hCh, ?_⟩
  have h1 := Color3.BlendWith_half ⟨0, 0, 0⟩ ⟨0, 0, 0⟩ (by decide) (by decide)
  have h2 := Color3.BlendWith_half ⟨0, 0, 0⟩ ⟨255, 0, 0⟩ (by decide) (by decide)
  have h3 := Color3.BlendWith_half ⟨127, 0, 0⟩ ⟨0, 0, 0⟩ (by decide) (by decide)
  refine ⟨⟨1, 1, [⟨1, ⟨0, 0, 0⟩, 0⟩]⟩, ⟨1, 1, [⟨2, ⟨0, 0, 0⟩, 0⟩]⟩,
    ⟨1, 1, [⟨3, ⟨255, 0, 0⟩, 0⟩]⟩, _, _, by decide, by decide, by decide, rfl, rfl, rfl, rfl,
    MergeHistograms_three_single _ _ _, MergeHistograms_three_single _ _ _, ?_, ?_⟩
  · decide
  · simp only [Histogram.get, List.getD_cons_zero, mergeEntry, h1, h2]
    simp only [Nat.reduceAdd, Nat.reduceDiv, h3]
    decide

/-- Witness for C12: three 1×1 histograms. -/
theorem MergeHistograms_order_witness :
    (Histogram.mk 1 1 [⟨5, ⟨200, 100, 0⟩, 0⟩]).WF ∧
    ∃ R1 R2, MergeHistograms
          [⟨1, 1, [⟨5, ⟨200, 100, 0⟩, 0⟩]⟩, ⟨1, 1, [⟨7, ⟨100, 50, 8⟩, 0⟩]⟩,
            ⟨1, 1, [⟨1, ⟨0, 0, 255⟩, 0⟩]⟩]
        = some [R1, ⟨1, 1, [⟨7, ⟨100, 50, 8⟩, 0⟩]⟩, ⟨1, 1, [⟨1, ⟨0, 0, 255⟩, 0⟩]⟩] ∧
      MergeHistograms
          [⟨1, 1, [⟨7, ⟨100, 50, 8⟩, 0⟩]⟩, ⟨1, 1, [⟨5, ⟨200, 100, 0⟩, 0⟩]⟩,
            ⟨1, 1, [⟨1, ⟨0, 0, 255⟩, 0⟩]⟩]
        = some [R2, ⟨1, 1, [⟨5, ⟨200, 100, 0⟩, 0⟩]⟩, ⟨1, 1, [⟨1, ⟨0, 0, 255⟩, 0⟩]⟩] ∧
      ∀ idx, idx < 1 * 1 →
        (R1.get idx).count = (R2.get idx).count ∧ (R1.get idx).color = (R2.get idx).color :=
  ⟨by decide,
    (MergeHistograms_order ⟨1, 1, [⟨5, ⟨200, 100, 0⟩, 0⟩]⟩ ⟨1, 1, [⟨7, ⟨100, 50, 8⟩, 0⟩]⟩
      ⟨1, 1, [⟨1, ⟨0, 0, 255⟩, 0⟩]⟩ (by decide) (by decide) (by decide) rfl rfl rfl rfl).1⟩

/-- C12 (as stated) fails in its second half: there are no same-sized histograms `A`, `B`,
`C` for which merging `[B, A, C]` and merging `[A, B, C]` leave different colours in a
cell. -/
theorem MergeHistograms_swap_same_colours :
    ¬ ∃ (A B C R1 R2 : Histogram) (idx : Nat), A.WF ∧ B.WF ∧ C.WF ∧
      B.width = A.width ∧ B.height = A.height ∧ C.width = A.width ∧ C.height = A.height ∧
      MergeHistograms [A, B, C] = some [R1, B, C] ∧
      MergeHistograms [B, A, C] = some [R2, A, C] ∧
      idx < A.width * A.height ∧ (R1.get idx).color ≠ (R2.get idx).color := by
  rintro ⟨A, B, C, R1, R2, idx, hA, hB, hC, hBw, hBh, hCw, hCh, h1, h2, hidx, hne⟩
  obtain ⟨S1, S2, e1, e2, hsame⟩ := MergeHistograms_swap A B C hA hB hC hBw hBh hCw hCh
  rw [e1] at h1
  rw [e2] at h2
  have r1 : S1 = R1 := by
    have := Option.some.inj h1
    exact (List.cons.inj this).1
  have r2 : S2 = R2 := by
    have := Option.some.inj h2
    exact (List.cons.inj this).1
  subst r1 r2
  exact hne (hsame idx hidx).2


/-! ### Resolve: helper lemmas -/

theorem castToUInt_natCast (bits n : Nat) (hn : n < 2 ^ bits) :
    castToUInt bits (n : ℚ) = n := by
  have h0 : (0 : ℚ) ≤ (n : ℚ) := Nat.cast_nonneg n
  unfold castToUInt
  rw [if_pos h0, Int.floor_natCast]
  have hlt : (n : Int) < (2 : Int) ^ bits := by exact_mod_cast hn
  rw [Int.emod_eq_of_lt (Int.natCast_nonneg n) hlt]
  exact Int.toNat_natCast n

theorem Color3.mul_finite_one (col : Color3) (h : col.WF 8) :
    col.mul 8 (FloatVal.finite 1) = some col := by
  obtain ⟨h1, h2, h3⟩ := h
  have r1 := roundF32_natCast col.r (lt_trans h1 (by norm_num))
  have r2 := roundF32_natCast col.g (lt_trans h2 (by norm_num))
  have r3 := roundF32_natCast col.b (lt_trans h3 (by norm_num))
  simp only [Color3.mul, FloatVal.mul, FloatVal.toUInt, mul_one, r1, r2, r3,
    castToUInt_natCast 8 _ h1, castToUInt_natCast 8 _ h2, castToUInt_natCast 8 _ h3]

theorem collect_map_some {α β : Type} (f : α → Option β) (g : α → β) :
    ∀ l : List α, (∀ a ∈ l, f a = some (g a)) → collect (l.map f) = some (l.map g) := by
  intro l
  induction l with
  | nil => intro _; rfl
  | cons a rest ih =>
    intro h
    have ha := h a (List.mem_cons_self _ _)
    have hr := ih (fun x hx => h x (List.mem_cons_of_mem _ hx))
    simp only [List.map_cons, ha, collect, hr, Option.map_some']

theorem maxCount_uniform (c : Nat) :
    ∀ l : List HistogramEntry, l ≠ [] → (∀ e ∈ l, e.count = c) → maxCount l = some c := by
  intro l hne hall
  cases l with
  | nil => exact absurd rfl hne
  | cons e rest =>
    have he : e.count = c := hall e (List.mem_cons_self _ _)
    have hrest : ∀ x ∈ rest, x.count = c := fun x hx => hall x (List.mem_cons_of_mem _ hx)
    have key : ∀ (r : List HistogramEntry), (∀ x ∈ r, x.count = c) →
        r.foldl (fun m x => if m < x.count then x.count else m) c = c := by
      intro r
      induction r with
      | nil => intro _; rfl
      | cons x r ih =>
        intro hr
        have hx := hr x (List.mem_cons_self _ _)
        simp only [List.foldl_cons, hx, lt_irrefl, if_false]
        exact ih (fun y hy => hr y (List.mem_cons_of_mem _ hy))
    simp only [maxCount, he, key rest hrest]

theorem log2f_of_two_le (lg : Nat → ℚ) (c : Nat) (hc : 2 ≤ c) :
    log2f lg c = FloatVal.finite (lg c) := by
  unfold log2f
  rw [if_neg (by omega), if_neg (by omega)]

theorem cellIntensity_uniform (lg : Nat → ℚ) (c : Nat) (hc : 2 ≤ c) (hlg : lg c ≠ 0) :
    cellIntensity lg (log2f lg c) c = FloatVal.finite 1 := by
  simp only [cellIntensity, log2f_of_two_le lg c hc, FloatVal.div, if_neg hlg,
    div_self hlg, roundF32_one]

theorem collect_eq_none_of_mem {α : Type} :
    ∀ l : List (Option α), none ∈ l → collect l = none := by
  intro l
  induction l with
  | nil => intro h; simp at h
  | cons a rest ih =>
    intro h
    cases a with
    | none => rfl
    | some a =>
      have : none ∈ rest := by simpa using h
      simp only [collect, ih this, Option.map_none']

theorem Color3.mul_nan (col : Color3) : col.mul 8 FloatVal.nan = none := by
  simp [Color3.mul, FloatVal.mul, FloatVal.toUInt]

theorem FastLog2_three : FastLog2 3 = 1 := by decide


theorem sampleLog2_ge_log (n : Nat) (hn : 2 ≤ n) : (Nat.log 2 n : ℚ) ≤ sampleLog2 n := by
  have h1 : 2 ^ Nat.log 2 n ≤ n := Nat.pow_log_le_self 2 (by omega)
  have h3 : (0 : ℚ) ≤ (n : ℚ) - (2 ^ Nat.log 2 n : ℚ) := by
    have : ((2 ^ Nat.log 2 n : Nat) : ℚ) ≤ (n : ℚ) := by exact_mod_cast h1
    push_cast at this
    linarith
  have h4 : (0 : ℚ) < (2 ^ Nat.log 2 n : ℚ) := by positivity
  have h5 : (0 : ℚ) ≤ ((n : ℚ) - (2 ^ Nat.log 2 n : ℚ)) / (2 ^ Nat.log 2 n : ℚ) :=
    div_nonneg h3 (le_of_lt h4)
  unfold sampleLog2
  linarith

theorem sampleLog2_four : sampleLog2 4 = 2 := by
  have hl : Nat.log 2 4 = 2 := by
    have : (4 : Nat) = 2 ^ 2 := by norm_num
    rw [this]
    exact Nat.log_pow (by norm_num) 2
  simp only [sampleLog2, hl]; norm_num

theorem Resolve_SS2_of_log (lg : Nat → ℚ) (H : Histogram) (m : Nat) (L : ℚ)
    (hmax : maxCount H.entries = some m) (hm : 2 ≤ m) (hL : lg m = L) :
    H.Resolve lg 2 = ResolveImpl_SS2 H.entries H.width H.height (FloatVal.finite L) := by
  simp only [Histogram.Resolve, hmax, log2f_of_two_le lg m hm, hL]


/-- C13 (as amended): for every non-empty histogram in which every cell has the same count
`c ≥ 2`, whatever the colours, and for a `log2f` that is positive on counts of 2 and more,
`Resolve` with supersampling 1 applies the identical intensity 1.0 to every cell, and each
output colour equals the cell's stored colour. -/
theorem Resolve_uniform_count (lg : Nat → ℚ) (H : Histogram) (c : Nat) (hWF : H.WF)
    (hne : H.entries ≠ []) (hc : 2 ≤ c) (hall : ∀ e ∈ H.entries, e.count = c)
    (hlg : ∀ n, 2 ≤ n → 0 < lg n) :
    maxCount H.entries = some c ∧
    (∀ e ∈ H.entries, cellIntensity lg (log2f lg c) e.count = FloatVal.finite 1) ∧
    H.Resolve lg 1 = some (H.entries.map (fun e => e.color)) := by
  have hmax := maxCount_uniform c H.entries hne hall
  have hpos := hlg c hc
  have hI : ∀ e ∈ H.entries, cellIntensity lg (log2f lg c) e.count = FloatVal.finite 1 := by
    intro e he
    rw [hall e he]
    exact cellIntensity_uniform lg c hc (ne_of_gt hpos)
  refine ⟨hmax, hI, ?_⟩
  simp only [Histogram.Resolve, hmax, ResolveImpl_SS1]
  apply collect_map_some
  intro e he
  rw [hI e he]
  exact Color3.mul_finite_one e.color (hWF.2 e he).2.1

/-- Witness for C13: a 2×1 histogram with count 4 in both cells, with the sample `log2f`. -/
theorem Resolve_uniform_count_witness :
    (Histogram.mk 2 1 [⟨4, ⟨200, 100, 0⟩, 0⟩, ⟨4, ⟨1, 2, 3⟩, 0⟩]).WF ∧
    (∀ n, 2 ≤ n → 0 < sampleLog2 n) ∧
    (Histogram.mk 2 1 [⟨4, ⟨200, 100, 0⟩, 0⟩, ⟨4, ⟨1, 2, 3⟩, 0⟩]).Resolve sampleLog2 1
      = some [⟨200, 100, 0⟩, ⟨1, 2, 3⟩] :=
  have hlg : ∀ n, 2 ≤ n → 0 < sampleLog2 n := by
    intro n hn
    have h1 : 2 ^ Nat.log 2 n ≤ n := Nat.pow_log_le_self 2 (by omega)
    have h2 : (1 : ℚ) ≤ (Nat.log 2 n : ℚ) := by
      have : 1 ≤ Nat.log 2 n := Nat.log_pos (by norm_num) hn
      exact_mod_cast this
    have h3 : (0 : ℚ) ≤ (n : ℚ) - (2 ^ Nat.log 2 n : ℚ) := by
      have : ((2 ^ Nat.log 2 n : Nat) : ℚ) ≤ (n : ℚ) := by exact_mod_cast h1
      push_cast at this
      linarith
    have h4 : (0 : ℚ) < (2 ^ Nat.log 2 n : ℚ) := by positivity
    have h5 : (0 : ℚ) ≤ ((n : ℚ) - (2 ^ Nat.log 2 n : ℚ)) / (2 ^ Nat.log 2 n : ℚ) :=
      div_nonneg h3 (le_of_lt h4)
    unfold sampleLog2
    linarith
  ⟨by decide, hlg,
    (Resolve_uniform_count sampleLog2 ⟨2, 1, [⟨4, ⟨200, 100, 0⟩, 0⟩, ⟨4, ⟨1, 2, 3⟩, 0⟩]⟩ 4
      (by decide) (List.cons_ne_nil _ _) (by decide) (by decide) hlg).2.2⟩

/-- C13 (as stated) fails in four ways.  When every cell has the count 1, `log2f( 1 )` is 0
and the intensity of supersampling 1 is `0/0`, a NaN, whose conversion to a colour channel is
undefined.  On the 0×0 histogram the maximum does not exist.  With supersampling 2, the count
3 and the colour `(200,0,0)` in every cell of a 2×2 histogram, and `log2f( 3 )` the binary32
value `13295629 / 2^23`, the output pixel is `(124,0,0)`: every cell is scaled by
`FastLog2( 3 ) * (1.f / (4 * log2f( 3 )))`, about 0.158 instead of a quarter.  With
supersampling 3, the count 4 and the colour `(10,20,30)` in every cell of a 3×3 histogram, the
output pixel is `(30,60,90)`: the nine colours are summed and the sum is divided by 3. -/
theorem Resolve_uniform_count_fails :
    (∀ lg : Nat → ℚ,
      cellIntensity lg (log2f lg 1) 1 = FloatVal.nan ∧
      (Histogram.mk 1 1 [⟨1, ⟨10, 20, 30⟩, 0⟩]).Resolve lg 1 = none) ∧
    (∀ lg : Nat → ℚ, (Histogram.new 0 0).Resolve lg 1 = none) ∧
    (sampleHistogramThrees.WF ∧
      ∀ lg : Nat → ℚ, lg 3 = 13295629 / 8388608 →
        sampleHistogramThrees.Resolve lg 2 = some [⟨124, 0, 0⟩]) ∧
    (sampleHistogramFours.WF ∧ sampleLog2 4 = 2 ∧
      sampleHistogramFours.Resolve sampleLog2 3 = some [⟨30, 60, 90⟩]) := by
  refine ⟨?_, fun _ => rfl, ⟨by decide, ?_⟩, by decide, sampleLog2_four, ?_⟩
  · intro lg
    have hI : cellIntensity lg (log2f lg 1) 1 = FloatVal.nan := by
      simp [cellIntensity, log2f, FloatVal.div]
    refine ⟨hI, ?_⟩
    simp only [Histogram.Resolve, maxCount, List.foldl_nil, ResolveImpl_SS1, List.map_cons,
      List.map_nil, hI, Color3.mul_nan, collect]
  · intro lg h3
    rw [Resolve_SS2_of_log lg sampleHistogramThrees 3 _ (by decide) (by norm_num) h3]
    decide!
  · decide!

/-- C14 (the code at the failing inputs): `Resolve` has no special case for `count = 0`.  On
a freshly constructed 1×1 histogram with supersampling 1, `log2f( 0 )` is `-inf`, the
intensity is `-inf / -inf`, a NaN, and its conversion to a colour channel is undefined; with
a cell of count 4 next to a cell of count 0 the intensity of the empty cell is infinite; and
the same happens on a freshly constructed 3×3 histogram with supersampling 3. -/
theorem Resolve_zero_count_not_special_cased :
    (∀ lg : Nat → ℚ,
      log2f lg 0 = FloatVal.negInf ∧
      cellIntensity lg (log2f lg 0) 0 = FloatVal.nan ∧
      (Histogram.new 1 1).Resolve lg 1 = none) ∧
    (∀ lg : Nat → ℚ,
      (∀ q, cellIntensity lg (log2f lg 4) 0 ≠ FloatVal.finite q) ∧
      (Histogram.mk 2 1 [⟨4, ⟨10, 20, 30⟩, 0⟩, ⟨0, ⟨0, 0, 0⟩, 0⟩]).Resolve lg 1 = none) ∧
    (∀ lg : Nat → ℚ, (Histogram.new 3 3).Resolve lg 3 = none) := by
  refine ⟨?_, ?_, ?_⟩
  · intro lg
    have hI : cellIntensity lg (log2f lg 0) 0 = FloatVal.nan := by
      simp [cellIntensity, log2f, FloatVal.div]
    refine ⟨by simp [log2f], hI, ?_⟩
    simp only [Histogram.Resolve, Histogram.new, Nat.mul_one, List.replicate, maxCount,
      List.foldl_nil, HistogramEntry.Blank, ResolveImpl_SS1, List.map_cons, List.map_nil, hI,
      Color3.mul_nan, collect]
  · intro lg
    have hI : cellIntensity lg (log2f lg 4) 0
        = if 0 ≤ lg 4 then FloatVal.negInf else FloatVal.posInf := by
      simp [cellIntensity, log2f, FloatVal.div]
    have hz : (⟨0, 0, 0⟩ : Color3).mul 8 (cellIntensity lg (log2f lg 4) 0) = none := by
      rw [hI]
      split <;> simp [Color3.mul, FloatVal.mul, FloatVal.toUInt]
    constructor
    · intro q
      rw [hI]
      split <;> simp
    · have hm : maxCount [⟨4, ⟨10, 20, 30⟩, 0⟩, ⟨0, ⟨0, 0, 0⟩, 0⟩] = some 4 := by decide
      simp only [Histogram.Resolve, hm, ResolveImpl_SS1]
      apply collect_eq_none_of_mem
      simp only [List.map_cons, List.map_nil, hz]
      simp
  · intro lg
    rfl


/-- C15 (as amended): every channel of `l + r` is the sum of the two operands' channels
reduced modulo `2^w`, `w` being the larger of the two channel widths, so it is the exact sum
exactly when that sum fits in `w` bits; `+=` likewise reduces modulo the width of its left
operand. -/
theorem Color3.add_channels (bitsL bitsR : Nat) (l r : Color3) :
    l.add bitsL bitsR r
      = ⟨(l.r + r.r) % 2 ^ max bitsL bitsR, (l.g + r.g) % 2 ^ max bitsL bitsR,
          (l.b + r.b) % 2 ^ max bitsL bitsR⟩ ∧
    ((l.add bitsL bitsR r).r = l.r + r.r ↔ l.r + r.r < 2 ^ max bitsL bitsR) ∧
    ((l.add bitsL bitsR r).g = l.g + r.g ↔ l.g + r.g < 2 ^ max bitsL bitsR) ∧
    ((l.add bitsL bitsR r).b = l.b + r.b ↔ l.b + r.b < 2 ^ max bitsL bitsR) ∧
    l.addAssign bitsL r
      = ⟨(l.r + r.r) % 2 ^ bitsL, (l.g + r.g) % 2 ^ bitsL, (l.b + r.b) % 2 ^ bitsL⟩ := by
  have key : ∀ s w : Nat, s % 2 ^ w = s ↔ s < 2 ^ w := by
    intro s w
    constructor
    · intro h
      rw [← h]
      exact Nat.mod_lt _ (Nat.pow_pos (by norm_num))
    · exact Nat.mod_eq_of_lt
  exact ⟨rfl, key _ _, key _ _, key _ _, rfl⟩

/-- Witness for C15: an 8-bit colour plus a 16-bit colour, where the sums fit in 16 bits. -/
theorem Color3.add_channels_witness :
    (Color3.add 8 16 ⟨200, 0, 255⟩ ⟨100, 0, 1000⟩).r = 200 + 100 :=
  (Color3.add_channels 8 16 ⟨200, 0, 255⟩ ⟨100, 0, 1000⟩).2.1.mpr (by decide)

/-- C15 (as stated) fails for two 8-bit colours: the red channels 200 and 100 add up to 44,
not to 300. -/
theorem Color3.add_wraps :
    (Color3.mk 200 0 0).WF 8 ∧ (Color3.mk 100 0 0).WF 8 ∧
    Color3.add 8 8 ⟨200, 0, 0⟩ ⟨100, 0, 0⟩ = ⟨44, 0, 0⟩ ∧
    (Color3.add 8 8 ⟨200, 0, 0⟩ ⟨100, 0, 0⟩).r ≠ 200 + 100 := by
  decide


/-! ### FlameFunction::operator() -/

theorem FlameFunction.apply_append (m : VariationMath) (vs : List FuncData) (fd : FuncData)
    (color : Color3) (cp : Bool) (point : Point2f) :
    (FlameFunction.mk (vs ++ [fd]) color cp).apply m point
      = ⟨((FlameFunction.mk vs color cp).apply m point).x
            + FloatVal.finite fd.weight * (fd.func.call m (fd.coefficients.transform point)).x,
          ((FlameFunction.mk vs color cp).apply m point).y
            + FloatVal.finite fd.weight
              * (fd.func.call m (fd.coefficients.transform point)).y⟩ := by
  simp only [FlameFunction.apply, List.foldl_append, List.foldl_cons, List.foldl_nil]

/-- C16 (as amended): `FlameFunction::operator()` returns the sum over the function's
(variation, coefficients, weight) triples, in order, of `weight * variation(X, Y)` with
`X = a·x + b·y + c` and `Y = d·x + e·y + f`, every operation being a `float` operation: a
function with no triples returns `(0, 0)`, and appending a triple adds `weight *
variation(X, Y)` to the result, where `variation(X, Y)` is `(X, Y)` for Linear,
`(X·s, Y·s)` with `s = 1/(X² + Y²)` for Spherical, `(sin X, sin Y)` for Sinusoidal,
`(X·sin r² - Y·cos r², X·cos r² + Y·sin r²)` with `r² = X² + Y²` for Swirl and
`(r·sin(θ·r), -r·cos(θ·r))` with `r = sqrt(X² + Y²)`, `θ = atan(X/Y)` for Heart.  Hence the
single linear variation with identity coefficients and weight 1 returns the point unchanged
when both coordinates are finite. -/
theorem FlameFunction.apply_sum (m : VariationMath) (point : Point2f) :
    (∀ color isColorPreserving,
      (FlameFunction.mk [] color isColorPreserving).apply m point = ⟨0, 0⟩) ∧
    (∀ (vs : List FuncData) (c : Coefficients) (w : ℚ) (color : Color3) (cp : Bool)
        (ret : Point2f) (X Y : FloatVal),
      ret = (FlameFunction.mk vs color cp).apply m point →
      X = point.x * FloatVal.finite c.a + point.y * FloatVal.finite c.b + FloatVal.finite c.c →
      Y = point.x * FloatVal.finite c.d + point.y * FloatVal.finite c.e + FloatVal.finite c.f →
      (FlameFunction.mk (vs ++ [⟨Variation.Linear, c, w⟩]) color cp).apply m point
          = ⟨ret.x + FloatVal.finite w * X, ret.y + FloatVal.finite w * Y⟩ ∧
        (FlameFunction.mk (vs ++ [⟨Variation.Spherical, c, w⟩]) color cp).apply m point
          = ⟨ret.x + FloatVal.finite w * (X * (1 / (X * X + Y * Y))),
              ret.y + FloatVal.finite w * (Y * (1 / (X * X + Y * Y)))⟩ ∧
        (FlameFunction.mk (vs ++ [⟨Variation.Sinusoidal, c, w⟩]) color cp).apply m point
          = ⟨ret.x + FloatVal.finite w * m.sin X, ret.y + FloatVal.finite w * m.sin Y⟩ ∧
        (FlameFunction.mk (vs ++ [⟨Variation.Swirl, c, w⟩]) color cp).apply m point
          = ⟨ret.x + FloatVal.finite w
                * (X * m.sin (X * X + Y * Y) - Y * m.cos (X * X + Y * Y)),
              ret.y + FloatVal.finite w
                * (X * m.cos (X * X + Y * Y) + Y * m.sin (X * X + Y * Y))⟩ ∧
        (FlameFunction.mk (vs ++ [⟨Variation.Heart, c, w⟩]) color cp).apply m point
          = ⟨ret.x + FloatVal.finite w
                * (m.sqrt (X * X + Y * Y) * m.sin (m.atan (X / Y) * m.sqrt (X * X + Y * Y))),
              ret.y + FloatVal.finite w
                * (-m.sqrt (X * X + Y * Y)
                    * m.cos (m.atan (X / Y) * m.sqrt (X * X + Y * Y)))⟩) ∧
    (∀ (x y : ℚ) (color : Color3) (cp : Bool),
      point = ⟨FloatVal.finite x, FloatVal.finite y⟩ →
      roundF32 x = FloatVal.finite x → roundF32 y = FloatVal.finite y →
      (FlameFunction.mk [⟨Variation.Linear, ⟨1, 0, 0, 0, 1, 0⟩, 1⟩] color cp).apply m point
        = point) := by
  refine ⟨fun _ _ => rfl, ?_, ?_⟩
  · intro vs c w color cp ret X Y hret hX hY
    subst hret hX hY
    refine ⟨?_, ?_, ?_, ?_, ?_⟩ <;> rw [FlameFunction.apply_append] <;> rfl
  · intro x y color cp hp hx hy
    subst hp
    simp only [FlameFunction.apply, List.foldl_cons, List.foldl_nil, Variation.call,
      VariationLinear, Coefficients.transform, FloatVal.mul_def, FloatVal.add_def,
      FloatVal.zero_def, FloatVal.mul, FloatVal.add, mul_one, mul_zero, add_zero, zero_add,
      one_mul, roundF32_zero, hx, hy]

/-- Witness for C16: at the point `(1, 2)`, the function of the triples (Linear, shift by 5
in `x`, weight 2) and (Spherical, identity, weight 1) returns `(12 + s, 4 + 2·s)` rounded,
`s` being the `float` value of `1/5`; and the identity function returns `(1/2, -3)`
unchanged. -/
theorem FlameFunction.apply_sum_witness :
    (FlameFunction.mk [⟨Variation.Linear, ⟨1, 0, 5, 0, 1, 0⟩, 2⟩,
        ⟨Variation.Spherical, ⟨1, 0, 0, 0, 1, 0⟩, 1⟩] Color3.zero true).apply
        sampleVariationMath ⟨1, 2⟩
      = ⟨FloatVal.finite (12792627 / 1048576), FloatVal.finite (9227469 / 2097152)⟩ ∧
    roundF32 (1 / 2) = FloatVal.finite (1 / 2) ∧ roundF32 (-3) = FloatVal.finite (-3) ∧
    (FlameFunction.mk [⟨Variation.Linear, ⟨1, 0, 0, 0, 1, 0⟩, 1⟩] Color3.zero true).apply
        sampleVariationMath ⟨FloatVal.finite (1 / 2), FloatVal.finite (-3)⟩
      = ⟨FloatVal.finite (1 / 2), FloatVal.finite (-3)⟩ := by
  refine ⟨?_, by decide!, by decide!, ?_⟩
  · have h := (FlameFunction.apply_sum sampleVariationMath ⟨1, 2⟩).2.1
      [⟨Variation.Linear, ⟨1, 0, 5, 0, 1, 0⟩, 2⟩] ⟨1, 0, 0, 0, 1, 0⟩ 1 Color3.zero true
      _ _ _ rfl rfl rfl
    exact h.2.1.trans (by decide!)
  · exact (FlameFunction.apply_sum sampleVariationMath
      ⟨FloatVal.finite (1 / 2), FloatVal.finite (-3)⟩).2.2 (1 / 2) (-3) Color3.zero true rfl
      (by decide!) (by decide!)

/-- C16 (as stated) fails at a point with an infinite coordinate: the identity function sends
`(5, +inf)` to `(NaN, +inf)`, because `x' = 5·1 + inf·0 + 0` and `inf·0` is a NaN. -/
theorem FlameFunction.apply_identity_infinite :
    (FlameFunction.mk [⟨Variation.Linear, ⟨1, 0, 0, 0, 1, 0⟩, 1⟩] Color3.zero true).apply
        sampleVariationMath ⟨5, FloatVal.posInf⟩
      = ⟨FloatVal.nan, FloatVal.posInf⟩ ∧
    (⟨FloatVal.nan, FloatVal.posInf⟩ : Point2f) ≠ ⟨5, FloatVal.posInf⟩ := by
  refine ⟨by decide!, by decide!⟩

/-- C18: `Start()` on a calculator that is already running throws and leaves the calculator
as it was, still running; `Stop()` on a calculator that is not running changes nothing. -/
theorem Start_running_Stop_idle (self : FlameCalculator) :
    (self.isRunning = true →
      self.Start.1 = Outcome.thrown "Can't start FlameCalculator twice!" ∧
      self.Start.2 = self ∧ self.Start.2.isRunning = true) ∧
    (self.isRunning = false → self.Stop = self) := by
  constructor
  · intro h
    simp only [FlameCalculator.Start, h, if_true, and_self]
  · intro h
    simp only [FlameCalculator.Stop, h, Bool.not_false, if_true]

/-- Witness for C18: a freshly constructed calculator is idle, and after one `Start()` it is
running. -/
theorem Start_running_Stop_idle_witness :
    (FlameCalculator.new sampleSetIdentity 1 1 2).Start.2.isRunning = true ∧
    (FlameCalculator.new sampleSetIdentity 1 1 2).Start.2.Start.1
      = Outcome.thrown "Can't start FlameCalculator twice!" ∧
    (FlameCalculator.new sampleSetIdentity 1 1 2).isRunning = false ∧
    (FlameCalculator.new sampleSetIdentity 1 1 2).Stop
      = FlameCalculator.new sampleSetIdentity 1 1 2 :=
  ⟨rfl,
    ((Start_running_Stop_idle (FlameCalculator.new sampleSetIdentity 1 1 2).Start.2).1 rfl).1,
    rfl,
    (Start_running_Stop_idle (FlameCalculator.new sampleSetIdentity 1 1 2)).2 rfl⟩

theorem FlameCalculator.after_append (calls1 calls2 : List LifecycleCall) :
    ∀ self : FlameCalculator,
      self.after (calls1 ++ calls2) = (self.after calls1).after calls2 := by
  induction calls1 with
  | nil => intro self; rfl
  | cons c rest ih =>
    intro self
    cases c
    · exact ih self.Start.2
    · exact ih self.Stop

theorem FlameCalculator.Start_isRunning (self : FlameCalculator) :
    self.Start.2.isRunning = true := by
  unfold FlameCalculator.Start
  by_cases h : self.isRunning = true
  · rw [if_pos h]; exact h
  · rw [if_neg h]

theorem FlameCalculator.Stop_isRunning (self : FlameCalculator) :
    self.Stop.isRunning = false := by
  unfold FlameCalculator.Stop
  cases h : self.isRunning <;> simp [h]

/-- C19 (as amended): the calculator's lifecycle has two states, idle and running, and no
terminal one: after any sequence of `Start()` / `Stop()` calls it is running if the last call
was `Start()` and idle if the last call was `Stop()`; so `Stop()` on a running calculator
makes it idle, and a later `Start()` succeeds and puts it back into the running state. -/
theorem lifecycle_two_states (self : FlameCalculator) (calls : List LifecycleCall) :
    (self.after (calls ++ [LifecycleCall.start])).isRunning = true ∧
    (self.after (calls ++ [LifecycleCall.stop])).isRunning = false ∧
    self.Stop.isRunning = false ∧
    self.Stop.Start.1 = Outcome.ok ∧
    self.Stop.Start.2.isRunning = true := by
  refine ⟨?_, ?_, FlameCalculator.Stop_isRunning self, ?_,
    FlameCalculator.Start_isRunning _⟩
  · rw [FlameCalculator.after_append]
    exact FlameCalculator.Start_isRunning _
  · rw [FlameCalculator.after_append]
    exact FlameCalculator.Stop_isRunning _
  · simp only [FlameCalculator.Start, FlameCalculator.Stop_isRunning self, Bool.false_eq_true,
      if_false]

/-- C19 (as stated) fails: a calculator that was started and then stopped is running again
after one more `Start()`, which does not throw. -/
theorem lifecycle_restart :
    (FlameCalculator.new sampleSetIdentity 1 1 2).Start.2.isRunning = true ∧
    (FlameCalculator.new sampleSetIdentity 1 1 2).Start.2.Stop.isRunning = false ∧
    (FlameCalculator.new sampleSetIdentity 1 1 2).Start.2.Stop.Start.1 = Outcome.ok ∧
    ((FlameCalculator.new sampleSetIdentity 1 1 2).Start.2.Stop.after
      [LifecycleCall.start]).isRunning = true := by
  exact ⟨rfl, rfl, rfl, rfl⟩

theorem natCast_half_of_even (n : Nat) (h : n % 2 = 0) : ((n / 2 : Nat) : ℚ) = (n : ℚ) / 2 := by
  have hd : 2 ∣ n := Nat.dvd_of_mod_eq_zero h
  rw [Nat.cast_div hd (by norm_num)]
  norm_num

/-- C21 (the code at the failing inputs, and where it agrees): the step multiplies by the
integer quotient `width / 2`.  On a 3×3 histogram the point `(0.9, 0)` goes to the cell
`(1, 1)` where the specification's formula gives `(2, 1)`, and the point `(1.5, 0)`, outside
`[-1,1]²`, goes to the in-range cell `(2, 1)` where the formula gives the out-of-range
`(3, 1)`.  For even width and height the two agree. -/
theorem cellOf_integer_half :
    (cellOf (Histogram.new 3 3) ⟨9 / 10, 0⟩ = (1, 1) ∧
      cellOfSpec 3 3 ⟨9 / 10, 0⟩ = (2, 1)) ∧
    (cellOf (Histogram.new 3 3) ⟨3 / 2, 0⟩ = (2, 1) ∧
      outOfBounds (Histogram.new 3 3) (2, 1) = false ∧
      cellOfSpec 3 3 ⟨3 / 2, 0⟩ = (3, 1) ∧
      outOfBounds (Histogram.new 3 3) (3, 1) = true) ∧
    (∀ (H : Histogram) (point : Point2f), H.width % 2 = 0 → H.height % 2 = 0 →
      cellOf H point = cellOfSpec H.width H.height point) := by
  refine ⟨⟨?_, ?_⟩, ⟨?_, ?_, ?_, ?_⟩, ?_⟩
  · decide!
  · decide!
  · decide!
  · decide
  · decide!
  · decide
  · intro H point hw hh
    simp only [cellOf, cellOfSpec, natCast_half_of_even _ hw, natCast_half_of_even _ hh]

theorem loopValues_two_of_even (n : Nat) (h : n % 2 = 0) :
    loopValues n 2 = (List.range (n / 2)).map (fun k => k * 2) := by
  have e : (n + 2 - 1) / 2 = n / 2 := by omega
  simp only [loopValues, e]

theorem collect_append {α : Type} :
    ∀ (a b : List (Option α)) (a1 b1 : List α), collect a = some a1 → collect b = some b1 →
      collect (a ++ b) = some (a1 ++ b1) := by
  intro a
  induction a with
  | nil =>
    intro b a1 b1 ha hb
    simp only [collect, Option.some.injEq] at ha
    subst ha
    simpa using hb
  | cons x rest ih =>
    intro b a1 b1 ha hb
    cases x with
    | none => simp [collect] at ha
    | some v =>
      simp only [collect, Option.map_eq_some'] at ha
      obtain ⟨r1, hr, rfl⟩ := ha
      have hrec := ih b r1 b1 hr hb
      show Option.map (fun l => v :: l) (collect (rest ++ b)) = some (v :: r1 ++ b1)
      rw [hrec]
      rfl

theorem collect_flatMap {α β : Type} (F : α → List (Option β)) (G : α → List β) :
    ∀ l : List α, (∀ y ∈ l, collect (F y) = some (G y)) →
      collect (l.flatMap F) = some (l.flatMap G) := by
  intro l
  induction l with
  | nil => intro _; rfl
  | cons y rest ih =>
    intro h
    rw [List.flatMap_cons, List.flatMap_cons]
    exact collect_append _ _ _ _ (h y (List.mem_cons_self _ _))
      (ih (fun z hz => h z (List.mem_cons_of_mem _ hz)))

theorem length_flatMap_range_map {β : Type} (b : Nat) (f : Nat → Nat → β) :
    ∀ a : Nat, ((List.range a).flatMap (fun Y => (List.range b).map (f Y))).length = a * b := by
  intro a
  induction a with
  | zero => simp
  | succ a ih =>
    rw [List.range_succ, List.flatMap_append, List.length_append, ih]
    simp [Nat.succ_mul]

theorem getElem?_flatMap_range_map {β : Type} (b : Nat) (f : Nat → Nat → β) :
    ∀ (a Y X : Nat), Y < a → X < b →
      ((List.range a).flatMap (fun Y => (List.range b).map (f Y)))[Y * b + X]?
        = some (f Y X) := by
  intro a
  induction a with
  | zero => intro Y X hY _; omega
  | succ a ih =>
    intro Y X hY hX
    rw [List.range_succ, List.flatMap_append]
    have hlen := length_flatMap_range_map b f a
    by_cases hlt : Y < a
    · have hidx : Y * b + X < a * b := by
        calc Y * b + X < Y * b + b := by omega
          _ = (Y + 1) * b := by ring
          _ ≤ a * b := Nat.mul_le_mul_right _ hlt
      rw [List.getElem?_append_left (by rw [hlen]; exact hidx)]
      exact ih Y X hlt hX
    · have hYa : Y = a := by omega
      subst hYa
      rw [List.getElem?_append_right (by rw [hlen]; omega), hlen]
      simp [hX]

theorem le_of_maxCount :
    ∀ (l : List HistogramEntry) (m : Nat), maxCount l = some m → ∀ e ∈ l, e.count ≤ m := by
  have key : ∀ (r : List HistogramEntry) (init : Nat),
      init ≤ r.foldl (fun m x => if m < x.count then x.count else m) init ∧
      ∀ e ∈ r, e.count ≤ r.foldl (fun m x => if m < x.count then x.count else m) init := by
    intro r
    induction r with
    | nil => intro init; exact ⟨le_refl _, fun e he => by simp at he⟩
    | cons x r ih =>
      intro init
      simp only [List.foldl_cons]
      obtain ⟨h1, h2⟩ := ih (if init < x.count then x.count else init)
      have h3 : init ≤ (if init < x.count then x.count else init) := by split <;> omega
      have h4 : x.count ≤ (if init < x.count then x.count else init) := by split <;> omega
      refine ⟨le_trans h3 h1, ?_⟩
      intro e he
      rcases List.mem_cons.mp he with rfl | he
      · exact le_trans h4 h1
      · exact h2 e he
  intro l m hm e he
  cases l with
  | nil => simp at he
  | cons a rest =>
    simp only [maxCount, Option.some.injEq] at hm
    subst hm
    rcases List.mem_cons.mp he with rfl | he
    · exact (key rest _).1
    · exact (key rest _).2 e he

theorem FastLog2_eq_log (c : Nat) (hc : c < 2 ^ 32) : FastLog2 c = Nat.log 2 c := by
  by_cases h0 : c = 0
  · subst h0
    rw [FastLog2_zero]
    simp
  · obtain ⟨hlo, hhi⟩ := FastLog2_bounds c (by omega) hc
    symm
    by_cases hz : FastLog2 c = 0
    · rw [hz] at hhi ⊢
      exact Nat.log_of_lt (by simpa using hhi)
    · exact (Nat.log_eq_iff (Or.inl hz)).mpr ⟨hlo, hhi⟩


/-! ### Resolve with supersampling 2 -/

theorem roundF32_le_of_le_nearest (x y b : ℚ) (h0 : 0 ≤ x) (hxy : x ≤ y)
    (hy : nearestF32 y = b) (hb : b < (2 : ℚ) ^ (128 : ℕ)) :
    ∃ a, roundF32 x = FloatVal.finite a ∧ 0 ≤ a ∧ a ≤ b := by
  have hm := nearestF32_mono x y h0 hxy
  rw [hy] at hm
  have hnn := nearestF32_nonneg x h0
  refine ⟨nearestF32 x, ?_, hnn, hm⟩
  unfold roundF32
  rw [if_neg]
  rw [abs_of_nonneg hnn, not_le]
  exact lt_of_le_of_lt hm hb

theorem roundF32_ge_of_ge (x a : ℚ) (h0 : 0 ≤ a) (hax : a ≤ x)
    (ha : nearestF32 a = a) :
    roundF32 x = FloatVal.posInf ∨ ∃ b, roundF32 x = FloatVal.finite b ∧ a ≤ b := by
  rcases roundF32_nonneg_cases x (le_trans h0 hax) with h | ⟨h1, _, _⟩
  · left; exact h
  · right
    have hm := nearestF32_mono a x h0 hax
    rw [ha] at hm
    exact ⟨_, h1, hm⟩

theorem FloatVal.four_def : (4 : FloatVal) = FloatVal.finite 4 := by
  show FloatVal.finite ((4 : ℕ) : ℚ) = FloatVal.finite 4
  rw [Nat.cast_ofNat]

theorem factorSS2Float_eq (lg : Nat → ℚ) (m c : Nat) :
    factorSS2Float lg m c = cellIntensitySS2 (scaleFactorSS2 (log2f lg m)) c := by
  unfold factorSS2Float cellIntensitySS2 scaleFactorSS2
  rw [FloatVal.mul_def, FloatVal.div_def, FloatVal.mul_def, FloatVal.one_def, FloatVal.four_def]

theorem nearestF32_natCast_small (k : Nat) (hk : k < 2 ^ 24) :
    nearestF32 (k : ℚ) = (k : ℚ) :=
  nearestF32_eq_of_round _ (roundF32_natCast k hk)

/-- The scale factor `1.f / ( 4 * logMax )` is a finite value between 0 and `1 / 4`, and at
most the `float` nearest to `1 / ( 4 * k )` for every integer `1 ≤ k ≤ logMax` below `2^22`. -/
theorem scaleFactorSS2_bounds (L : ℚ) (hL : 1 ≤ L) :
    ∃ s, scaleFactorSS2 (FloatVal.finite L) = FloatVal.finite s ∧ 0 ≤ s ∧
      ∀ k : Nat, 1 ≤ k → k < 2 ^ 22 → (k : ℚ) ≤ L → s ≤ nearestF32 (1 / (4 * (k : ℚ))) := by
  unfold scaleFactorSS2
  have h4 : nearestF32 (4 : ℚ) = 4 := by
    have := nearestF32_natCast_small 4 (by norm_num)
    simpa using this
  rcases roundF32_ge_of_ge (4 * L) 4 (by norm_num) (by linarith) h4 with h | ⟨d, hd, hd4⟩
  · refine ⟨0, ?_, le_refl _, ?_⟩
    · simp only [FloatVal.mul, h, FloatVal.div]
    · intro k hk1 _ _
      exact nearestF32_nonneg _ (by positivity)
  · have hdpos : 0 < d := by linarith
    have hdne : d ≠ 0 := ne_of_gt hdpos
    have hq : nearestF32 (1 / 4 : ℚ) = 1 / 4 := by decide!
    obtain ⟨s, hs, hs0, _⟩ := roundF32_le_of_le_nearest (1 / d) (1 / 4) (1 / 4)
      (by positivity) (by
        rw [div_le_div_iff₀ hdpos (by norm_num)]
        linarith) hq (by norm_num)
    refine ⟨s, ?_, hs0, ?_⟩
    · simp only [FloatVal.mul, hd, FloatVal.div, if_neg hdne, hs]
    · intro k hk1 hk22 hkL
      have hkpos : (0 : ℚ) < (k : ℚ) := by exact_mod_cast hk1
      have h4k : nearestF32 ((4 * k : ℕ) : ℚ) = ((4 * k : ℕ) : ℚ) :=
        nearestF32_natCast_small (4 * k) (by
          have : (2 : ℕ) ^ 24 = 4 * 2 ^ 22 := by norm_num
          omega)
      have hd4k : (4 : ℚ) * k ≤ d := by
        have hm := nearestF32_mono ((4 * k : ℕ) : ℚ) (4 * L) (by positivity) (by
          push_cast
          linarith)
        rw [h4k] at hm
        have e : nearestF32 (4 * L) = d := by
          rcases roundF32_nonneg_cases (4 * L) (by linarith) with h | ⟨h1, _, _⟩
          · rw [h] at hd; exact absurd hd (by simp)
          · rw [h1] at hd; exact FloatVal.finite.inj hd
        rw [e] at hm
        push_cast at hm
        exact hm
      have e : nearestF32 (1 / d) = s := by
        rcases roundF32_nonneg_cases (1 / d) (by positivity) with h | ⟨h1, _, _⟩
        · rw [h] at hs; exact absurd hs (by simp)
        · rw [h1] at hs; exact FloatVal.finite.inj hs
      rw [← e]
      apply nearestF32_mono _ _ (by positivity)
      rw [div_le_div_iff₀ hdpos (by positivity)]
      linarith


theorem nearestF32_of_roundF32 (x r : ℚ) (h : roundF32 x = FloatVal.finite r) :
    nearestF32 x = r := by
  unfold roundF32 at h
  split at h
  · split at h <;> exact absurd h (by simp)
  · exact FloatVal.finite.inj h

/-- The per-cell factor `FastLog2( count ) * scaleFactor` of a cell whose count is at most the
maximum count is a finite value between 0 and `1 / 4`. -/
theorem cellIntensitySS2_bounds (lg : Nat → ℚ) (m c : Nat) (hm : 2 ≤ m) (hc : c ≤ m)
    (hc32 : c < 2 ^ 32) (hlg : ∀ n, 2 ≤ n → (Nat.log 2 n : ℚ) ≤ lg n) :
    ∃ q, cellIntensitySS2 (scaleFactorSS2 (log2f lg m)) c = FloatVal.finite q ∧ 0 ≤ q ∧
      q ≤ 1 / 4 := by
  have hlogm : 1 ≤ Nat.log 2 m := Nat.log_pos (by norm_num) hm
  have hL : (1 : ℚ) ≤ lg m := by
    have h1 : ((1 : Nat) : ℚ) ≤ (Nat.log 2 m : ℚ) := by exact_mod_cast hlogm
    have := hlg m hm
    push_cast at h1
    linarith
  obtain ⟨s, hs, hs0, hsk⟩ := scaleFactorSS2_bounds (lg m) hL
  rw [log2f_of_two_le lg m hm, hs]
  unfold cellIntensitySS2
  rw [FastLog2_eq_log c hc32]
  have hk31 : Nat.log 2 c < 32 := by
    by_cases h0 : c = 0
    · subst h0; simp
    · exact Nat.log_lt_of_lt_pow h0 hc32
  have hkL : (Nat.log 2 c : ℚ) ≤ lg m := by
    have h1 : Nat.log 2 c ≤ Nat.log 2 m := Nat.log_mono_right hc
    have h2 : (Nat.log 2 c : ℚ) ≤ (Nat.log 2 m : ℚ) := by exact_mod_cast h1
    exact le_trans h2 (hlg m hm)
  have hq : nearestF32 ((1 + 1 / 16777216) / 4 : ℚ) = 1 / 4 := by decide!
  have hle : (Nat.log 2 c : ℚ) * s ≤ (1 + 1 / 16777216) / 4 := by
    by_cases hk0 : Nat.log 2 c = 0
    · rw [hk0]; norm_num
    · have hk1 : 1 ≤ Nat.log 2 c := by omega
      have hkpos : (0 : ℚ) < (Nat.log 2 c : ℚ) := by exact_mod_cast hk1
      have hk32 : (Nat.log 2 c : ℚ) < 32 := by exact_mod_cast hk31
      have h1 := hsk (Nat.log 2 c) hk1 (by
        have : (32 : ℕ) ≤ 2 ^ 22 := by norm_num
        omega) hkL
      have hlow : (2 : ℚ) ^ (-126 : ℤ) ≤ 1 / (4 * (Nat.log 2 c : ℚ)) := by
        have e1 : (2 : ℚ) ^ (-126 : ℤ) ≤ 1 / 128 := by decide!
        refine le_trans e1 ?_
        rw [div_le_div_iff₀ (by norm_num) (by positivity)]
        linarith
      have hhigh : 1 / (4 * (Nat.log 2 c : ℚ)) ≤ (2 : ℚ) ^ (127 : ℕ) := by
        have e1 : (1 : ℚ) ≤ (2 : ℚ) ^ (127 : ℕ) := one_le_pow₀ (by norm_num)
        refine le_trans ?_ e1
        rw [div_le_one (by positivity)]
        have : (1 : ℚ) ≤ (Nat.log 2 c : ℚ) := by exact_mod_cast hk1
        linarith
      obtain ⟨r, hr, _, hr2⟩ := roundF32_rel _ hlow hhigh
      rw [nearestF32_of_roundF32 _ _ hr] at h1
      have h2 : s ≤ 1 / (4 * (Nat.log 2 c : ℚ)) * (1 + 1 / 16777216) := le_trans h1 hr2
      have h3 : (Nat.log 2 c : ℚ) * s
          ≤ (Nat.log 2 c : ℚ) * (1 / (4 * (Nat.log 2 c : ℚ)) * (1 + 1 / 16777216)) :=
        mul_le_mul_of_nonneg_left h2 (le_of_lt hkpos)
      refine le_trans h3 (le_of_eq ?_)
      field_simp
      ring
  obtain ⟨q, hq1, hq0, hq4⟩ := roundF32_le_of_le_nearest ((Nat.log 2 c : ℚ) * s) _ (1 / 4)
    (mul_nonneg (by positivity) hs0) hle hq (by norm_num)
  exact ⟨q, by simp only [FloatVal.mul, hq1], hq0, hq4⟩

theorem castToUInt_le_63 (x : ℚ) (h0 : 0 ≤ x) (h64 : x < 64) : castToUInt 8 x ≤ 63 := by
  unfold castToUInt
  rw [if_pos h0]
  have h1 : 0 ≤ ⌊x⌋ := Int.floor_nonneg.mpr h0
  have h2 : ⌊x⌋ < 64 := Int.floor_lt.mpr (by exact_mod_cast h64)
  have h3 : (2 : Int) ^ 8 = 256 := by norm_num
  rw [h3]
  omega

/-- A channel below 256 times a factor between 0 and `1 / 4` is, as a `float` product narrowed
to 8 bits, at most 63. -/
theorem channel_mul_le_63 (n : Nat) (q : ℚ) (hn : n < 256) (h0 : 0 ≤ q) (h4 : q ≤ 1 / 4) :
    ∃ a, (FloatVal.finite (n : ℚ)).mul (FloatVal.finite q) = FloatVal.finite a ∧
      castToUInt 8 a ≤ 63 := by
  have hq : nearestF32 (255 / 4 : ℚ) = 255 / 4 := by decide!
  have hn1 : (n : ℚ) ≤ 255 := by
    have : n ≤ 255 := by omega
    exact_mod_cast this
  have hle : (n : ℚ) * q ≤ 255 / 4 := by
    have h1 : (n : ℚ) * q ≤ (n : ℚ) * (1 / 4) := mul_le_mul_of_nonneg_left h4 (by positivity)
    linarith
  obtain ⟨a, ha, ha0, ha4⟩ := roundF32_le_of_le_nearest ((n : ℚ) * q) _ (255 / 4)
    (mul_nonneg (by positivity) h0) hle hq (by norm_num)
  exact ⟨a, by simp only [FloatVal.mul, ha], castToUInt_le_63 a ha0 (by linarith)⟩

theorem Color3.mul_scaledColorFloat (col : Color3) (q : ℚ) (hcol : col.WF 8) (h0 : 0 ≤ q)
    (h4 : q ≤ 1 / 4) :
    col.mul 8 (FloatVal.finite q) = some (scaledColorFloat col (FloatVal.finite q)) ∧
      (scaledColorFloat col (FloatVal.finite q)).r ≤ 63 ∧
      (scaledColorFloat col (FloatVal.finite q)).g ≤ 63 ∧
      (scaledColorFloat col (FloatVal.finite q)).b ≤ 63 := by
  obtain ⟨hr, hg, hb⟩ := hcol
  obtain ⟨a, ha, ha63⟩ := channel_mul_le_63 col.r q (by simpa using hr) h0 h4
  obtain ⟨b, hb1, hb63⟩ := channel_mul_le_63 col.g q (by simpa using hg) h0 h4
  obtain ⟨c, hc1, hc63⟩ := channel_mul_le_63 col.b q (by simpa using hb) h0 h4
  simp only [Color3.mul, scaledColorFloat, FloatVal.mul_def, ha, hb1, hc1, FloatVal.toUInt,
    FloatVal.toRat]
  exact ⟨trivial, ha63, hb63, hc63⟩

theorem Color3.add_four (c1 c2 c3 c4 : Color3)
    (h1 : c1.r ≤ 63 ∧ c1.g ≤ 63 ∧ c1.b ≤ 63) (h2 : c2.r ≤ 63 ∧ c2.g ≤ 63 ∧ c2.b ≤ 63)
    (h3 : c3.r ≤ 63 ∧ c3.g ≤ 63 ∧ c3.b ≤ 63) (h4 : c4.r ≤ 63 ∧ c4.g ≤ 63 ∧ c4.b ≤ 63) :
    Color3.add 8 8 (Color3.add 8 8 (Color3.add 8 8 c1 c2) c3) c4
      = ⟨c1.r + c2.r + c3.r + c4.r, c1.g + c2.g + c3.g + c4.g,
          c1.b + c2.b + c3.b + c4.b⟩ := by
  have e : (2 : Nat) ^ max 8 8 = 256 := by norm_num
  simp only [Color3.add, e]
  obtain ⟨a1, a2, a3⟩ := h1
  obtain ⟨b1, b2, b3⟩ := h2
  obtain ⟨d1, d2, d3⟩ := h3
  obtain ⟨e1, e2, e3⟩ := h4
  congr 1 <;> omega

theorem Histogram.getElem?_eq_get (H : Histogram) (idx : Nat) (h : idx < H.entries.length) :
    H.entries[idx]? = some (H.get idx) := by
  simp [Histogram.get, List.getD_eq_getElem?_getD, List.getElem?_eq_getElem h]

theorem Histogram.get_mem (H : Histogram) (idx : Nat) (h : idx < H.entries.length) :
    H.get idx ∈ H.entries := by
  have : H.get idx = H.entries[idx] := by
    simp [Histogram.get, List.getD_eq_getElem?_getD, List.getElem?_eq_getElem h]
  rw [this]
  exact List.getElem_mem _

theorem block_index_lt (w h X Y : Nat) (hw : w % 2 = 0) (hh : h % 2 = 0) (hX : X < w / 2)
    (hY : Y < h / 2) : (2 * Y + 1) * w + (2 * X + 1) < w * h := by
  have h1 : 2 * X + 1 < w := by omega
  have h2 : 2 * Y + 2 ≤ h := by omega
  calc (2 * Y + 1) * w + (2 * X + 1) < (2 * Y + 1) * w + w := by omega
    _ = (2 * Y + 2) * w := by ring
    _ ≤ h * w := Nat.mul_le_mul_right _ h2
    _ = w * h := Nat.mul_comm _ _


theorem cellIntensitySS2_zero_max (lg : Nat → ℚ) (c : Nat) :
    cellIntensitySS2 (scaleFactorSS2 (log2f lg 0)) c = FloatVal.finite 0 := by
  have hsf : scaleFactorSS2 (log2f lg 0) = FloatVal.finite 0 := by
    simp [scaleFactorSS2, log2f, FloatVal.mul, FloatVal.div]
  rw [hsf]
  simp only [cellIntensitySS2, FloatVal.mul, mul_zero, roundF32_zero]

theorem cellIntensitySS2_finite (lg : Nat → ℚ) (m c : Nat) (hm : m ≠ 1) (hc : c ≤ m)
    (hc32 : c < 2 ^ 32) (hlg : ∀ n, 2 ≤ n → (Nat.log 2 n : ℚ) ≤ lg n) :
    ∃ q, cellIntensitySS2 (scaleFactorSS2 (log2f lg m)) c = FloatVal.finite q ∧ 0 ≤ q ∧
      q ≤ 1 / 4 := by
  by_cases h0 : m = 0
  · subst h0
    exact ⟨0, cellIntensitySS2_zero_max lg c, le_refl _, by norm_num⟩
  · exact cellIntensitySS2_bounds lg m c (by omega) hc hc32 hlg

theorem resolveBlockSS2_eq (lg : Nat → ℚ) (H : Histogram) (m X Y : Nat) (hWF : H.WF)
    (hw : H.width % 2 = 0) (hh : H.height % 2 = 0) (hX : X < H.width / 2)
    (hY : Y < H.height / 2) (hmax : maxCount H.entries = some m) (hm : m ≠ 1)
    (hlg : ∀ n, 2 ≤ n → (Nat.log 2 n : ℚ) ≤ lg n) :
    resolveBlockSS2 H.entries H.width (scaleFactorSS2 (log2f lg m)) (Y * 2) (X * 2)
      = some (pixelSS2Float lg H m X Y) := by
  have hlast := block_index_lt H.width H.height X Y hw hh hX hY
  rw [← hWF.1] at hlast
  have i1 : Y * 2 * H.width + X * 2 = 2 * Y * H.width + 2 * X := by ring
  have i2 : Y * 2 * H.width + X * 2 + 1 = 2 * Y * H.width + (2 * X + 1) := by ring
  have i3 : (Y * 2 + 1) * H.width + X * 2 = (2 * Y + 1) * H.width + 2 * X := by ring
  have i4 : (Y * 2 + 1) * H.width + X * 2 + 1 = (2 * Y + 1) * H.width + (2 * X + 1) := by
    ring
  have hstep : 2 * Y * H.width ≤ (2 * Y + 1) * H.width := Nat.mul_le_mul_right _ (by omega)
  have l1 : 2 * Y * H.width + 2 * X < H.entries.length := by omega
  have l2 : 2 * Y * H.width + (2 * X + 1) < H.entries.length := by omega
  have l3 : (2 * Y + 1) * H.width + 2 * X < H.entries.length := by omega
  have hcell : ∀ idx, idx < H.entries.length →
      (H.get idx).color.mul 8
          (cellIntensitySS2 (scaleFactorSS2 (log2f lg m)) (H.get idx).count)
        = some (scaledColorFloat (H.get idx).color (factorSS2Float lg m (H.get idx).count)) ∧
      (scaledColorFloat (H.get idx).color (factorSS2Float lg m (H.get idx).count)).r ≤ 63 ∧
      (scaledColorFloat (H.get idx).color (factorSS2Float lg m (H.get idx).count)).g ≤ 63 ∧
      (scaledColorFloat (H.get idx).color (factorSS2Float lg m (H.get idx).count)).b ≤ 63 := by
    intro idx hidx
    have hmem := H.get_mem idx hidx
    have hwf := hWF.2 _ hmem
    obtain ⟨q, hq, hq0, hq4⟩ := cellIntensitySS2_finite lg m (H.get idx).count hm
      (le_of_maxCount _ _ hmax _ hmem) hwf.1 hlg
    rw [factorSS2Float_eq, hq]
    exact Color3.mul_scaledColorFloat _ q hwf.2.1 hq0 hq4
  have g1 : H.entries[Y * 2 * H.width + X * 2]? = some (H.get (2 * Y * H.width + 2 * X)) := by
    rw [i1]; exact H.getElem?_eq_get _ l1
  have g2 : H.entries[Y * 2 * H.width + X * 2 + 1]?
      = some (H.get (2 * Y * H.width + (2 * X + 1))) := by
    rw [i2]; exact H.getElem?_eq_get _ l2
  have g3 : H.entries[(Y * 2 + 1) * H.width + X * 2]?
      = some (H.get ((2 * Y + 1) * H.width + 2 * X)) := by
    rw [i3]; exact H.getElem?_eq_get _ l3
  have g4 : H.entries[(Y * 2 + 1) * H.width + X * 2 + 1]?
      = some (H.get ((2 * Y + 1) * H.width + (2 * X + 1))) := by
    rw [i4]; exact H.getElem?_eq_get _ hlast
  simp only [resolveBlockSS2, g1, g2, g3, g4, (hcell _ l1).1, (hcell _ l2).1,
    (hcell _ l3).1, (hcell _ hlast).1]
  rw [Color3.add_four _ _ _ _ (hcell _ l1).2 (hcell _ l2).2 (hcell _ l3).2 (hcell _ hlast).2]
  rfl

theorem ResolveImpl_SS2_eq (entries : List HistogramEntry) (w h : Nat) (maxIntensity : FloatVal)
    (px : Nat → Nat → Color3) (hw : w % 2 = 0) (hh : h % 2 = 0)
    (hblock : ∀ Y, Y < h / 2 → ∀ X, X < w / 2 →
      resolveBlockSS2 entries w (scaleFactorSS2 maxIntensity) (Y * 2) (X * 2)
        = some (px X Y)) :
    ResolveImpl_SS2 entries w h maxIntensity
      = some ((List.range (h / 2)).flatMap (fun Y => (List.range (w / 2)).map (fun X => px X Y))) := by
  unfold ResolveImpl_SS2
  rw [loopValues_two_of_even h hh, loopValues_two_of_even w hw, List.flatMap_map]
  apply collect_flatMap
  intro Y hYmem
  have hY : Y < h / 2 := List.mem_range.mp hYmem
  rw [List.map_map]
  apply collect_map_some
  intro X hXmem
  exact hblock Y hY X (List.mem_range.mp hXmem)


theorem pixelSS2Float_sample :
    pixelSS2Float sampleLog2 sampleHistogram2x2 4 0 0 = ⟨60, 27, 1⟩ := by
  have e : ∀ c, factorSS2Float sampleLog2 4 c
      = FloatVal.finite (FastLog2 c : ℚ) * (1 / (4 * FloatVal.finite 2)) := by
    intro c
    unfold factorSS2Float
    rw [log2f_of_two_le sampleLog2 4 (by norm_num), sampleLog2_four]
  simp only [pixelSS2Float, scaledCellSS2Float, e]
  decide!

/-- C24 (as amended): for every histogram of even width `w` and even height `h` whose maximum
count exists and is not 1, and for a `log2f` that is at least the integer logarithm on counts
of 2 and more, `Resolve` with supersampling 2 reads only in-range cells and writes exactly
`(w/2)·(h/2)` output pixels in row-major order, the pixel for block `(X, Y)` being the sum
over the four cells `(2X,2Y)`, `(2X+1,2Y)`, `(2X,2Y+1)`, `(2X+1,2Y+1)` of the cell's colour
scaled by the factor that `float` arithmetic gives to `FastLog2(count) * (1.f / (4 * logMax))`
(the two products and the quotient are each rounded to binary32) and narrowed to 8 bits. -/
theorem Resolve_SS2_blocks (lg : Nat → ℚ) (H : Histogram) (m : Nat) (hWF : H.WF)
    (hw : H.width % 2 = 0) (hh : H.height % 2 = 0) (hmax : maxCount H.entries = some m)
    (hm : m ≠ 1) (hlg : ∀ n, 2 ≤ n → (Nat.log 2 n : ℚ) ≤ lg n) :
    ∃ out, H.Resolve lg 2 = some out ∧
      out.length = (H.width / 2) * (H.height / 2) ∧
      ∀ X Y, X < H.width / 2 → Y < H.height / 2 →
        (2 * Y + 1) * H.width + (2 * X + 1) < H.entries.length ∧
        out[Y * (H.width / 2) + X]? = some (pixelSS2Float lg H m X Y) := by
  have hres := ResolveImpl_SS2_eq H.entries H.width H.height (log2f lg m)
    (fun X Y => pixelSS2Float lg H m X Y) hw hh
    (fun Y hY X hX => resolveBlockSS2_eq lg H m X Y hWF hw hh hX hY hmax hm hlg)
  refine ⟨_, by simp only [Histogram.Resolve, hmax]; exact hres, ?_, ?_⟩
  · rw [length_flatMap_range_map, Nat.mul_comm]
  · intro X Y hX hY
    refine ⟨?_, getElem?_flatMap_range_map (H.width / 2)
      (fun Y X => pixelSS2Float lg H m X Y) (H.height / 2) Y X hY hX⟩
    rw [hWF.1]
    exact block_index_lt H.width H.height X Y hw hh hX hY

/-- Witness for C24: the sample 2×2 histogram with maximum count 4 resolves to one pixel,
the one of block `(0, 0)`, which is `(60, 27, 1)`. -/
theorem Resolve_SS2_blocks_witness :
    sampleHistogram2x2.WF ∧ maxCount sampleHistogram2x2.entries = some 4 ∧
    (∀ n, 2 ≤ n → (Nat.log 2 n : ℚ) ≤ sampleLog2 n) ∧
    (∃ out, sampleHistogram2x2.Resolve sampleLog2 2 = some out ∧
      out.length = (sampleHistogram2x2.width / 2) * (sampleHistogram2x2.height / 2) ∧
      ∀ X Y, X < sampleHistogram2x2.width / 2 → Y < sampleHistogram2x2.height / 2 →
        (2 * Y + 1) * sampleHistogram2x2.width + (2 * X + 1)
            < sampleHistogram2x2.entries.length ∧
        out[Y * (sampleHistogram2x2.width / 2) + X]?
          = some (pixelSS2Float sampleLog2 sampleHistogram2x2 4 X Y)) ∧
    pixelSS2Float sampleLog2 sampleHistogram2x2 4 0 0 = ⟨60, 27, 1⟩ :=
  ⟨by decide, by decide, sampleLog2_ge_log,
    Resolve_SS2_blocks sampleLog2 sampleHistogram2x2 4 (by decide) (by decide) (by decide)
      (by decide) (by decide) sampleLog2_ge_log,
    pixelSS2Float_sample⟩

/-- C24 (as stated) fails in three ways.  On the 2×2 histogram with the cells
`(count 2^25, black)`, `(count 32, (20,0,0))` and two blank cells, with `log2f( 2^25 ) = 25`,
the code writes the pixel `(0,0,0)`: the scale factor `1.f / 100.f` rounds below `1/100`,
`5 * scaleFactor` below `1/20`, and `20 * 0.049999997` is below 1; the factor
`floorlog2(count) / (4·logMax)` of the claim is exactly `1/20` and gives the pixel `(1,0,0)`.
When the maximum count is 1, `logMax = log2f( 1 )` is 0, the scale factor `1 / (4·0)` is
infinite, and the intensity `FastLog2( 1 ) · inf = 0 · inf` is a NaN, whose conversion to a
colour channel is undefined.  On the 0×0 histogram the maximum does not exist. -/
theorem Resolve_SS2_fails :
    (sampleHistogramRounding.WF ∧ sampleHistogramRounding.width % 2 = 0 ∧
      sampleHistogramRounding.height % 2 = 0 ∧
      maxCount sampleHistogramRounding.entries = some 33554432 ∧
      ∀ lg : Nat → ℚ, lg 33554432 = 25 →
        sampleHistogramRounding.Resolve lg 2 = some [⟨0, 0, 0⟩] ∧
        pixelSS2 lg sampleHistogramRounding 33554432 0 0 = ⟨1, 0, 0⟩) ∧
    (sampleHistogramMaxOne.WF ∧ sampleHistogramMaxOne.width % 2 = 0 ∧
      sampleHistogramMaxOne.height % 2 = 0 ∧
      maxCount sampleHistogramMaxOne.entries = some 1 ∧
      ∀ lg : Nat → ℚ,
        scaleFactorSS2 (log2f lg 1) = FloatVal.posInf ∧
        cellIntensitySS2 (scaleFactorSS2 (log2f lg 1)) 1 = FloatVal.nan ∧
        sampleHistogramMaxOne.Resolve lg 2 = none) ∧
    (∀ lg : Nat → ℚ, (Histogram.new 0 0).Resolve lg 2 = none) := by
  refine ⟨⟨by decide, rfl, rfl, by decide, ?_⟩, ⟨by decide, rfl, rfl, by decide, ?_⟩,
    fun _ => rfl⟩
  · intro lg h25
    constructor
    · rw [Resolve_SS2_of_log lg sampleHistogramRounding 33554432 25 (by decide) (by norm_num) h25]
      decide!
    · simp only [pixelSS2, scaledCellSS2, factorSS2, h25]
      decide!
  · intro lg
    have hsf : scaleFactorSS2 (log2f lg 1) = FloatVal.posInf := by
      have e : log2f lg 1 = FloatVal.finite 0 := rfl
      rw [e]
      decide!
    have hI : cellIntensitySS2 FloatVal.posInf 1 = FloatVal.nan := by decide!
    refine ⟨hsf, by rw [hsf]; exact hI, ?_⟩
    have hmax : maxCount sampleHistogramMaxOne.entries = some 1 := by decide
    have hloop : loopValues 2 2 = [0] := by decide
    have hblock :
        resolveBlockSS2 sampleHistogramMaxOne.entries 2 FloatVal.posInf 0 0 = none := by
      simp only [resolveBlockSS2, sampleHistogramMaxOne, Nat.zero_mul, Nat.zero_add,
        List.getElem?_cons_zero, List.getElem?_cons_succ, Nat.reduceAdd, Nat.one_mul, hI,
        Color3.mul_nan]
    simp only [Histogram.Resolve, hmax, ResolveImpl_SS2, hsf]
    have hw : sampleHistogramMaxOne.width = 2 := rfl
    have hh : sampleHistogramMaxOne.height = 2 := rfl
    rw [hw, hh, hloop]
    simp only [List.flatMap_cons, List.flatMap_nil, List.map_cons, List.map_nil,
      List.append_nil, hblock, collect]

end flame
